import Mathlib

/-!
# An expiring, fixed-capacity key-value cache

Shallow embedding of package `cache` (`cache/cache.go`, `cache/expiration.go`) and of the
part of Go's `container/heap` that it calls, followed by the verification of the cache
contract.

Modelling conventions.

* `*Entry` pointers are addresses into an explicit object memory (`Cache.objs`): the map and
  the heap slice both hold addresses, so the aliasing between `c.cache[key]` and
  `(*c.expirations)[i]` of the Go code is kept.  An address is allocated by `addNewEntry`
  only; an evicted entry stays in the memory as garbage.
* A Go run-time panic (index out of range, nil dereference) is the result `none`.
  The loops (`up`, `down`, `Prune`, `ensureCapacity`) are bounded by a fuel that is fixed by
  the calling code from the heap length; running out of fuel is `none` as well.
* `time.Time` is an integer number of nanoseconds, `time.Duration` an integer; every call
  of a cache method takes the reading `now` that `time.Now()` returns during that call.
  `Set` reads the clock twice, in `ensureCapacity` and again when it writes the entry:
  `Cache.SetAt` takes both readings, and `Cache.Set` is the call in which the two readings
  are equal.  A call with the readings `nowA` and `nowB` is the call `Cache.Set` at `nowA`
  with the duration `exp + (nowB - nowA)` (`SetAt_eq_Set`).
* The `sync.RWMutex` and the logger are not part of the state: a method is modelled as the
  sequential transformation it performs while it holds the lock.
* Counters, lengths and indices are unbounded integers (no 64-bit wrap-around).
-/

namespace Img

/-! ## Data model -/

/-- Entry holds an expirable cached value. -/
structure Entry where
  Key : String
  Value : String
  Expiration : Int
  Index : Int
deriving DecidableEq

/-- The three counters of a cache. -/
structure internalStats where
  Hits : Int
  Misses : Int
  Evictions : Int
deriving DecidableEq

/-- Stats provides a snapshot of cache history since instantiation (domain.go). -/
structure Stats where
  Hits : Int
  Misses : Int
  Evictions : Int
deriving DecidableEq

/-- The two sentinel errors of the package. -/
inductive Sentinel where
  | ErrNotFound
  | ErrCapacity
deriving DecidableEq

/-- An error built by `fmt.Errorf("... %w", ..., sentinel)`: its text and the sentinel it
wraps (what `errors.Is` finds). -/
structure Error where
  text : String
  wraps : Sentinel
deriving DecidableEq

/-- The text of a sentinel error. -/
def Sentinel.text : Sentinel → String
  | .ErrNotFound => "not found"
  | .ErrCapacity => "capacity"

/-- The object memory: the `Entry` values that `*Entry` pointers refer to. -/
abbrev Objs := List Entry

/-- Expirations is a slice of entry pointers (`type Expirations []*Entry`). -/
abbrev Expirations := List Nat

/-- The Go map `map[string]*Entry` as an association list. -/
abbrev Store := List (String × Nat)

/-- Cache state: object memory, map, heap slice, capacity and counters. -/
structure Cache where
  objs : Objs
  cache : Store
  expirations : Expirations
  maxSize : Int
  stats : internalStats
deriving DecidableEq

/-! ## The map -/

/-- Map lookup `c.cache[key]`. -/
def Store.get : Store → String → Option Nat
  | [], _ => none
  | (k, p) :: t, key => if k = key then some p else Store.get t key

/-- Map assignment `c.cache[key] = entry`. -/
def Store.put : Store → String → Nat → Store
  | [], key, p => [(key, p)]
  | (k, q) :: t, key, p => if k = key then (key, p) :: t else (k, q) :: Store.put t key p

/-- Map deletion `delete(c.cache, key)`. -/
def Store.del (s : Store) (key : String) : Store :=
  s.filter (fun kv => decide (kv.1 ≠ key))

/-! ## The heap slice (expiration.go) -/

/-- Slice indexing `e[i]`; out of range is a panic. -/
def Expirations.slot (e : Expirations) (i : Int) : Option Nat :=
  if 0 ≤ i then e[i.toNat]? else none

/-- Method `Len`. -/
def Expirations.Len (e : Expirations) : Int := e.length

/-- Method `Less`: `e[i].Expiration.Before(e[j].Expiration)`. -/
def Expirations.Less (m : Objs) (e : Expirations) (i j : Int) : Option Bool := do
  let a ← e.slot i
  let b ← e.slot j
  let x ← m[a]?
  let y ← m[b]?
  some (decide (x.Expiration < y.Expiration))

/-- Method `Swap`: exchange two slots, then store the new positions in the entries. -/
def Expirations.Swap (m : Objs) (e : Expirations) (i j : Int) : Option (Objs × Expirations) := do
  let a ← e.slot i
  let b ← e.slot j
  let e1 := (e.set i.toNat b).set j.toNat a
  let pi ← Expirations.slot e1 i
  let x ← m[pi]?
  let m1 := m.set pi { x with Index := i }
  let pj ← Expirations.slot e1 j
  let y ← m1[pj]?
  let m2 := m1.set pj { y with Index := j }
  some (m2, e1)

/-- Method `Push`: record the position in the entry and append it. -/
def Expirations.Push (m : Objs) (e : Expirations) (p : Nat) : Option (Objs × Expirations) := do
  let n := e.Len
  let x ← m[p]?
  some (m.set p { x with Index := n }, e ++ [p])

/-- Method `Pop`: cut the last slot off, after marking its entry with index -1. -/
def Expirations.Pop (m : Objs) (e : Expirations) : Option (Objs × Expirations × Nat) := do
  let n := e.Len
  let p ← e.slot (n - 1)
  let x ← m[p]?
  some (m.set p { x with Index := -1 }, e.take (n - 1).toNat, p)

/-! ## Go's container/heap, as called by the cache -/

namespace heap

/-- Modelled from the spec: `up` of Go's `container/heap`, which is not among the repository
sources (spec 4.1, sift up), in the form of the standard library: the loop
`i := (j - 1) / 2; if i == j || !h.Less(j, i) { break }; h.Swap(i, j); j = i`, the division
being Go's truncated division. -/
def upLoop : Nat → Objs → Expirations → Int → Option (Objs × Expirations)
  | 0, _, _, _ => none
  | fuel + 1, m, e, j =>
    let i := (j - 1).tdiv 2
    if i = j then some (m, e)
    else
      match Expirations.Less m e j i with
      | none => none
      | some false => some (m, e)
      | some true =>
        match Expirations.Swap m e i j with
        | none => none
        | some (m1, e1) => upLoop fuel m1 e1 i

/-- Modelled from the spec: function `up(h, j)` of `container/heap` (spec 4.1, sift up);
the fuel is the heap length plus one. -/
def up (m : Objs) (e : Expirations) (j : Int) : Option (Objs × Expirations) :=
  upLoop (e.length + 1) m e j

/-- Modelled from the spec: the choice of the child in `down` of `container/heap`, which is
not among the repository sources (spec 4.1, sift down):
`j := j1; if j2 := j1 + 1; j2 < n && h.Less(j2, j1) { j = j2 }`. -/
def smallerChild (m : Objs) (e : Expirations) (j1 n : Int) : Option Int :=
  let j2 := j1 + 1
  if j2 < n then
    match Expirations.Less m e j2 j1 with
    | none => none
    | some true => some j2
    | some false => some j1
  else some j1

/-- Modelled from the spec: the loop of `down(h, i0, n)` of `container/heap` (spec 4.1, sift
down), in the form of the standard library: `j1 := 2*i + 1; if j1 >= n || j1 < 0 { break }`,
choice of the child `j`, `if !h.Less(j, i) { break }; h.Swap(i, j); i = j`.  The result
carries the final position `i`. -/
def downLoop : Nat → Objs → Expirations → Int → Int → Option (Objs × Expirations × Int)
  | 0, _, _, _, _ => none
  | fuel + 1, m, e, i, n =>
    let j1 := 2 * i + 1
    if j1 ≥ n ∨ j1 < 0 then some (m, e, i)
    else
      match smallerChild m e j1 n with
      | none => none
      | some j =>
        match Expirations.Less m e j i with
        | none => none
        | some false => some (m, e, i)
        | some true =>
          match Expirations.Swap m e i j with
          | none => none
          | some (m1, e1) => downLoop fuel m1 e1 j n

/-- Modelled from the spec: function `down(h, i0, n)` of `container/heap` (spec 4.1, sift
down); it reports whether the element moved (`i > i0`).  The fuel is the heap length plus
one. -/
def down (m : Objs) (e : Expirations) (i0 n : Int) : Option (Objs × Expirations × Bool) :=
  match downLoop (e.length + 1) m e i0 n with
  | none => none
  | some (m1, e1, i) => some (m1, e1, decide (i > i0))

/-- Modelled from the spec: `heap.Push(h, x)` of `container/heap` (spec 4.1, insert: append
and sift up): `h.Push(x); up(h, h.Len()-1)`. -/
def Push (m : Objs) (e : Expirations) (p : Nat) : Option (Objs × Expirations) :=
  match Expirations.Push m e p with
  | none => none
  | some (m1, e1) => up m1 e1 (e1.Len - 1)

/-- Modelled from the spec: `heap.Fix(h, i)` of `container/heap` (spec 4.1, fix: sift down
or up as needed): `if !down(h, i, h.Len()) { up(h, i) }`. -/
def Fix (m : Objs) (e : Expirations) (i : Int) : Option (Objs × Expirations) :=
  match down m e i e.Len with
  | none => none
  | some (m1, e1, true) => some (m1, e1)
  | some (m1, e1, false) => up m1 e1 i

/-- Modelled from the spec: `heap.Remove(h, i)` of `container/heap` (spec 4.1, removeAt: swap
with the last element and sift):
`n := h.Len() - 1; if n != i { h.Swap(i, n); if !down(h, i, n) { up(h, i) } }; return h.Pop()`. -/
def Remove (m : Objs) (e : Expirations) (i : Int) : Option (Objs × Expirations × Nat) :=
  let n := e.Len - 1
  if n ≠ i then
    match Expirations.Swap m e i n with
    | none => none
    | some (m1, e1) =>
      match down m1 e1 i n with
      | none => none
      | some (m2, e2, true) => Expirations.Pop m2 e2
      | some (m2, e2, false) =>
        match up m2 e2 i with
        | none => none
        | some (m3, e3) => Expirations.Pop m3 e3
  else Expirations.Pop m e

end heap

/-! ## The cache (cache.go) -/

/-- Constructor `New(maxSize)`. -/
def New (maxSize : Int) : Cache :=
  { objs := [], cache := [], expirations := [], maxSize := maxSize,
    stats := { Hits := 0, Misses := 0, Evictions := 0 } }

/-- Method `Stats`. -/
def Cache.Stats (c : Cache) : Stats :=
  { Hits := c.stats.Hits, Misses := c.stats.Misses, Evictions := c.stats.Evictions }

/-- Method `evict(entry)`, the entry given by its address. -/
def Cache.evict (c : Cache) (p : Nat) : Option Cache :=
  match c.objs[p]? with
  | none => none
  | some entry =>
    match heap.Remove c.objs c.expirations entry.Index with
    | none => none
    | some (m1, e1, _) =>
      some { c with
        objs := m1
        cache := Store.del c.cache entry.Key
        expirations := e1
        stats := { c.stats with Evictions := c.stats.Evictions + 1 } }

/-- The `for len(c.cache) >= c.maxSize` loop of `ensureCapacity`. -/
def Cache.ensureCapacityLoop : Nat → Cache → Int → Option Cache
  | 0, _, _ => none
  | fuel + 1, c, now =>
    if (c.cache.length : Int) ≥ c.maxSize then
      match c.expirations.slot 0 with
      | none => none
      | some p =>
        match c.objs[p]? with
        | none => none
        | some entry =>
          if entry.Expiration > now then some c
          else
            match c.evict p with
            | none => none
            | some c1 => Cache.ensureCapacityLoop fuel c1 now
    else some c

/-- Method `ensureCapacity`. -/
def Cache.ensureCapacity (c : Cache) (now : Int) : Option Cache :=
  if c.cache.length = 0 then some c
  else Cache.ensureCapacityLoop (c.expirations.length + 1) c now

/-- Method `addNewEntry`: allocate the entry, enter it in the map, push it on the heap. -/
def Cache.addNewEntry (c : Cache) (key value : String) (exp now : Int) : Option Cache :=
  let p := c.objs.length
  let m0 := c.objs ++ [{ Key := key, Value := value, Expiration := now + exp, Index := 0 }]
  match heap.Push m0 c.expirations p with
  | none => none
  | some (m1, e1) =>
    some { c with objs := m1, cache := Store.put c.cache key p, expirations := e1 }

/-- Method `updateEntry`, the entry given by its address. -/
def Cache.updateEntry (c : Cache) (p : Nat) (value : String) (exp now : Int) : Option Cache :=
  match c.objs[p]? with
  | none => none
  | some entry =>
    let m0 := c.objs.set p { entry with Value := value, Expiration := now + exp }
    match heap.Fix m0 c.expirations entry.Index with
    | none => none
    | some (m1, e1) => some { c with objs := m1, expirations := e1 }

/-- Method `Set`, its two clock readings being equal (`Cache.SetAt` takes both). -/
def Cache.Set (c : Cache) (key value : String) (exp now : Int) : Option (Cache × Option Error) :=
  match c.ensureCapacity now with
  | none => none
  | some c1 =>
    match Store.get c1.cache key with
    | some p =>
      match c1.updateEntry p value exp now with
      | none => none
      | some c2 => some (c2, none)
    | none =>
      if (c1.cache.length : Int) ≥ c1.maxSize then
        some (c1, some
          { text := "cannot add key " ++ key ++ ": " ++ Sentinel.ErrCapacity.text,
            wraps := Sentinel.ErrCapacity })
      else
        match c1.addNewEntry key value exp now with
        | none => none
        | some c2 => some (c2, none)

/-- Method `Set` with the two clock readings that one call takes: `nowA` is the reading of
`ensureCapacity` (cache.go line 161), `nowB` the later reading of `updateEntry` (line 97) or
`addNewEntry` (line 88), from which the new expiration is computed. -/
def Cache.SetAt (c : Cache) (key value : String) (exp nowA nowB : Int) :
    Option (Cache × Option Error) :=
  match c.ensureCapacity nowA with
  | none => none
  | some c1 =>
    match Store.get c1.cache key with
    | some p =>
      match c1.updateEntry p value exp nowB with
      | none => none
      | some c2 => some (c2, none)
    | none =>
      if (c1.cache.length : Int) ≥ c1.maxSize then
        some (c1, some
          { text := "cannot add key " ++ key ++ ": " ++ Sentinel.ErrCapacity.text,
            wraps := Sentinel.ErrCapacity })
      else
        match c1.addNewEntry key value exp nowB with
        | none => none
        | some c2 => some (c2, none)

/-- Method `Get`: the new state (counters), the value and the error. -/
def Cache.Get (c : Cache) (key : String) (now : Int) : Option (Cache × String × Option Error) :=
  match Store.get c.cache key with
  | none =>
    some ({ c with stats := { c.stats with Misses := c.stats.Misses + 1 } }, "", some
      { text := "get key " ++ key ++ ": " ++ Sentinel.ErrNotFound.text,
        wraps := Sentinel.ErrNotFound })
  | some p =>
    match c.objs[p]? with
    | none => none
    | some entry =>
      if entry.Expiration < now then
        some ({ c with stats := { c.stats with Misses := c.stats.Misses + 1 } }, "", some
          { text := "expired key " ++ key ++ ": " ++ Sentinel.ErrNotFound.text,
            wraps := Sentinel.ErrNotFound })
      else
        some ({ c with stats := { c.stats with Hits := c.stats.Hits + 1 } }, entry.Value, none)

/-- One second, in nanoseconds (`time.Second`). -/
def second : Int := 1000000000

/-- Method `Delete`: expire the key, staging it for eventual removal. -/
def Cache.Delete (c : Cache) (key : String) (now : Int) : Option (Cache × Option Error) :=
  match Store.get c.cache key with
  | none =>
    some (c, some
      { text := "delete key " ++ key ++ ": " ++ Sentinel.ErrNotFound.text,
        wraps := Sentinel.ErrNotFound })
  | some p =>
    match c.objs[p]? with
    | none => none
    | some entry =>
      let m0 := c.objs.set p { entry with Expiration := now + (-1) * second }
      match heap.Fix m0 c.expirations entry.Index with
      | none => none
      | some (m1, e1) => some ({ c with objs := m1, expirations := e1 }, none)

/-- The loop of `Prune`. -/
def Cache.pruneLoop : Nat → Cache → Int → Option Cache
  | 0, _, _ => none
  | fuel + 1, c, now =>
    if c.cache.length = 0 then some c
    else
      match c.expirations.slot 0 with
      | none => none
      | some p =>
        match c.objs[p]? with
        | none => none
        | some entry =>
          if entry.Expiration > now then some c
          else
            match c.evict p with
            | none => none
            | some c1 => Cache.pruneLoop fuel c1 now

/-- Method `Prune`. -/
def Cache.Prune (c : Cache) (now : Int) : Option Cache :=
  Cache.pruneLoop (c.expirations.length + 1) c now

/-! ## Specification vocabulary: invariants, observations, call sequences -/

/-- The data of an entry apart from its heap index. -/
def Entry.core (x : Entry) : String × String × Int := (x.Key, x.Value, x.Expiration)

/-- Two object memories that differ in `Index` fields only. -/
def Frame (m m' : Objs) : Prop := ∀ p : Nat, (m'[p]?).map Entry.core = (m[p]?).map Entry.core

/-- Every slot of the heap refers to an allocated entry whose `Index` is the slot position. -/
def IdxOK (m : Objs) (e : Expirations) : Prop :=
  ∀ k p : Nat, e[k]? = some p → ∃ x, m[p]? = some x ∧ x.Index = (k : Int)

/-- Expiration of the entry at an address (0 for an unallocated address). -/
def expOf (m : Objs) (p : Nat) : Int :=
  match m[p]? with
  | some x => x.Expiration
  | none => 0

/-- Expiration of the entry in a heap slot. -/
def keyAt (m : Objs) (e : Expirations) (k : Nat) : Int :=
  match e[k]? with
  | some p => expOf m p
  | none => 0

/-- Min-heap order on the first `n` slots: no slot is earlier than its parent. -/
def HeapOrd (K : Nat → Int) (n : Nat) : Prop :=
  ∀ k, 0 < k → k < n → K ((k - 1) / 2) ≤ K k

/-- Heap order on the first `n` slots, except possibly between slot `j` and its parent;
the parent of `j` is not later than the children of `j`. -/
def UpPre (K : Nat → Int) (n j : Nat) : Prop :=
  (∀ k, 0 < k → k < n → k ≠ j → K ((k - 1) / 2) ≤ K k) ∧
  (∀ k, 0 < k → k < n → (k - 1) / 2 = j → 0 < j → K ((j - 1) / 2) ≤ K k)

/-- Heap order on the first `n` slots, except possibly at the edges that touch slot `i`;
the parent of `i` is not later than the children of `i`. -/
def DownPre (K : Nat → Int) (n i : Nat) : Prop :=
  (∀ k, 0 < k → k < n → k ≠ i → (k - 1) / 2 ≠ i → K ((k - 1) / 2) ≤ K k) ∧
  (∀ k, 0 < k → k < n → (k - 1) / 2 = i → 0 < i → K ((i - 1) / 2) ≤ K k)

/-- Representation invariant: the heap slots carry their own positions and are in heap
order, the map has one address per key, the addresses of the map are those of the heap,
every mapped entry carries its key, and the map is empty or within the capacity. -/
structure Inv (c : Cache) : Prop where
  idx : IdxOK c.objs c.expirations
  ord : HeapOrd (keyAt c.objs c.expirations) c.expirations.length
  keys : (c.cache.map Prod.fst).Nodup
  pair : (c.cache.map Prod.snd).Perm c.expirations
  key : ∀ k p, (k, p) ∈ c.cache → ∃ x, c.objs[p]? = some x ∧ x.Key = k
  cap : c.cache = [] ∨ (c.cache.length : Int) ≤ c.maxSize

/-- An entry is live at `now` when its expiration is after `now`. -/
def liveAt (m : Objs) (now : Int) (p : Nat) : Bool := decide (expOf m p > now)

/-- The entry stored under a key: the address found in the map, dereferenced. -/
def Cache.lookup (c : Cache) (key : String) : Option Entry :=
  match Store.get c.cache key with
  | none => none
  | some p => c.objs[p]?

/-- A call of one of the four methods, with the clock reading taken during the call. -/
inductive Op where
  | set (key value : String) (exp now : Int)
  | get (key : String) (now : Int)
  | delete (key : String) (now : Int)
  | prune (now : Int)
deriving DecidableEq

/-- The state after one call (`none` when the call panics). -/
def Cache.step (c : Cache) : Op → Option Cache
  | .set key value exp now => (c.Set key value exp now).map (fun r => r.1)
  | .get key now => (c.Get key now).map (fun r => r.1)
  | .delete key now => (c.Delete key now).map (fun r => r.1)
  | .prune now => c.Prune now

/-- The state after a sequence of calls. -/
def Cache.run (c : Cache) : List Op → Option Cache
  | [] => some c
  | op :: ops =>
    match c.step op with
    | none => none
    | some c1 => Cache.run c1 ops

/-- A state is reachable when a sequence of calls leads to it from a new cache. -/
def Reachable (c : Cache) : Prop :=
  ∃ (maxSize : Int) (ops : List Op), (New maxSize).run ops = some c

/-- The error that `Set` returns at capacity. -/
def capacityError (key : String) : Error :=
  { text := "cannot add key " ++ key ++ ": " ++ Sentinel.ErrCapacity.text,
    wraps := Sentinel.ErrCapacity }

/-- The error that `Get` returns for an absent key. -/
def getError (key : String) : Error :=
  { text := "get key " ++ key ++ ": " ++ Sentinel.ErrNotFound.text,
    wraps := Sentinel.ErrNotFound }

/-- The error that `Get` returns for an expired key. -/
def expiredError (key : String) : Error :=
  { text := "expired key " ++ key ++ ": " ++ Sentinel.ErrNotFound.text,
    wraps := Sentinel.ErrNotFound }

/-- The state after a `Get` that misses. -/
def Cache.missed (c : Cache) : Cache :=
  { c with stats := { c.stats with Misses := c.stats.Misses + 1 } }

/-- The state after a `Get` that hits. -/
def Cache.hit (c : Cache) : Cache :=
  { c with stats := { c.stats with Hits := c.stats.Hits + 1 } }

/-- A full cache of capacity 1: the state after `Set("a", "x", 5)` at time 0 on `New(1)`. -/
def demoFull : Cache :=
  { objs := [{ Key := "a", Value := "x", Expiration := 5, Index := 0 }],
    cache := [("a", 0)],
    expirations := [0],
    maxSize := 1,
    stats := { Hits := 0, Misses := 0, Evictions := 0 } }

/-- The state `demoFull` after its only entry was evicted. -/
def demoPruned : Cache :=
  { objs := [{ Key := "a", Value := "x", Expiration := 5, Index := -1 }],
    cache := [],
    expirations := [],
    maxSize := 1,
    stats := { Hits := 0, Misses := 0, Evictions := 1 } }

/-- The state `demoFull` after `Set("a", "z", 7)` at time 9: the expired entry of "a" was
evicted and a new entry was allocated for "a". -/
def demoReplaced : Cache :=
  { objs := [{ Key := "a", Value := "x", Expiration := 5, Index := -1 },
             { Key := "a", Value := "z", Expiration := 16, Index := 0 }],
    cache := [("a", 1)],
    expirations := [1],
    maxSize := 1,
    stats := { Hits := 0, Misses := 0, Evictions := 1 } }

/-- Every allocated entry that is not in the heap carries the index -1. -/
def GarbageMarked (m : Objs) (e : Expirations) : Prop :=
  ∀ (p : Nat) (x : Entry), m[p]? = some x → p ∉ e → x.Index = -1

/-- One minute, in nanoseconds (`time.Minute`). -/
def minute : Int := 60 * second

/-- Scenario of `TestCache`: the state with the single key "key1". -/
def scenOne (x1 : Int) : Cache :=
  { objs := [{ Key := "key1", Value := "val1", Expiration := x1, Index := 0 }],
    cache := [("key1", 0)],
    expirations := [0],
    maxSize := 2,
    stats := { Hits := 0, Misses := 0, Evictions := 0 } }

/-- Scenario of `TestCache`: the state with the keys "key1" (heap slot 0) and "key2"
(heap slot 1). -/
def scenTwo (v1 : String) (x1 x2 hits : Int) : Cache :=
  { objs := [{ Key := "key1", Value := v1, Expiration := x1, Index := 0 },
             { Key := "key2", Value := "val2", Expiration := x2, Index := 1 }],
    cache := [("key1", 0), ("key2", 1)],
    expirations := [0, 1],
    maxSize := 2,
    stats := { Hits := hits, Misses := 0, Evictions := 0 } }

/-- Scenario of `TestCache`: the state after `Delete("key2")`, which moved "key2" to heap
slot 0. -/
def scenDeleted (x1 x2 misses : Int) : Cache :=
  { objs := [{ Key := "key1", Value := "newVal1", Expiration := x1, Index := 1 },
             { Key := "key2", Value := "val2", Expiration := x2, Index := 0 }],
    cache := [("key1", 0), ("key2", 1)],
    expirations := [1, 0],
    maxSize := 2,
    stats := { Hits := 2, Misses := misses, Evictions := 0 } }

/-- Scenario of `TestCache`: the state with the keys "key1" and "key4", after the entry of
"key2" was evicted. -/
def scenFour (x1 x2 x4 : Int) : Cache :=
  { objs := [{ Key := "key1", Value := "newVal1", Expiration := x1, Index := 0 },
             { Key := "key2", Value := "val2", Expiration := x2, Index := -1 },
             { Key := "key4", Value := "val4", Expiration := x4, Index := 1 }],
    cache := [("key1", 0), ("key4", 2)],
    expirations := [0, 2],
    maxSize := 2,
    stats := { Hits := 2, Misses := 2, Evictions := 1 } }

/-- Scenario of `TestCache`: the final state, after `Prune` evicted the last two entries. -/
def scenEnd (x1 x2 x4 : Int) : Cache :=
  { objs := [{ Key := "key1", Value := "newVal1", Expiration := x1, Index := -1 },
             { Key := "key2", Value := "val2", Expiration := x2, Index := -1 },
             { Key := "key4", Value := "val4", Expiration := x4, Index := -1 }],
    cache := [],
    expirations := [],
    maxSize := 2,
    stats := { Hits := 2, Misses := 2, Evictions := 3 } }

/-- A heap of three entries: the state after `Set("a", "x", 50)` at 0, `Set("b", "y", 30)`
at 1, `Set("c", "z", 40)` at 2, the re-timing `Set("b", "w", 100)` at 3, `Delete("a")` at 4
and `Set("d", "v", 60)` at 5 on `New(3)`; the last call evicted the entry of "a". -/
def demoHeap : Cache :=
  { objs := [{ Key := "a", Value := "x", Expiration := -999999996, Index := -1 },
             { Key := "b", Value := "w", Expiration := 103, Index := 1 },
             { Key := "c", Value := "z", Expiration := 42, Index := 0 },
             { Key := "d", Value := "v", Expiration := 65, Index := 2 }],
    cache := [("b", 1), ("c", 2), ("d", 3)],
    expirations := [2, 1, 3],
    maxSize := 3,
    stats := { Hits := 0, Misses := 0, Evictions := 1 } }

/-- The state `demoFull` after `Set("a", "z", 7)` with the readings 3 (capacity step) and 6
(write): the entry of "a", which expires at 5, was live at 3 and is updated in place. -/
def demoUpdated : Cache :=
  { objs := [{ Key := "a", Value := "z", Expiration := 13, Index := 0 }],
    cache := [("a", 0)],
    expirations := [0],
    maxSize := 1,
    stats := { Hits := 0, Misses := 0, Evictions := 0 } }

/-! ## Heap-level lemmas -/

theorem Frame.refl (m : Objs) : Frame m m := fun _ => rfl

theorem Frame.trans {m1 m2 m3 : Objs} (h12 : Frame m1 m2) (h23 : Frame m2 m3) : Frame m1 m3 :=
  fun p => (h23 p).trans (h12 p)

theorem Frame.exp_eq {m m' : Objs} (h : Frame m m') (p : Nat) : expOf m' p = expOf m p := by
  have := h p
  unfold Img.expOf
  cases h1 : m'[p]? <;> cases h2 : m[p]? <;> simp [h1, h2, Entry.core] at this ⊢
  exact this.2.2

theorem Frame.key_eq {m m' : Objs} (h : Frame m m') (e : Expirations) (k : Nat) :
    keyAt m' e k = keyAt m e k := by
  unfold Img.keyAt
  cases e[k]? <;> simp [h.exp_eq]

theorem Frame.set_index {m : Objs} {p : Nat} {x : Entry} (h : m[p]? = some x) (i : Int) :
    Frame m (m.set p { x with Index := i }) := by
  intro q
  rw [List.getElem?_set]
  by_cases hq : p = q
  · subst hq
    have hlt : p < m.length := by
      rcases List.getElem?_eq_some_iff.1 h with ⟨hl, _⟩; exact hl
    simp [hlt, h, Entry.core]
  · simp [hq]

theorem slot_natCast (e : Expirations) (k : Nat) : Expirations.slot e (k : Int) = e[k]? := by
  simp [Expirations.slot]

theorem slot_neg (e : Expirations) (i : Int) (h : i < 0) : Expirations.slot e i = none := by
  simp [Expirations.slot]; omega

theorem IdxOK.inj {m : Objs} {e : Expirations} (h : IdxOK m e) {k1 k2 p : Nat}
    (h1 : e[k1]? = some p) (h2 : e[k2]? = some p) : k1 = k2 := by
  obtain ⟨x, hx, hi⟩ := h k1 p h1
  obtain ⟨y, hy, hj⟩ := h k2 p h2
  rw [hx] at hy
  cases hy
  omega

theorem parent_cast (j : Nat) : ((j : Int) - 1).tdiv 2 = (((j - 1) / 2 : Nat) : Int) := by
  cases j with
  | zero => decide
  | succ n =>
    have : ((n + 1 : Nat) : Int) - 1 = (n : Int) := by push_cast; ring
    rw [this]
    simp [Int.tdiv]

theorem getElem?_lt {α : Type} {l : List α} {k : Nat} {a : α} (h : l[k]? = some a) :
    k < l.length := (List.getElem?_eq_some_iff.1 h).1

/-- Effect of a swap of two distinct, valid positions. -/
theorem Swap_spec {m : Objs} {e : Expirations} (hidx : IdxOK m e) {i j a b : Nat}
    (ha : e[i]? = some a) (hb : e[j]? = some b) (hij : i ≠ j) :
    ∃ m', Expirations.Swap m e (i : Int) (j : Int) = some (m', (e.set i b).set j a) ∧
      Frame m m' ∧ IdxOK m' ((e.set i b).set j a) := by
  obtain ⟨x, hx, hxi⟩ := hidx j b hb
  obtain ⟨y, hy, hyi⟩ := hidx i a ha
  have hab : a ≠ b := by
    intro h; subst h; exact hij (hidx.inj ha hb)
  have hil : i < e.length := getElem?_lt ha
  have hjl : j < e.length := getElem?_lt hb
  have hbl : b < m.length := getElem?_lt hx
  have hal : a < m.length := getElem?_lt hy
  have e1i : ((e.set i b).set j a)[i]? = some b := by
    rw [List.getElem?_set]; simp [Ne.symm hij, List.getElem?_set, hil]
  have e1j : ((e.set i b).set j a)[j]? = some a := by
    rw [List.getElem?_set]; simp [hjl]
  have m1a : (m.set b { x with Index := (i : Int) })[a]? = some y := by
    rw [List.getElem?_set]; simp [Ne.symm hab, hy]
  refine ⟨(m.set b { x with Index := (i : Int) }).set a { y with Index := (j : Int) },
    ?_, ?_, ?_⟩
  · simp only [Expirations.Swap, slot_natCast, ha, hb, Int.toNat_ofNat, Option.bind_eq_bind,
      Option.some_bind, e1i, e1j, hx, m1a]
  · exact (Frame.set_index hx _).trans (Frame.set_index m1a _)
  · intro k p hk
    rw [List.getElem?_set] at hk
    by_cases hkj : j = k
    · subst hkj
      simp [hjl] at hk
      subst hk
      refine ⟨{ y with Index := (j : Int) }, ?_, rfl⟩
      rw [List.getElem?_set]; simp [hal]
    · simp only [hkj, if_false] at hk
      rw [List.getElem?_set] at hk
      by_cases hki : i = k
      · subst hki
        simp [hil] at hk
        subst hk
        refine ⟨{ x with Index := (i : Int) }, ?_, rfl⟩
        rw [List.getElem?_set]; simp only [hab, if_false]
        rw [List.getElem?_set]; simp [hbl]
      · simp only [hki, if_false] at hk
        obtain ⟨z, hz, hzi⟩ := hidx k p hk
        have hpa : a ≠ p := by
          intro h; subst h; exact hki (hidx.inj ha hk)
        have hpb : b ≠ p := by
          intro h; subst h; exact hkj (hidx.inj hb hk)
        refine ⟨z, ?_, hzi⟩
        rw [List.getElem?_set]; simp only [hpa, if_false]
        rw [List.getElem?_set]; simp only [hpb, if_false]
        exact hz

theorem IdxOK.nodup {m : Objs} {e : Expirations} (h : IdxOK m e) : e.Nodup := by
  rw [List.nodup_iff_getElem?_ne_getElem?]
  intro i j hij hj heq
  have hi : i < e.length := by omega
  have h1 : e[i]? = some e[i] := List.getElem?_eq_getElem hi
  have h2 : e[j]? = some e[i] := by rw [← heq]; exact h1
  have := h.inj h1 h2
  omega

theorem keyAt_eq {m : Objs} {e : Expirations} {k p : Nat} (h : e[k]? = some p) :
    keyAt m e k = expOf m p := by
  simp [keyAt, h]

/-- A swap of two distinct valid positions: what it returns and what it preserves. -/
theorem Swap_step {m : Objs} {e : Expirations} (hidx : IdxOK m e) {i j : Nat}
    (hi : i < e.length) (hj : j < e.length) (hij : i ≠ j) :
    ∃ m' e', Expirations.Swap m e (i : Int) (j : Int) = some (m', e') ∧
      Frame m m' ∧ IdxOK m' e' ∧ e'.Perm e ∧ e'.length = e.length ∧
      e'[i]? = e[j]? ∧ e'[j]? = e[i]? ∧ (∀ k, k ≠ i → k ≠ j → e'[k]? = e[k]?) ∧
      keyAt m' e' i = keyAt m e j ∧ keyAt m' e' j = keyAt m e i ∧
      (∀ k, k ≠ i → k ≠ j → keyAt m' e' k = keyAt m e k) := by
  have ha : e[i]? = some e[i] := List.getElem?_eq_getElem hi
  have hb : e[j]? = some e[j] := List.getElem?_eq_getElem hj
  obtain ⟨m', hsw, hfr, hidx'⟩ := Swap_spec hidx ha hb hij
  have e1i : ((e.set i e[j]).set j e[i])[i]? = e[j]? := by
    rw [List.getElem?_set]; simp [Ne.symm hij, List.getElem?_set, hi, hb]
  have e1j : ((e.set i e[j]).set j e[i])[j]? = e[i]? := by
    rw [List.getElem?_set]; simp [hj, ha]
  have e1k : ∀ k, k ≠ i → k ≠ j → ((e.set i e[j]).set j e[i])[k]? = e[k]? := by
    intro k hki hkj
    rw [List.getElem?_set]; simp only [Ne.symm hkj, if_false]
    rw [List.getElem?_set]; simp only [Ne.symm hki, if_false]
  have hperm : ((e.set i e[j]).set j e[i]).Perm e := by
    rw [List.perm_ext_iff_of_nodup hidx'.nodup hidx.nodup]
    intro p
    simp only [List.mem_iff_getElem?]
    constructor
    · rintro ⟨k, hk⟩
      by_cases hki : k = i
      · subst hki; exact ⟨j, by rw [← e1i]; exact hk⟩
      · by_cases hkj : k = j
        · subst hkj; exact ⟨i, by rw [← e1j]; exact hk⟩
        · exact ⟨k, by rw [← e1k k hki hkj]; exact hk⟩
    · rintro ⟨k, hk⟩
      by_cases hki : k = i
      · subst hki; exact ⟨j, by rw [e1j]; exact hk⟩
      · by_cases hkj : k = j
        · subst hkj; exact ⟨i, by rw [e1i]; exact hk⟩
        · exact ⟨k, by rw [e1k k hki hkj]; exact hk⟩
  refine ⟨m', _, hsw, hfr, hidx', hperm, by simp, e1i, e1j, e1k, ?_, ?_, ?_⟩
  · rw [hfr.key_eq]; simp [keyAt, e1i]
  · rw [hfr.key_eq]; simp [keyAt, e1j]
  · intro k hki hkj
    rw [hfr.key_eq]; simp [keyAt, e1k k hki hkj]

/-- Method `Less` on two valid positions compares the expirations found there. -/
theorem Less_spec {m : Objs} {e : Expirations} (hidx : IdxOK m e) {i j : Nat}
    (hi : i < e.length) (hj : j < e.length) :
    Expirations.Less m e (i : Int) (j : Int) = some (decide (keyAt m e i < keyAt m e j)) := by
  have ha : e[i]? = some e[i] := List.getElem?_eq_getElem hi
  have hb : e[j]? = some e[j] := List.getElem?_eq_getElem hj
  obtain ⟨x, hx, _⟩ := hidx i _ ha
  obtain ⟨y, hy, _⟩ := hidx j _ hb
  simp [Expirations.Less, slot_natCast, ha, hb, hx, hy, keyAt, expOf]

theorem UpPre.after_swap {K K1 : Nat → Int} {n j : Nat} (hpre : UpPre K n j) (hj0 : 0 < j)
    (hjn : j < n) (hlt : K j < K ((j - 1) / 2))
    (hKi : K1 ((j - 1) / 2) = K j) (hKj : K1 j = K ((j - 1) / 2))
    (hKk : ∀ k, k ≠ (j - 1) / 2 → k ≠ j → K1 k = K k) :
    UpPre K1 n ((j - 1) / 2) := by
  constructor
  · intro k hk hkn hki
    by_cases hkj : k = j
    · subst hkj; rw [hKi, hKj]; exact le_of_lt hlt
    · rw [hKk k hki hkj]
      have h1 := hpre.1 k hk hkn hkj
      by_cases hpi : (k - 1) / 2 = (j - 1) / 2
      · rw [hpi, hKi]; rw [hpi] at h1; linarith
      · by_cases hpj : (k - 1) / 2 = j
        · rw [hpj, hKj]; exact hpre.2 k hk hkn hpj hj0
        · rw [hKk _ hpi hpj]; exact h1
  · intro k hk hkn hpk hi0
    have h1 := hpre.1 ((j - 1) / 2) hi0 (by omega) (by omega)
    rw [hKk (((j - 1) / 2 - 1) / 2) (by omega) (by omega)]
    by_cases hkj : k = j
    · subst hkj; rw [hKj]; exact h1
    · rw [hKk k (by omega) hkj]
      have h2 := hpre.1 k hk hkn hkj
      rw [hpk] at h2
      linarith

/-- The loop of `up` started at a valid slot `j` returns, only permutes the slots up to `j`,
and turns `UpPre` into heap order. -/
theorem upLoop_spec : ∀ (fuel : Nat) (m : Objs) (e : Expirations) (j n : Nat),
    j < fuel → j < n → n ≤ e.length → IdxOK m e → UpPre (keyAt m e) n j →
    ∃ m' e', heap.upLoop fuel m e (j : Int) = some (m', e') ∧ Frame m m' ∧ IdxOK m' e' ∧
      e'.Perm e ∧ e'.length = e.length ∧ (∀ k, j < k → e'[k]? = e[k]?) ∧
      HeapOrd (keyAt m' e') n := by
  intro fuel
  induction fuel with
  | zero => intro m e j n hf; omega
  | succ fuel ih =>
    intro m e j n hf hjn hn hidx hpre
    have hpar := parent_cast j
    by_cases hj0 : j = 0
    · have hpj : (j - 1) / 2 = j := by omega
      refine ⟨m, e, ?_, Frame.refl m, hidx, List.Perm.refl e, rfl, fun _ _ => rfl, ?_⟩
      · simp only [heap.upLoop, hpar, hpj, if_true]
      · intro k hk hkn; exact hpre.1 k hk hkn (by omega)
    · have hne : ((((j - 1) / 2 : Nat)) : Int) ≠ (j : Int) := by omega
      have hless := Less_spec hidx (i := j) (j := (j - 1) / 2) (by omega) (by omega)
      by_cases hlt : keyAt m e j < keyAt m e ((j - 1) / 2)
      · obtain ⟨m1, e1, hsw, hfr, hidx1, hperm, hlen, h1i, h1j, h1k, hKi, hKj, hKk⟩ :=
          Swap_step hidx (i := (j - 1) / 2) (j := j) (by omega) (by omega) (by omega)
        have hpre1 : UpPre (keyAt m1 e1) n ((j - 1) / 2) :=
          hpre.after_swap (by omega) hjn hlt hKi hKj hKk
        obtain ⟨m', e', hup, hfr', hidx', hperm', hlen', hk', hord⟩ :=
          ih m1 e1 ((j - 1) / 2) n (by omega) (by omega) (by omega) hidx1 hpre1
        refine ⟨m', e', ?_, hfr.trans hfr', hidx', hperm'.trans hperm, by omega, ?_, hord⟩
        · simp only [heap.upLoop, hpar, hne, if_false, hless, hlt, decide_True, hsw]
          exact hup
        · intro k hk
          rw [hk' k (by omega), h1k k (by omega) (by omega)]
      · refine ⟨m, e, ?_, Frame.refl m, hidx, List.Perm.refl e, rfl, fun _ _ => rfl, ?_⟩
        · simp only [heap.upLoop, hpar, hne, if_false, hless, hlt, decide_False]
        · intro k hk hkn
          by_cases hkj : k = j
          · subst hkj; exact not_lt.1 hlt
          · exact hpre.1 k hk hkn hkj

theorem smallerChild_spec {m : Objs} {e : Expirations} (hidx : IdxOK m e) {i n : Nat}
    (hch : 2 * i + 1 < n) (hn : n ≤ e.length) :
    ∃ j : Nat, heap.smallerChild m e ((2 * i + 1 : Nat) : Int) (n : Int) = some (j : Int) ∧
      j < n ∧ (j - 1) / 2 = i ∧ i < j ∧
      ∀ k, 0 < k → k < n → (k - 1) / 2 = i → keyAt m e j ≤ keyAt m e k := by
  have c2 : ((2 * i + 1 : Nat) : Int) + 1 = ((2 * i + 2 : Nat) : Int) := by push_cast; ring
  by_cases h2 : 2 * i + 2 < n
  · have hc : ((2 * i + 2 : Nat) : Int) < (n : Int) := by exact_mod_cast h2
    have hless := Less_spec hidx (i := 2 * i + 2) (j := 2 * i + 1) (by omega) (by omega)
    by_cases hlt : keyAt m e (2 * i + 2) < keyAt m e (2 * i + 1)
    · refine ⟨2 * i + 2, ?_, h2, by omega, by omega, ?_⟩
      · simp only [heap.smallerChild, c2, hc, if_true, hless, hlt, decide_True]
      · intro k hk hkn hpk
        have : k = 2 * i + 1 ∨ k = 2 * i + 2 := by omega
        rcases this with h | h <;> subst h
        · exact le_of_lt hlt
        · exact le_refl _
    · refine ⟨2 * i + 1, ?_, hch, by omega, by omega, ?_⟩
      · simp only [heap.smallerChild, c2, hc, if_true, hless, hlt, decide_False]
      · intro k hk hkn hpk
        have : k = 2 * i + 1 ∨ k = 2 * i + 2 := by omega
        rcases this with h | h <;> subst h
        · exact le_refl _
        · exact not_lt.1 hlt
  · have hc : ¬ ((2 * i + 2 : Nat) : Int) < (n : Int) := by
      intro h; exact h2 (by exact_mod_cast h)
    refine ⟨2 * i + 1, ?_, hch, by omega, by omega, ?_⟩
    · simp only [heap.smallerChild, c2, hc, if_false]
    · intro k hk hkn hpk
      have : k = 2 * i + 1 := by omega
      subst this
      exact le_refl _

theorem DownPre.after_child_swap {K K1 : Nat → Int} {n i j : Nat} (hpre : DownPre K n i)
    (hjn : j < n) (hpj : (j - 1) / 2 = i) (hij : i < j) (hlt : K j < K i)
    (hmin : ∀ k, 0 < k → k < n → (k - 1) / 2 = i → K j ≤ K k)
    (hKi : K1 i = K j) (hKj : K1 j = K i) (hKk : ∀ k, k ≠ i → k ≠ j → K1 k = K k) :
    DownPre K1 n j := by
  constructor
  · intro k hk hkn hkj hpkj
    by_cases hki : k = i
    · subst hki
      rw [hKi, hKk ((k - 1) / 2) (by omega) (by omega)]
      exact hpre.2 j (by omega) hjn hpj hk
    · rw [hKk k hki hkj]
      by_cases hpi : (k - 1) / 2 = i
      · rw [hpi, hKi]; exact hmin k hk hkn hpi
      · rw [hKk _ hpi hpkj]; exact hpre.1 k hk hkn hki hpi
  · intro k hk hkn hpk hj0
    rw [hpj, hKi, hKk k (by omega) (by omega)]
    have := hpre.1 k hk hkn (by omega) (by omega)
    rw [hpk] at this
    exact this

theorem DownPre.settled {K : Nat → Int} {n j : Nat} (hpre : DownPre K n j)
    (hch : ∀ k, 0 < k → k < n → (k - 1) / 2 = j → K j ≤ K k)
    (hpar : 0 < j → K ((j - 1) / 2) ≤ K j) : HeapOrd K n := by
  intro k hk hkn
  by_cases hkj : k = j
  · subst hkj; exact hpar hk
  · by_cases hpk : (k - 1) / 2 = j
    · rw [hpk]; exact hch k hk hkn hpk
    · exact hpre.1 k hk hkn hkj hpk

/-- The loop of `down` started at a valid slot `i` below the bound `n` returns and only
permutes the slots below `n`.  When the element does not move nothing changes and the
element is not later than its children; when it moves, the first `n` slots end in heap
order. -/
theorem downLoop_spec : ∀ (fuel : Nat) (m : Objs) (e : Expirations) (i n : Nat),
    n < i + fuel → i < n → n ≤ e.length → IdxOK m e → DownPre (keyAt m e) n i →
    ∃ m' e', ∃ i' : Nat,
      heap.downLoop fuel m e (i : Int) (n : Int) = some (m', e', (i' : Int)) ∧
      Frame m m' ∧ IdxOK m' e' ∧ e'.Perm e ∧ e'.length = e.length ∧
      (∀ k, n ≤ k → e'[k]? = e[k]?) ∧ i ≤ i' ∧
      (i' = i → m' = m ∧ e' = e ∧
        ∀ k, 0 < k → k < n → (k - 1) / 2 = i → keyAt m e i ≤ keyAt m e k) ∧
      (i < i' → HeapOrd (keyAt m' e') n) := by
  intro fuel
  induction fuel with
  | zero => intro m e i n hf hin; omega
  | succ fuel ih =>
    intro m e i n hf hin hn hidx hpre
    have c1 : (2 * (i : Int) + 1) = ((2 * i + 1 : Nat) : Int) := by push_cast; ring
    by_cases hch : n ≤ 2 * i + 1
    · have hc : ((2 * i + 1 : Nat) : Int) ≥ (n : Int) ∨ ((2 * i + 1 : Nat) : Int) < 0 := by
        left; exact_mod_cast hch
      refine ⟨m, e, i, ?_, Frame.refl m, hidx, List.Perm.refl e, rfl, fun _ _ => rfl,
        le_refl _, ?_, ?_⟩
      · simp only [heap.downLoop, c1, hc, if_true]
      · intro _
        refine ⟨rfl, rfl, ?_⟩
        intro k hk hkn hpk; omega
      · intro h; omega
    · have hc :
          ¬ (((2 * i + 1 : Nat) : Int) ≥ (n : Int) ∨ ((2 * i + 1 : Nat) : Int) < 0) := by
        intro h
        rcases h with h | h
        · exact hch (by exact_mod_cast h)
        · omega
      obtain ⟨j, hpick, hjn, hpj, hij, hmin⟩ := smallerChild_spec hidx (i := i) (n := n)
        (by omega) hn
      have hless := Less_spec hidx (i := j) (j := i) (by omega) (by omega)
      by_cases hlt : keyAt m e j < keyAt m e i
      · obtain ⟨m1, e1, hsw, hfr, hidx1, hperm, hlen, h1i, h1j, h1k, hKi, hKj, hKk⟩ :=
          Swap_step hidx (i := i) (j := j) (by omega) (by omega) (by omega)
        have hpre1 : DownPre (keyAt m1 e1) n j :=
          hpre.after_child_swap hjn hpj hij hlt hmin hKi hKj hKk
        obtain ⟨m', e', i', hdn, hfr', hidx', hperm', hlen', hk', hle, hstay, hmoved⟩ :=
          ih m1 e1 j n (by omega) hjn (by omega) hidx1 hpre1
        refine ⟨m', e', i', ?_, hfr.trans hfr', hidx', hperm'.trans hperm, by omega, ?_,
          by omega, ?_, ?_⟩
        · simp only [heap.downLoop, c1, hc, if_false, hpick, hless, hlt, decide_True, hsw]
          exact hdn
        · intro k hk
          rw [hk' k hk, h1k k (by omega) (by omega)]
        · intro h; omega
        · intro _
          by_cases hi' : i' = j
          · obtain ⟨hm, he, hch'⟩ := hstay hi'
            subst hm; subst he
            refine hpre1.settled hch' ?_
            intro _
            rw [hpj, hKi, hKj]
            exact le_of_lt hlt
          · exact hmoved (by omega)
      · refine ⟨m, e, i, ?_, Frame.refl m, hidx, List.Perm.refl e, rfl, fun _ _ => rfl,
          le_refl _, ?_, ?_⟩
        · simp only [heap.downLoop, c1, hc, if_false, hpick, hless, hlt, decide_False]
        · intro _
          refine ⟨rfl, rfl, ?_⟩
          intro k hk hkn hpk
          exact le_trans (not_lt.1 hlt) (hmin k hk hkn hpk)
        · intro h; omega

/-- Function `down` on a valid slot: see `downLoop_spec`. -/
theorem down_spec {m : Objs} {e : Expirations} {i n : Nat} (hin : i < n) (hn : n ≤ e.length)
    (hidx : IdxOK m e) (hpre : DownPre (keyAt m e) n i) :
    ∃ m' e' b, heap.down m e (i : Int) (n : Int) = some (m', e', b) ∧
      Frame m m' ∧ IdxOK m' e' ∧ e'.Perm e ∧ e'.length = e.length ∧
      (∀ k, n ≤ k → e'[k]? = e[k]?) ∧
      (b = false → m' = m ∧ e' = e ∧
        ∀ k, 0 < k → k < n → (k - 1) / 2 = i → keyAt m e i ≤ keyAt m e k) ∧
      (b = true → HeapOrd (keyAt m' e') n) := by
  obtain ⟨m', e', i', hdn, hfr, hidx', hperm, hlen, hk, hle, hstay, hmoved⟩ :=
    downLoop_spec (e.length + 1) m e i n (by omega) hin hn hidx hpre
  refine ⟨m', e', decide ((i' : Int) > (i : Int)), ?_, hfr, hidx', hperm, hlen, hk, ?_, ?_⟩
  · simp only [heap.down, hdn]
  · intro hb
    have : ¬ ((i' : Int) > (i : Int)) := by simpa using hb
    exact hstay (by omega)
  · intro hb
    have : (i' : Int) > (i : Int) := by simpa using hb
    exact hmoved (by omega)

/-- Function `up` on a valid slot: see `upLoop_spec`. -/
theorem up_spec {m : Objs} {e : Expirations} {j n : Nat} (hjn : j < n) (hn : n ≤ e.length)
    (hidx : IdxOK m e) (hpre : UpPre (keyAt m e) n j) :
    ∃ m' e', heap.up m e (j : Int) = some (m', e') ∧ Frame m m' ∧ IdxOK m' e' ∧
      e'.Perm e ∧ e'.length = e.length ∧ (∀ k, j < k → e'[k]? = e[k]?) ∧
      HeapOrd (keyAt m' e') n :=
  upLoop_spec (e.length + 1) m e j n (by omega) hjn hn hidx hpre

/-- Function `heap.Fix` at a valid slot restores heap order after the expiration found in
that slot changed. -/
theorem Fix_spec {m : Objs} {e : Expirations} {i : Nat} (hi : i < e.length)
    (hidx : IdxOK m e) (hpre : DownPre (keyAt m e) e.length i) :
    ∃ m' e', heap.Fix m e (i : Int) = some (m', e') ∧ Frame m m' ∧ IdxOK m' e' ∧
      e'.Perm e ∧ HeapOrd (keyAt m' e') e'.length := by
  obtain ⟨m1, e1, b, hdn, hfr, hidx1, hperm, hlen, _, hstay, hmoved⟩ :=
    down_spec hi (le_refl _) hidx hpre
  cases b with
  | true =>
    refine ⟨m1, e1, ?_, hfr, hidx1, hperm, ?_⟩
    · simp only [heap.Fix, Expirations.Len, hdn]
    · rw [hlen]; exact hmoved rfl
  | false =>
    obtain ⟨hm, he, hch⟩ := hstay rfl
    subst hm; subst he
    have hup : UpPre (keyAt m1 e1) e1.length i := by
      constructor
      · intro k hk hkn hki
        by_cases hpk : (k - 1) / 2 = i
        · rw [hpk]; exact hch k hk hkn hpk
        · exact hpre.1 k hk hkn hki hpk
      · exact hpre.2
    obtain ⟨m', e', hu, hfr', hidx', hperm', hlen', _, hord⟩ :=
      up_spec hi (le_refl _) hidx hup
    refine ⟨m', e', ?_, hfr', hidx', hperm', ?_⟩
    · simp only [heap.Fix, Expirations.Len, hdn]; exact hu
    · rw [hlen']; exact hord

/-- Method `Pop` on a non-empty heap. -/
theorem Pop_spec {m : Objs} {e : Expirations} {p : Nat} (hidx : IdxOK m e)
    (hp : e[e.length - 1]? = some p) :
    ∃ m', Expirations.Pop m e = some (m', e.take (e.length - 1), p) ∧ Frame m m' ∧
      IdxOK m' (e.take (e.length - 1)) ∧ e.Perm (p :: e.take (e.length - 1)) ∧
      (∀ k, k < e.length - 1 → keyAt m' (e.take (e.length - 1)) k = keyAt m e k) := by
  have hlen : e.length - 1 < e.length := getElem?_lt hp
  obtain ⟨x, hx, _⟩ := hidx _ p hp
  have c1 : (e.length : Int) - 1 = ((e.length - 1 : Nat) : Int) := by omega
  have hfr : Frame m (m.set p { x with Index := -1 }) := Frame.set_index hx _
  refine ⟨m.set p { x with Index := -1 }, ?_, hfr, ?_, ?_, ?_⟩
  · simp only [Expirations.Pop, Expirations.Len, c1, slot_natCast, hp, Int.toNat_ofNat,
      Option.bind_eq_bind, Option.some_bind, hx]
  · intro k q hk
    rw [List.getElem?_take] at hk
    by_cases hkl : k < e.length - 1
    · simp only [hkl, if_true] at hk
      obtain ⟨z, hz, hzi⟩ := hidx k q hk
      have hpq : p ≠ q := by
        intro h; subst h
        have := hidx.inj hp hk
        omega
      refine ⟨z, ?_, hzi⟩
      rw [List.getElem?_set]; simp only [hpq, if_false]; exact hz
    · simp [hkl] at hk
  · have h1 : e = e.take (e.length - 1) ++ [p] := by
      apply List.ext_getElem?
      intro k
      rw [List.getElem?_append, List.getElem?_take]
      simp only [List.length_take]
      have : min (e.length - 1) e.length = e.length - 1 := by omega
      rw [this]
      by_cases hk : k < e.length - 1
      · simp [hk]
      · simp only [hk, if_false]
        by_cases hk2 : k = e.length - 1
        · subst hk2; simp [hp]
        · have : e.length ≤ k := by omega
          rw [List.getElem?_eq_none this]
          have : 1 ≤ k - (e.length - 1) := by omega
          exact (List.getElem?_eq_none (by simpa using this)).symm
    have h2 : (e.take (e.length - 1) ++ [p]).Perm (p :: e.take (e.length - 1)) := by
      exact List.perm_append_comm
    exact (List.Perm.of_eq h1).trans h2
  · intro k hk
    rw [hfr.key_eq]
    unfold keyAt
    rw [List.getElem?_take]
    simp only [hk, if_true]

/-- Method `Pop` keeps the heap order of the slots that stay. -/
theorem Pop_heap {m : Objs} {e : Expirations} {p : Nat} (hidx : IdxOK m e)
    (hp : e[e.length - 1]? = some p) (hord : HeapOrd (keyAt m e) (e.length - 1)) :
    ∃ m' e', Expirations.Pop m e = some (m', e', p) ∧ Frame m m' ∧ IdxOK m' e' ∧
      e.Perm (p :: e') ∧ HeapOrd (keyAt m' e') e'.length := by
  obtain ⟨m', hpop, hfr, hidx', hperm, hkey⟩ := Pop_spec hidx hp
  refine ⟨m', _, hpop, hfr, hidx', hperm, ?_⟩
  have hl : (e.take (e.length - 1)).length = e.length - 1 := by
    rw [List.length_take]; omega
  rw [hl]
  intro k hk hkn
  rw [hkey k hkn, hkey _ (by omega)]
  exact hord k hk hkn

/-- Function `heap.Remove` at a valid slot of an ordered heap: it returns the address found
in that slot, the other slots stay (permuted) and are in heap order again. -/
theorem Remove_spec {m : Objs} {e : Expirations} {i : Nat} (hi : i < e.length)
    (hidx : IdxOK m e) (hord : HeapOrd (keyAt m e) e.length) :
    ∃ m' e' p, heap.Remove m e (i : Int) = some (m', e', p) ∧ e[i]? = some p ∧
      Frame m m' ∧ IdxOK m' e' ∧ e.Perm (p :: e') ∧ HeapOrd (keyAt m' e') e'.length := by
  have c1 : (e.length : Int) - 1 = ((e.length - 1 : Nat) : Int) := by omega
  have hp : e[i]? = some e[i] := List.getElem?_eq_getElem hi
  by_cases hin : i = e.length - 1
  · have hc : ¬ (((e.length - 1 : Nat) : Int) ≠ (i : Int)) := by
      intro h; apply h; rw [hin]
    have hp' : e[e.length - 1]? = some e[i] := by rw [← hin]; exact hp
    obtain ⟨m', e', hpop, hfr, hidx', hperm, hord'⟩ :=
      Pop_heap hidx hp' (fun k hk hkn => hord k hk (by omega))
    refine ⟨m', e', e[i], ?_, hp, hfr, hidx', hperm, hord'⟩
    simp only [heap.Remove, Expirations.Len, c1, hc, if_false]
    exact hpop
  · have hc : ((e.length - 1 : Nat) : Int) ≠ (i : Int) := by omega
    obtain ⟨m1, e1, hsw, hfr1, hidx1, hperm1, hlen1, h1i, h1n, h1k, hKi, hKn, hKk⟩ :=
      Swap_step hidx (i := i) (j := e.length - 1) hi (by omega) hin
    have hpre : DownPre (keyAt m1 e1) (e.length - 1) i := by
      constructor
      · intro k hk hkn hki hpk
        rw [hKk k hki (by omega), hKk _ hpk (by omega)]
        exact hord k hk (by omega)
      · intro k hk hkn hpk hi0
        rw [hKk k (by omega) (by omega), hKk _ (by omega) (by omega)]
        have h1 := hord i hi0 hi
        have h2 := hord k hk (by omega)
        rw [hpk] at h2
        exact le_trans h1 h2
    obtain ⟨m2, e2, b, hdn, hfr2, hidx2, hperm2, hlen2, h2k, hstay, hmoved⟩ :=
      down_spec (i := i) (n := e.length - 1) (by omega) (by omega) hidx1 hpre
    cases b with
    | true =>
      have hp2 : e2[e2.length - 1]? = some e[i] := by
        rw [hlen2, hlen1, h2k _ (le_refl _), h1n]; exact hp
      have hord2 : HeapOrd (keyAt m2 e2) (e2.length - 1) := by
        rw [hlen2, hlen1]; exact hmoved rfl
      obtain ⟨m', e', hpop, hfr, hidx', hperm, hord'⟩ := Pop_heap hidx2 hp2 hord2
      refine ⟨m', e', e[i], ?_, hp, (hfr1.trans hfr2).trans hfr, hidx',
        (hperm1.symm.trans hperm2.symm).trans hperm, hord'⟩
      simp only [heap.Remove, Expirations.Len, c1, hc, ne_eq, not_false_eq_true, if_true,
        hsw, hdn]
      exact hpop
    | false =>
      obtain ⟨hm, he, hch⟩ := hstay rfl
      subst hm; subst he
      have hup : UpPre (keyAt m2 e2) (e.length - 1) i := by
        constructor
        · intro k hk hkn hki
          by_cases hpk : (k - 1) / 2 = i
          · rw [hpk]; exact hch k hk hkn hpk
          · exact hpre.1 k hk hkn hki hpk
        · exact hpre.2
      obtain ⟨m3, e3, hu, hfr3, hidx3, hperm3, hlen3, h3k, hord3⟩ :=
        up_spec (j := i) (n := e.length - 1) (by omega) (by omega) hidx1 hup
      have hp3 : e3[e3.length - 1]? = some e[i] := by
        rw [hlen3, hlen1, h3k _ (by omega), h1n]; exact hp
      have hord3' : HeapOrd (keyAt m3 e3) (e3.length - 1) := by
        rw [hlen3, hlen1]; exact hord3
      obtain ⟨m', e', hpop, hfr, hidx', hperm, hord'⟩ := Pop_heap hidx3 hp3 hord3'
      refine ⟨m', e', e[i], ?_, hp, (hfr1.trans hfr3).trans hfr, hidx',
        (hperm1.symm.trans hperm3.symm).trans hperm, hord'⟩
      simp only [heap.Remove, Expirations.Len, c1, hc, ne_eq, not_false_eq_true, if_true,
        hsw, hdn, hu]
      exact hpop

/-- Function `heap.Push` of a fresh allocated address on an ordered heap. -/
theorem Push_spec {m : Objs} {e : Expirations} {p : Nat} {x : Entry} (hx : m[p]? = some x)
    (hnew : p ∉ e) (hidx : IdxOK m e) (hord : HeapOrd (keyAt m e) e.length) :
    ∃ m' e', heap.Push m e p = some (m', e') ∧ Frame m m' ∧ IdxOK m' e' ∧
      e'.Perm (p :: e) ∧ HeapOrd (keyAt m' e') e'.length := by
  have hfr0 : Frame m (m.set p { x with Index := (e.length : Int) }) := Frame.set_index hx _
  have hpl : p < m.length := getElem?_lt hx
  have hidx0 : IdxOK (m.set p { x with Index := (e.length : Int) }) (e ++ [p]) := by
    intro k q hk
    rw [List.getElem?_append] at hk
    by_cases hkl : k < e.length
    · simp only [hkl, if_true] at hk
      obtain ⟨z, hz, hzi⟩ := hidx k q hk
      have hpq : p ≠ q := by
        intro h; subst h
        exact hnew (List.mem_iff_getElem?.2 ⟨k, hk⟩)
      refine ⟨z, ?_, hzi⟩
      rw [List.getElem?_set]; simp only [hpq, if_false]; exact hz
    · simp only [hkl, if_false] at hk
      have hk0 : k - e.length = 0 := by
        by_contra h
        have : ([p] : List Nat).length ≤ k - e.length := by simp; omega
        rw [List.getElem?_eq_none this] at hk
        cases hk
      rw [hk0] at hk
      simp at hk
      subst hk
      refine ⟨{ x with Index := (e.length : Int) }, ?_, ?_⟩
      · rw [List.getElem?_set]; simp [hpl]
      · have : k = e.length := by omega
        rw [this]
  have hkey : ∀ k, k < e.length →
      keyAt (m.set p { x with Index := (e.length : Int) }) (e ++ [p]) k = keyAt m e k := by
    intro k hk
    rw [hfr0.key_eq]
    unfold keyAt
    rw [List.getElem?_append]
    simp only [hk, if_true]
  have hlen0 : (e ++ [p]).length = e.length + 1 := by simp
  have hup : UpPre (keyAt (m.set p { x with Index := (e.length : Int) }) (e ++ [p]))
      (e ++ [p]).length e.length := by
    rw [hlen0]
    constructor
    · intro k hk hkn hkl
      rw [hkey k (by omega), hkey _ (by omega)]
      exact hord k hk (by omega)
    · intro k hk hkn hpk; omega
  obtain ⟨m', e', hu, hfr', hidx', hperm', hlen', _, hord'⟩ :=
    up_spec (j := e.length) (n := (e ++ [p]).length) (by omega) (le_refl _) hidx0 hup
  have c1 : ((e ++ [p]).length : Int) - 1 = (e.length : Int) := by
    rw [hlen0]; push_cast; ring
  refine ⟨m', e', ?_, hfr0.trans hfr', hidx', ?_, ?_⟩
  · simp only [heap.Push, Expirations.Push, Expirations.Len, hx, Option.bind_eq_bind,
      Option.some_bind, c1]
    exact hu
  · exact hperm'.trans List.perm_append_comm
  · rw [hlen']; exact hord'

/-! ## The map: lemmas -/

theorem Store.get_mem {s : Store} {k : String} {p : Nat} (h : Store.get s k = some p) :
    (k, p) ∈ s := by
  induction s with
  | nil => simp [Store.get] at h
  | cons hd tl ih =>
    obtain ⟨k', q⟩ := hd
    simp only [Store.get] at h
    by_cases hk : k' = k
    · simp only [hk, if_true] at h
      cases h
      simp [hk]
    · simp only [hk, if_false] at h
      exact List.mem_cons_of_mem _ (ih h)

theorem Store.get_none {s : Store} {k : String} (h : Store.get s k = none) (p : Nat) :
    (k, p) ∉ s := by
  induction s with
  | nil => simp
  | cons hd tl ih =>
    obtain ⟨k', q⟩ := hd
    simp only [Store.get] at h
    by_cases hk : k' = k
    · simp [hk] at h
    · simp only [hk, if_false] at h
      intro hm
      rcases List.mem_cons.1 hm with h1 | h1
      · cases h1; exact hk rfl
      · exact ih h h1

theorem Store.get_of_mem {s : Store} {k : String} {p : Nat} (hnd : (s.map Prod.fst).Nodup)
    (h : (k, p) ∈ s) : Store.get s k = some p := by
  induction s with
  | nil => simp at h
  | cons hd tl ih =>
    obtain ⟨k', q⟩ := hd
    simp only [List.map_cons, List.nodup_cons] at hnd
    simp only [Store.get]
    rcases List.mem_cons.1 h with h1 | h1
    · cases h1; simp
    · have hk : k' ≠ k := by
        intro hk; subst hk
        exact hnd.1 (List.mem_map.2 ⟨(k', p), h1, rfl⟩)
      simp only [hk, if_false]
      exact ih hnd.2 h1

theorem Store.get_isSome_or {s : Store} (k : String) :
    Store.get s k = none ∨ ∃ p, Store.get s k = some p := by
  cases h : Store.get s k
  · exact Or.inl rfl
  · exact Or.inr ⟨_, rfl⟩

theorem Store.put_absent {s : Store} {k : String} (h : Store.get s k = none) (p : Nat) :
    Store.put s k p = s ++ [(k, p)] := by
  induction s with
  | nil => rfl
  | cons hd tl ih =>
    obtain ⟨k', q⟩ := hd
    simp only [Store.get] at h
    by_cases hk : k' = k
    · simp [hk] at h
    · simp only [hk, if_false] at h
      simp only [Store.put, hk, if_false, List.cons_append, ih h]

theorem Store.del_length_le (s : Store) (k : String) : (Store.del s k).length ≤ s.length :=
  List.length_filter_le _ _

theorem Store.get_del_self (s : Store) (k : String) : Store.get (Store.del s k) k = none := by
  induction s with
  | nil => rfl
  | cons hd tl ih =>
    obtain ⟨k', q⟩ := hd
    by_cases hk : k' = k
    · simp only [Store.del, List.filter, hk, ne_eq, not_true_eq_false, decide_False]
      exact ih
    · simp only [Store.del, List.filter, hk, ne_eq, not_false_eq_true, decide_True, Store.get,
        if_false]
      exact ih

theorem Store.get_del_ne (s : Store) {k k' : String} (h : k' ≠ k) :
    Store.get (Store.del s k) k' = Store.get s k' := by
  induction s with
  | nil => rfl
  | cons hd tl ih =>
    obtain ⟨k0, q⟩ := hd
    by_cases hk : k0 = k
    · have hk' : k0 ≠ k' := by intro h'; exact h (h' ▸ hk)
      simp only [Store.del, List.filter, hk, ne_eq, not_true_eq_false, decide_False]
      rw [← hk]
      simp only [Store.get, hk', if_false]
      rw [hk]
      exact ih
    · simp only [Store.del, List.filter, hk, ne_eq, not_false_eq_true, decide_True, Store.get]
      by_cases hk' : k0 = k'
      · simp [hk']
      · simp only [hk', if_false]
        exact ih

/-- With distinct keys and distinct addresses, deleting a key is deleting its address. -/
theorem Store.del_eq_filter {s : Store} {k : String} {p : Nat}
    (hk : (s.map Prod.fst).Nodup) (hp : (s.map Prod.snd).Nodup) (h : (k, p) ∈ s) :
    Store.del s k = s.filter (fun kv => decide (kv.2 ≠ p)) := by
  unfold Store.del
  apply List.filter_congr
  intro kv hkv
  obtain ⟨k', q⟩ := kv
  have h1 : k' = k ↔ q = p := by
    constructor
    · intro hkk; subst hkk
      have a := Store.get_of_mem hk hkv
      have b := Store.get_of_mem hk h
      rw [a] at b; cases b; rfl
    · intro hqp; subst hqp
      have := List.inj_on_of_nodup_map hp hkv h rfl
      cases this; rfl
  simp [h1]

theorem Frame.get {m m' : Objs} (h : Frame m m') {p : Nat} {x : Entry} (hx : m[p]? = some x) :
    ∃ y, m'[p]? = some y ∧ y.Key = x.Key ∧ y.Value = x.Value ∧
      y.Expiration = x.Expiration := by
  have := h p
  rw [hx] at this
  cases h1 : m'[p]? with
  | none => simp [h1] at this
  | some y =>
    simp [h1, Entry.core] at this
    exact ⟨y, rfl, this.1, this.2.1, this.2.2⟩

theorem Frame.symm {m m' : Objs} (h : Frame m m') : Frame m' m := fun p => (h p).symm

/-! ## The representation invariant of the cache -/

theorem Inv.ptrs {c : Cache} (h : Inv c) : (c.cache.map Prod.snd).Nodup :=
  (h.pair.nodup_iff).2 h.idx.nodup

theorem Inv.length_eq {c : Cache} (h : Inv c) : c.cache.length = c.expirations.length := by
  have := h.pair.length_eq
  simpa using this

theorem Inv.mem_heap {c : Cache} (h : Inv c) {k : String} {p : Nat} (hm : (k, p) ∈ c.cache) :
    p ∈ c.expirations :=
  h.pair.subset (List.mem_map.2 ⟨(k, p), hm, rfl⟩)

theorem Inv.mem_store {c : Cache} (h : Inv c) {p : Nat} (hp : p ∈ c.expirations) :
    ∃ x, c.objs[p]? = some x ∧ (x.Key, p) ∈ c.cache := by
  have := h.pair.symm.subset hp
  obtain ⟨⟨k, q⟩, hkq, hq⟩ := List.mem_map.1 this
  simp only at hq
  subst hq
  obtain ⟨x, hx, hk⟩ := h.key k q hkq
  exact ⟨x, hx, by rw [hk]; exact hkq⟩

theorem New_inv (maxSize : Int) : Inv (New maxSize) where
  idx := by intro k p h; simp [New] at h
  ord := by intro k hk hkn; simp [New] at hkn
  keys := by simp [New]
  pair := by simp [New]
  key := by intro k p h; simp [New] at h
  cap := Or.inl rfl

/-- Method `evict` on an entry of the heap: it returns, removes the entry from the map and
from the heap, counts one eviction and keeps the invariant. -/
theorem evict_spec {c : Cache} (hinv : Inv c) {p : Nat} (hp : p ∈ c.expirations) :
    ∃ c', c.evict p = some c' ∧ Inv c' ∧
      c'.cache = c.cache.filter (fun kv => decide (kv.2 ≠ p)) ∧
      c'.cache.length + 1 = c.cache.length ∧
      Frame c.objs c'.objs ∧ c.expirations.Perm (p :: c'.expirations) ∧
      c'.maxSize = c.maxSize ∧
      c'.stats = { c.stats with Evictions := c.stats.Evictions + 1 } := by
  obtain ⟨i, hi⟩ := List.mem_iff_getElem?.1 hp
  obtain ⟨x, hx, hxi⟩ := hinv.idx i p hi
  obtain ⟨x', hx', hmem⟩ := hinv.mem_store hp
  rw [hx] at hx'; cases hx'
  obtain ⟨m', e', p', hrm, hp', hfr, hidx', hperm, hord'⟩ :=
    Remove_spec (getElem?_lt hi) hinv.idx hinv.ord
  rw [hi] at hp'; cases hp'
  have hdel := Store.del_eq_filter hinv.keys hinv.ptrs hmem
  have hnd : (p :: e').Nodup := (hperm.nodup_iff).1 hinv.idx.nodup
  have hpe : p ∉ e' := (List.nodup_cons.1 hnd).1
  have hpair : ((c.cache.filter (fun kv => decide (kv.2 ≠ p))).map Prod.snd).Perm e' := by
    have h1 : (c.cache.filter (fun kv => decide (kv.2 ≠ p))).map Prod.snd
        = (c.cache.map Prod.snd).filter (fun q => decide (q ≠ p)) := by
      rw [List.filter_map]; rfl
    rw [h1]
    have h2 := (hinv.pair.trans hperm).filter (fun q => decide (q ≠ p))
    have h3 : (p :: e').filter (fun q => decide (q ≠ p)) = e' := by
      have : e'.filter (fun q => decide (q ≠ p)) = e' := by
        rw [List.filter_eq_self]
        intro q hq
        simp only [ne_eq, decide_eq_true_eq]
        intro h; subst h; exact hpe hq
      rw [List.filter_cons, this]
      simp
    rw [h3] at h2
    exact h2
  have hlen : (c.cache.filter (fun kv => decide (kv.2 ≠ p))).length + 1 = c.cache.length := by
    have a := hpair.length_eq
    have b := hperm.length_eq
    have d := hinv.length_eq
    simp only [List.length_map, List.length_cons] at a b
    omega
  refine ⟨{ c with
      objs := m'
      cache := Store.del c.cache x.Key
      expirations := e'
      stats := { c.stats with Evictions := c.stats.Evictions + 1 } }, ?_, ?_, hdel, ?_, hfr,
    hperm, rfl, rfl⟩
  · simp only [Cache.evict, hx, hxi, hrm]
  · refine ⟨hidx', hord', ?_, ?_, ?_, ?_⟩
    · exact hinv.keys.sublist ((List.filter_sublist _).map Prod.fst)
    · show ((Store.del c.cache x.Key).map Prod.snd).Perm e'
      rw [hdel]; exact hpair
    · intro k q hkq
      have hkq' : (k, q) ∈ Store.del c.cache x.Key := hkq
      have : (k, q) ∈ c.cache := (List.mem_filter.1 hkq').1
      obtain ⟨y, hy, hyk⟩ := hinv.key k q this
      obtain ⟨z, hz, hzk, _, _⟩ := hfr.get hy
      exact ⟨z, hz, by rw [hzk, hyk]⟩
    · right
      show ((Store.del c.cache x.Key).length : Int) ≤ c.maxSize
      rcases hinv.cap with h | h
      · rw [h] at hmem; simp at hmem
      · have := Store.del_length_le c.cache x.Key
        omega
  · show (Store.del c.cache x.Key).length + 1 = c.cache.length
    rw [hdel]; exact hlen

/-- In a heap-ordered prefix slot 0 holds the earliest expiration. -/
theorem HeapOrd.root_le {K : Nat → Int} {n : Nat} (h : HeapOrd K n) :
    ∀ k, k < n → K 0 ≤ K k := by
  intro k
  induction k using Nat.strong_induction_on with
  | _ k ih =>
    intro hk
    by_cases h0 : k = 0
    · subst h0; exact le_refl _
    · have h1 := ih ((k - 1) / 2) (by omega) (by omega)
      have h2 := h k (by omega) hk
      exact le_trans h1 h2

/-- The entry in heap slot 0 expires no later than any entry of the heap. -/
theorem Inv.root_min {c : Cache} (h : Inv c) {p0 q : Nat} (h0 : c.expirations[0]? = some p0)
    (hq : q ∈ c.expirations) : expOf c.objs p0 ≤ expOf c.objs q := by
  obtain ⟨k, hk⟩ := List.mem_iff_getElem?.1 hq
  have := h.ord.root_le k (getElem?_lt hk)
  rw [keyAt_eq h0, keyAt_eq hk] at this
  exact this

theorem liveAt_frame {m m' : Objs} (h : Frame m m') (now : Int) :
    liveAt m' now = liveAt m now := by
  funext p; simp [liveAt, h.exp_eq]

theorem expOf_eq {m : Objs} {p : Nat} {x : Entry} (h : m[p]? = some x) :
    expOf m p = x.Expiration := by
  simp [expOf, h]

/-- The loop of `Prune` on a state that satisfies the invariant: it returns, removes from
the map and from the heap exactly the entries that are not live, and counts them. -/
theorem pruneLoop_spec (now : Int) : ∀ (fuel : Nat) (c : Cache), Inv c →
    c.expirations.length < fuel →
    ∃ c', Cache.pruneLoop fuel c now = some c' ∧ Inv c' ∧
      c'.cache = c.cache.filter (fun kv => liveAt c.objs now kv.2) ∧
      c'.expirations.Perm (c.expirations.filter (liveAt c.objs now)) ∧
      Frame c.objs c'.objs ∧ c'.maxSize = c.maxSize ∧
      c'.stats.Hits = c.stats.Hits ∧ c'.stats.Misses = c.stats.Misses ∧
      c'.stats.Evictions = c.stats.Evictions + ((c.cache.length : Int) - c'.cache.length) := by
  intro fuel
  induction fuel with
  | zero => intro c _ h; omega
  | succ fuel ih =>
    intro c hinv hf
    by_cases hemp : c.cache.length = 0
    · have hc : c.cache = [] := List.length_eq_zero.1 hemp
      have he : c.expirations = [] := by
        apply List.length_eq_zero.1; rw [← hinv.length_eq]; exact hemp
      refine ⟨c, ?_, hinv, ?_, ?_, Frame.refl _, rfl, rfl, rfl, ?_⟩
      · simp only [Cache.pruneLoop, hemp, if_true]
      · rw [hc]; rfl
      · rw [he]; exact List.Perm.refl _
      · simp
    · have hlen := hinv.length_eq
      have h0 : c.expirations[0]? = some c.expirations[0] :=
        List.getElem?_eq_getElem (by omega)
      have hmem0 : c.expirations[0] ∈ c.expirations := List.mem_iff_getElem?.2 ⟨0, h0⟩
      have hslot : c.expirations.slot 0 = some c.expirations[0] := by
        have := slot_natCast c.expirations 0
        simpa using this.trans h0
      obtain ⟨x, hx, _⟩ := hinv.idx 0 _ h0
      by_cases hexp : x.Expiration > now
      · have hall : ∀ q, q ∈ c.expirations → liveAt c.objs now q = true := by
          intro q hq
          have := hinv.root_min h0 hq
          rw [expOf_eq hx] at this
          simp only [liveAt, gt_iff_lt, decide_eq_true_eq]
          omega
        refine ⟨c, ?_, hinv, ?_, ?_, Frame.refl _, rfl, rfl, rfl, ?_⟩
        · simp only [Cache.pruneLoop, hemp, if_false, hslot, hx, hexp, if_true]
        · symm
          rw [List.filter_eq_self]
          intro kv hkv
          exact hall kv.2 (hinv.mem_heap (k := kv.1) hkv)
        · rw [List.filter_eq_self.2 hall]
        · simp
      · obtain ⟨c1, hev, hinv1, hc1, hl1, hfr1, hperm1, hmax1, hst1⟩ := evict_spec hinv hmem0
        have hdead : liveAt c.objs now c.expirations[0] = false := by
          simp only [liveAt, gt_iff_lt, decide_eq_false_iff_not, expOf_eq hx]
          exact hexp
        have hlen1 := hperm1.length_eq
        simp only [List.length_cons] at hlen1
        obtain ⟨c', hpl, hinv', hc', hperm', hfr', hmax', hh', hm', hev'⟩ :=
          ih c1 hinv1 (by omega)
        rw [liveAt_frame hfr1] at hc' hperm'
        refine ⟨c', ?_, hinv', ?_, ?_, hfr1.trans hfr', by rw [hmax', hmax1], ?_, ?_, ?_⟩
        · simp only [Cache.pruneLoop, hemp, if_false, hslot, hx, hexp, hev]
          exact hpl
        · rw [hc', hc1, List.filter_filter]
          apply List.filter_congr
          intro kv _
          by_cases hkv : kv.2 = c.expirations[0]
          · rw [hkv, hdead]; simp
          · simp [hkv]
        · refine hperm'.trans ?_
          have := (hperm1.filter (liveAt c.objs now)).symm
          rw [List.filter_cons, hdead] at this
          simpa using this
        · rw [hh', hst1]
        · rw [hm', hst1]
        · rw [hev', hst1]
          simp only
          have : (c1.cache.length : Int) + 1 = c.cache.length := by exact_mod_cast hl1
          omega

/-- Method `Prune` on a state that satisfies the invariant. -/
theorem Prune_spec {c : Cache} (hinv : Inv c) (now : Int) :
    ∃ c', c.Prune now = some c' ∧ Inv c' ∧
      c'.cache = c.cache.filter (fun kv => liveAt c.objs now kv.2) ∧
      c'.expirations.Perm (c.expirations.filter (liveAt c.objs now)) ∧
      Frame c.objs c'.objs ∧ c'.maxSize = c.maxSize ∧
      c'.stats.Hits = c.stats.Hits ∧ c'.stats.Misses = c.stats.Misses ∧
      c'.stats.Evictions = c.stats.Evictions + ((c.cache.length : Int) - c'.cache.length) :=
  pruneLoop_spec now _ c hinv (by omega)

/-- Method `ensureCapacity` on a state that satisfies the invariant: either nothing changes
(and then a full map has live entries only), or the map is exactly full, the entry of heap
slot 0 is not live and exactly that entry is evicted. -/
theorem ensureCapacity_spec {c : Cache} (hinv : Inv c) (now : Int) :
    ∃ c1, c.ensureCapacity now = some c1 ∧ Inv c1 ∧ c1.maxSize = c.maxSize ∧
      Frame c.objs c1.objs ∧
      c1.stats.Hits = c.stats.Hits ∧ c1.stats.Misses = c.stats.Misses ∧
      ((c1 = c ∧ ((c.cache.length : Int) ≥ c.maxSize →
          ∀ q, q ∈ c.expirations → expOf c.objs q > now)) ∨
       (∃ p0, c.expirations[0]? = some p0 ∧ expOf c.objs p0 ≤ now ∧
          (c.cache.length : Int) = c.maxSize ∧
          c1.cache = c.cache.filter (fun kv => decide (kv.2 ≠ p0)) ∧
          c1.cache.length + 1 = c.cache.length ∧
          c.expirations.Perm (p0 :: c1.expirations) ∧
          c1.stats.Evictions = c.stats.Evictions + 1)) := by
  by_cases hemp : c.cache.length = 0
  · have he : c.expirations = [] := by
      apply List.length_eq_zero.1; rw [← hinv.length_eq]; exact hemp
    refine ⟨c, ?_, hinv, rfl, Frame.refl _, rfl, rfl, Or.inl ⟨rfl, ?_⟩⟩
    · simp only [Cache.ensureCapacity, hemp, if_true]
    · intro _ q hq; rw [he] at hq; simp at hq
  · have hlen := hinv.length_eq
    have hcap : (c.cache.length : Int) ≤ c.maxSize := by
      rcases hinv.cap with h | h
      · rw [h] at hemp; simp at hemp
      · exact h
    by_cases hfull : (c.cache.length : Int) ≥ c.maxSize
    · have h0 : c.expirations[0]? = some c.expirations[0] :=
        List.getElem?_eq_getElem (by omega)
      have hmem0 : c.expirations[0] ∈ c.expirations := List.mem_iff_getElem?.2 ⟨0, h0⟩
      have hslot : c.expirations.slot 0 = some c.expirations[0] := by
        have := slot_natCast c.expirations 0
        simpa using this.trans h0
      obtain ⟨x, hx, _⟩ := hinv.idx 0 _ h0
      by_cases hexp : x.Expiration > now
      · refine ⟨c, ?_, hinv, rfl, Frame.refl _, rfl, rfl, Or.inl ⟨rfl, ?_⟩⟩
        · simp only [Cache.ensureCapacity, hemp, if_false, Cache.ensureCapacityLoop, hfull,
            if_true, hslot, hx, hexp]
        · intro _ q hq
          have := hinv.root_min h0 hq
          rw [expOf_eq hx] at this
          omega
      · obtain ⟨c1, hev, hinv1, hc1, hl1, hfr1, hperm1, hmax1, hst1⟩ := evict_spec hinv hmem0
        obtain ⟨n, hn⟩ : ∃ n, c.expirations.length = n + 1 :=
          ⟨c.expirations.length - 1, by omega⟩
        have hnot : ¬ ((c1.cache.length : Int) ≥ c1.maxSize) := by
          rw [hmax1]
          have : (c1.cache.length : Int) + 1 = c.cache.length := by exact_mod_cast hl1
          omega
        refine ⟨c1, ?_, hinv1, hmax1, hfr1, by rw [hst1], by rw [hst1], Or.inr
          ⟨c.expirations[0], h0, ?_, by omega, hc1, hl1, hperm1, by rw [hst1]⟩⟩
        · simp only [Cache.ensureCapacity, hemp, if_false, hn, Cache.ensureCapacityLoop, hfull,
            if_true, hslot, hx, hexp, hev, hnot]
        · rw [expOf_eq hx]; omega
    · refine ⟨c, ?_, hinv, rfl, Frame.refl _, rfl, rfl, Or.inl ⟨rfl, ?_⟩⟩
      · simp only [Cache.ensureCapacity, hemp, if_false, Cache.ensureCapacityLoop, hfull]
      · intro h; exact absurd h hfull

theorem getElem?_set_self_of {m : Objs} {p : Nat} {x : Entry} (hx : m[p]? = some x)
    (x' : Entry) : (m.set p x')[p]? = some x' := by
  rw [List.getElem?_set]; simp [getElem?_lt hx]

theorem getElem?_set_other {m : Objs} {p q : Nat} (h : p ≠ q) (x' : Entry) :
    (m.set p x')[q]? = m[q]? := by
  rw [List.getElem?_set]; simp [h]

/-- Overwriting the entry of a mapped key (same key, same index) and calling `heap.Fix` on
its index: the call returns and the invariant is kept. -/
theorem retime_spec {c : Cache} (hinv : Inv c) {k : String} {p : Nat} {x : Entry}
    (hmem : (k, p) ∈ c.cache) (hx : c.objs[p]? = some x) (x' : Entry)
    (hk : x'.Key = x.Key) (hi : x'.Index = x.Index) :
    ∃ m' e', heap.Fix (c.objs.set p x') c.expirations x.Index = some (m', e') ∧
      Inv { c with objs := m', expirations := e' } ∧ Frame (c.objs.set p x') m' ∧
      e'.Perm c.expirations := by
  have hp : p ∈ c.expirations := hinv.mem_heap hmem
  obtain ⟨i, hip⟩ := List.mem_iff_getElem?.1 hp
  obtain ⟨x0, hx0, hxi⟩ := hinv.idx i p hip
  rw [hx] at hx0; cases hx0
  have hil : i < c.expirations.length := getElem?_lt hip
  have hidx0 : IdxOK (c.objs.set p x') c.expirations := by
    intro j q hj
    by_cases hq : p = q
    · subst hq
      have := hinv.idx.inj hip hj
      subst this
      exact ⟨x', getElem?_set_self_of hx x', by rw [hi, hxi]⟩
    · obtain ⟨y, hy, hyi⟩ := hinv.idx j q hj
      exact ⟨y, by rw [getElem?_set_other hq]; exact hy, hyi⟩
  have hkey0 : ∀ j, j ≠ i →
      keyAt (c.objs.set p x') c.expirations j = keyAt c.objs c.expirations j := by
    intro j hj
    unfold keyAt
    cases hq : c.expirations[j]? with
    | none => rfl
    | some q =>
      have hpq : p ≠ q := by
        intro h; subst h
        exact hj (hinv.idx.inj hq hip)
      simp only [expOf, getElem?_set_other hpq]
  have hpre : DownPre (keyAt (c.objs.set p x') c.expirations) c.expirations.length i := by
    constructor
    · intro j hj hjn hji hpj
      rw [hkey0 j hji, hkey0 _ hpj]
      exact hinv.ord j hj hjn
    · intro j hj hjn hpj hi0
      rw [hkey0 j (by omega), hkey0 _ (by omega)]
      have h1 := hinv.ord i hi0 hil
      have h2 := hinv.ord j hj hjn
      rw [hpj] at h2
      exact le_trans h1 h2
  obtain ⟨m', e', hfix, hfr, hidx', hperm, hord'⟩ := Fix_spec hil hidx0 hpre
  refine ⟨m', e', by rw [hxi]; exact hfix, ⟨hidx', hord', hinv.keys, hinv.pair.trans hperm.symm,
    ?_, hinv.cap⟩, hfr, hperm⟩
  intro k' q hkq
  have hkq' : (k', q) ∈ c.cache := hkq
  obtain ⟨y, hy, hyk⟩ := hinv.key k' q hkq'
  by_cases hq : p = q
  · subst hq
    rw [hx] at hy; cases hy
    obtain ⟨z, hz, hzk, _, _⟩ := hfr.get (getElem?_set_self_of hx x')
    exact ⟨z, hz, by rw [hzk, hk, hyk]⟩
  · have : (c.objs.set p x')[q]? = some y := by rw [getElem?_set_other hq]; exact hy
    obtain ⟨z, hz, hzk, _, _⟩ := hfr.get this
    exact ⟨z, hz, by rw [hzk, hyk]⟩

/-- Method `addNewEntry` for an absent key below the capacity: the call returns, the key is
mapped to the fresh address and the invariant is kept. -/
theorem addNewEntry_spec {c : Cache} (hinv : Inv c) {key : String}
    (habs : Store.get c.cache key = none) (hroom : (c.cache.length : Int) < c.maxSize)
    (value : String) (exp now : Int) :
    ∃ c', c.addNewEntry key value exp now = some c' ∧ Inv c' ∧
      c'.cache = c.cache ++ [(key, c.objs.length)] ∧
      Frame (c.objs ++ [(⟨key, value, now + exp, 0⟩ : Entry)])
        c'.objs ∧
      c'.expirations.Perm (c.objs.length :: c.expirations) ∧
      c'.maxSize = c.maxSize ∧ c'.stats = c.stats := by
  have hold : ∀ (q : Nat) (y : Entry), c.objs[q]? = some y →
      (c.objs ++ [(⟨key, value, now + exp, 0⟩ : Entry)])[q]?
        = some y := by
    intro q y hy
    rw [List.getElem?_append]
    simp [getElem?_lt hy, hy]
  have hnewx : (c.objs ++ [(⟨key, value, now + exp, 0⟩ : Entry)])[c.objs.length]?
      = some (⟨key, value, now + exp, 0⟩ : Entry) := by
    rw [List.getElem?_append]; simp
  have hfresh : c.objs.length ∉ c.expirations := by
    intro h
    obtain ⟨j, hj⟩ := List.mem_iff_getElem?.1 h
    obtain ⟨y, hy, _⟩ := hinv.idx j _ hj
    have := getElem?_lt hy
    omega
  have hidx0 : IdxOK (c.objs ++ [(⟨key, value, now + exp, 0⟩ : Entry)]) c.expirations := by
    intro j q hj
    obtain ⟨y, hy, hyi⟩ := hinv.idx j q hj
    exact ⟨y, hold q y hy, hyi⟩
  have hkey0 : ∀ j, keyAt (c.objs ++ [(⟨key, value, now + exp, 0⟩ : Entry)]) c.expirations j
      = keyAt c.objs c.expirations j := by
    intro j
    unfold keyAt
    cases hq : c.expirations[j]? with
    | none => rfl
    | some q =>
      obtain ⟨y, hy, _⟩ := hinv.idx j q hq
      simp only [expOf, hold q y hy, hy]
  have hord0 : HeapOrd (keyAt (c.objs ++ [(⟨key, value, now + exp, 0⟩ : Entry)])
      c.expirations) c.expirations.length := by
    intro j hj hjn
    rw [hkey0, hkey0]
    exact hinv.ord j hj hjn
  obtain ⟨m', e', hpush, hfr, hidx', hperm, hord'⟩ := Push_spec hnewx hfresh hidx0 hord0
  refine ⟨{ c with
      objs := m'
      cache := Store.put c.cache key c.objs.length
      expirations := e' }, ?_, ⟨hidx', hord', ?_, ?_, ?_, ?_⟩, Store.put_absent habs _, hfr,
    hperm, rfl, rfl⟩
  · simp only [Cache.addNewEntry, hpush]
  · show ((Store.put c.cache key c.objs.length).map Prod.fst).Nodup
    rw [Store.put_absent habs, List.map_append, List.map_cons, List.map_nil]
    apply List.Nodup.append hinv.keys (List.nodup_singleton _)
    intro a ha hb
    simp only [List.mem_singleton] at hb
    subst hb
    obtain ⟨⟨k', q⟩, hkq, hk'⟩ := List.mem_map.1 ha
    simp only at hk'
    subst hk'
    exact Store.get_none habs q hkq
  · show ((Store.put c.cache key c.objs.length).map Prod.snd).Perm e'
    rw [Store.put_absent habs, List.map_append, List.map_cons, List.map_nil]
    refine List.Perm.trans ?_ hperm.symm
    exact List.perm_append_comm.trans (List.Perm.cons _ hinv.pair)
  · intro k' q hkq
    have hkq' : (k', q) ∈ Store.put c.cache key c.objs.length := hkq
    rw [Store.put_absent habs] at hkq'
    rcases List.mem_append.1 hkq' with h | h
    · obtain ⟨y, hy, hyk⟩ := hinv.key k' q h
      obtain ⟨z, hz, hzk, _, _⟩ := hfr.get (hold q y hy)
      exact ⟨z, hz, by rw [hzk, hyk]⟩
    · simp only [List.mem_singleton, Prod.mk.injEq] at h
      obtain ⟨h1, h2⟩ := h
      subst h1; subst h2
      obtain ⟨z, hz, hzk, _, _⟩ := hfr.get hnewx
      exact ⟨z, hz, hzk⟩
  · right
    show ((Store.put c.cache key c.objs.length).length : Int) ≤ c.maxSize
    rw [Store.put_absent habs]
    simp only [List.length_append, List.length_singleton]
    push_cast
    omega

/-! ## The methods on states that satisfy the invariant -/

/-- Method `updateEntry` on the address of a mapped key. -/
theorem updateEntry_spec {c : Cache} (hinv : Inv c) {key : String} {p : Nat}
    (hget : Store.get c.cache key = some p) (value : String) (exp now : Int) :
    ∃ c2 x, c.updateEntry p value exp now = some c2 ∧ Inv c2 ∧ c.objs[p]? = some x ∧
      c2.cache = c.cache ∧ c2.maxSize = c.maxSize ∧ c2.stats = c.stats ∧
      c2.expirations.Perm c.expirations ∧
      Frame (c.objs.set p { x with Value := value, Expiration := now + exp }) c2.objs ∧
      ∃ y, c2.lookup key = some y ∧ y.Key = key ∧ y.Value = value ∧
        y.Expiration = now + exp := by
  have hmem := Store.get_mem hget
  obtain ⟨x, hx, hxk⟩ := hinv.key key p hmem
  obtain ⟨m', e', hfix, hinv', hfr, hperm⟩ :=
    retime_spec hinv hmem hx { x with Value := value, Expiration := now + exp } rfl rfl
  obtain ⟨z, hz, hzk, hzv, hze⟩ := hfr.get (getElem?_set_self_of hx _)
  refine ⟨{ c with objs := m', expirations := e' }, x, ?_, hinv', hx, rfl, rfl, rfl, hperm,
    hfr, z, ?_, by rw [hzk]; exact hxk, hzv, hze⟩
  · simp only [Cache.updateEntry, hx, hfix]
  · simp only [Cache.lookup, hget]; exact hz

/-- Method `Delete` on a state that satisfies the invariant. -/
theorem Delete_spec {c : Cache} (hinv : Inv c) (key : String) (now : Int) :
    (Store.get c.cache key = none ∧
      c.Delete key now = some (c, some
        { text := "delete key " ++ key ++ ": " ++ Sentinel.ErrNotFound.text,
          wraps := Sentinel.ErrNotFound })) ∨
    (∃ p x c2, Store.get c.cache key = some p ∧ c.objs[p]? = some x ∧
      c.Delete key now = some (c2, none) ∧ Inv c2 ∧
      c2.cache = c.cache ∧ c2.maxSize = c.maxSize ∧ c2.stats = c.stats ∧
      c2.expirations.Perm c.expirations ∧
      Frame (c.objs.set p { x with Expiration := now + (-1) * second }) c2.objs ∧
      ∃ y, c2.lookup key = some y ∧ y.Key = key ∧ y.Value = x.Value ∧
        y.Expiration = now + (-1) * second) := by
  rcases Store.get_isSome_or (s := c.cache) key with hget | ⟨p, hget⟩
  · left
    refine ⟨hget, ?_⟩
    simp only [Cache.Delete, hget]
  · right
    have hmem := Store.get_mem hget
    obtain ⟨x, hx, hxk⟩ := hinv.key key p hmem
    obtain ⟨m', e', hfix, hinv', hfr, hperm⟩ :=
      retime_spec hinv hmem hx { x with Expiration := now + (-1) * second } rfl rfl
    obtain ⟨z, hz, hzk, hzv, hze⟩ := hfr.get (getElem?_set_self_of hx _)
    refine ⟨p, x, { c with objs := m', expirations := e' }, hget, hx, ?_, hinv', rfl, rfl, rfl,
      hperm, hfr, z, ?_, by rw [hzk]; exact hxk, hzv, hze⟩
    · simp only [Cache.Delete, hget, hx, hfix]
    · simp only [Cache.lookup, hget]; exact hz

/-- Method `Set`, after `ensureCapacity` returned a state that satisfies the invariant:
the three ways it can go on. -/
theorem Set_cases {c c1 : Cache} {now : Int} (h1 : c.ensureCapacity now = some c1)
    (hinv1 : Inv c1) (key value : String) (exp : Int) :
    (∃ p c2, Store.get c1.cache key = some p ∧
      c1.updateEntry p value exp now = some c2 ∧
      c.Set key value exp now = some (c2, none)) ∨
    (Store.get c1.cache key = none ∧ (c1.cache.length : Int) ≥ c1.maxSize ∧
      c.Set key value exp now = some (c1, some (capacityError key))) ∨
    (Store.get c1.cache key = none ∧ (c1.cache.length : Int) < c1.maxSize ∧
      ∃ c2, c1.addNewEntry key value exp now = some c2 ∧
        c.Set key value exp now = some (c2, none)) := by
  rcases Store.get_isSome_or (s := c1.cache) key with hget | ⟨p, hget⟩
  · by_cases hfull : (c1.cache.length : Int) ≥ c1.maxSize
    · right; left
      refine ⟨hget, hfull, ?_⟩
      simp only [Cache.Set, h1, hget, hfull, if_true, capacityError]
    · right; right
      obtain ⟨c2, hadd, _⟩ := addNewEntry_spec hinv1 hget (by omega) value exp now
      refine ⟨hget, by omega, c2, hadd, ?_⟩
      simp only [Cache.Set, h1, hget, hfull, if_false, hadd]
  · left
    obtain ⟨c2, x, hupd, _⟩ := updateEntry_spec hinv1 hget value exp now
    exact ⟨p, c2, hget, hupd, by simp only [Cache.Set, h1, hget, hupd]⟩

theorem Inv.with_stats {c : Cache} (h : Inv c) (s : internalStats) :
    Inv { c with stats := s } :=
  ⟨h.idx, h.ord, h.keys, h.pair, h.key, h.cap⟩

/-- Method `Set` returns and keeps the invariant. -/
theorem Set_inv {c : Cache} (hinv : Inv c) (key value : String) (exp now : Int) :
    ∃ c' r, c.Set key value exp now = some (c', r) ∧ Inv c' ∧ c'.maxSize = c.maxSize := by
  obtain ⟨c1, h1, hinv1, hmax1, _⟩ := ensureCapacity_spec hinv now
  rcases Set_cases h1 hinv1 key value exp with ⟨p, c2, hget, hupd, hset⟩ | ⟨_, _, hset⟩ |
    ⟨hget, hroom, c2, hadd, hset⟩
  · obtain ⟨c2', x, hupd', hinv2, _, _, hmax2, _⟩ := updateEntry_spec hinv1 hget value exp now
    rw [hupd] at hupd'; cases hupd'
    exact ⟨c2, none, hset, hinv2, by rw [hmax2, hmax1]⟩
  · exact ⟨c1, _, hset, hinv1, hmax1⟩
  · obtain ⟨c2', hadd', hinv2, _, _, _, hmax2, _⟩ :=
      addNewEntry_spec hinv1 hget hroom value exp now
    rw [hadd] at hadd'; cases hadd'
    exact ⟨c2, none, hset, hinv2, by rw [hmax2, hmax1]⟩

/-- Method `Get`, when the address that the map holds for the key (if any) is allocated:
the three ways it can go. -/
theorem Get_cases (c : Cache) (key : String) (now : Int)
    (hnn : ∀ p, Store.get c.cache key = some p → ∃ x, c.objs[p]? = some x) :
    (Store.get c.cache key = none ∧
      c.Get key now = some (c.missed, "", some (getError key))) ∨
    (∃ p x, Store.get c.cache key = some p ∧ c.objs[p]? = some x ∧ x.Expiration < now ∧
      c.Get key now = some (c.missed, "", some (expiredError key))) ∨
    (∃ p x, Store.get c.cache key = some p ∧ c.objs[p]? = some x ∧ ¬ x.Expiration < now ∧
      c.Get key now = some (c.hit, x.Value, none)) := by
  rcases Store.get_isSome_or (s := c.cache) key with hget | ⟨p, hget⟩
  · left
    exact ⟨hget, by simp only [Cache.Get, hget, Cache.missed, getError]⟩
  · obtain ⟨x, hx⟩ := hnn p hget
    by_cases hexp : x.Expiration < now
    · right; left
      exact ⟨p, x, hget, hx, hexp,
        by simp only [Cache.Get, hget, hx, hexp, if_true, Cache.missed, expiredError]⟩
    · right; right
      exact ⟨p, x, hget, hx, hexp,
        by simp only [Cache.Get, hget, hx, hexp, if_false, Cache.hit]⟩

theorem Inv.noNil {c : Cache} (h : Inv c) (key : String) :
    ∀ p, Store.get c.cache key = some p → ∃ x, c.objs[p]? = some x := by
  intro p hp
  obtain ⟨x, hx, _⟩ := h.key key p (Store.get_mem hp)
  exact ⟨x, hx⟩

/-- Method `Get` returns and changes nothing but a counter. -/
theorem Get_inv {c : Cache} (hinv : Inv c) (key : String) (now : Int) :
    ∃ c' v r, c.Get key now = some (c', v, r) ∧ Inv c' ∧ c'.maxSize = c.maxSize := by
  rcases Get_cases c key now (hinv.noNil key) with ⟨_, h⟩ | ⟨_, _, _, _, _, h⟩ |
    ⟨_, _, _, _, _, h⟩
  · exact ⟨c.missed, _, _, h, hinv.with_stats _, rfl⟩
  · exact ⟨c.missed, _, _, h, hinv.with_stats _, rfl⟩
  · exact ⟨c.hit, _, _, h, hinv.with_stats _, rfl⟩

/-- Method `Delete` returns and keeps the invariant. -/
theorem Delete_inv {c : Cache} (hinv : Inv c) (key : String) (now : Int) :
    ∃ c' r, c.Delete key now = some (c', r) ∧ Inv c' ∧ c'.maxSize = c.maxSize := by
  rcases Delete_spec hinv key now with ⟨_, hdel⟩ |
    ⟨p, x, c2, _, _, hdel, hinv2, _, hmax2, _⟩
  · exact ⟨c, _, hdel, hinv, rfl⟩
  · exact ⟨c2, none, hdel, hinv2, hmax2⟩

/-- Every call returns and keeps the invariant and the capacity. -/
theorem step_inv {c : Cache} (hinv : Inv c) (op : Op) :
    ∃ c', c.step op = some c' ∧ Inv c' ∧ c'.maxSize = c.maxSize := by
  cases op with
  | set key value exp now =>
    obtain ⟨c', r, h, hinv', hmax⟩ := Set_inv hinv key value exp now
    exact ⟨c', by simp only [Cache.step, h, Option.map_some'], hinv', hmax⟩
  | get key now =>
    obtain ⟨c', v, r, h, hinv', hmax⟩ := Get_inv hinv key now
    exact ⟨c', by simp only [Cache.step, h, Option.map_some'], hinv', hmax⟩
  | delete key now =>
    obtain ⟨c', r, h, hinv', hmax⟩ := Delete_inv hinv key now
    exact ⟨c', by simp only [Cache.step, h, Option.map_some'], hinv', hmax⟩
  | prune now =>
    obtain ⟨c', h, hinv', _, _, _, hmax, _⟩ := Prune_spec hinv now
    exact ⟨c', by simp only [Cache.step, h], hinv', hmax⟩

/-- Every sequence of calls returns and keeps the invariant and the capacity. -/
theorem run_inv (ops : List Op) : ∀ {c : Cache}, Inv c →
    ∃ c', c.run ops = some c' ∧ Inv c' ∧ c'.maxSize = c.maxSize := by
  induction ops with
  | nil => intro c hinv; exact ⟨c, rfl, hinv, rfl⟩
  | cons op ops ih =>
    intro c hinv
    obtain ⟨c1, h1, hinv1, hmax1⟩ := step_inv hinv op
    obtain ⟨c', h', hinv', hmax'⟩ := ih hinv1
    exact ⟨c', by simp only [Cache.run, h1, h'], hinv', by rw [hmax', hmax1]⟩

/-- Every reachable state satisfies the invariant. -/
theorem Reachable.inv {c : Cache} (h : Reachable c) : Inv c := by
  obtain ⟨maxSize, ops, hrun⟩ := h
  obtain ⟨c', h', hinv', _⟩ := run_inv ops (New_inv maxSize)
  rw [hrun] at h'; cases h'
  exact hinv'

theorem Store.get_eq_none_of {s : Store} {k : String} (h : ∀ p, (k, p) ∉ s) :
    Store.get s k = none := by
  rcases Store.get_isSome_or (s := s) k with hget | ⟨p, hget⟩
  · exact hget
  · exact absurd (Store.get_mem hget) (h p)

theorem Store.get_filter_none {s : Store} {k : String} (h : Store.get s k = none)
    (f : String × Nat → Bool) : Store.get (s.filter f) k = none :=
  Store.get_eq_none_of (fun p hp => Store.get_none h p (List.mem_filter.1 hp).1)

theorem lookup_eq {c : Cache} {key : String} {p : Nat} (h : Store.get c.cache key = some p) :
    c.lookup key = c.objs[p]? := by
  simp only [Cache.lookup, h]

theorem lookup_some {c : Cache} {key : String} {x : Entry} (h : c.lookup key = some x) :
    ∃ p, Store.get c.cache key = some p ∧ c.objs[p]? = some x := by
  rcases Store.get_isSome_or (s := c.cache) key with hget | ⟨p, hget⟩
  · simp [Cache.lookup, hget] at h
  · exact ⟨p, hget, by rw [← lookup_eq hget]; exact h⟩

/-- After `addNewEntry` the key is mapped to an entry with the given value and the
expiration `now + exp`. -/
theorem addNewEntry_lookup {c c2 : Cache} (hinv : Inv c) {key : String}
    (habs : Store.get c.cache key = none) (hroom : (c.cache.length : Int) < c.maxSize)
    {value : String} {exp now : Int} (hadd : c.addNewEntry key value exp now = some c2) :
    Inv c2 ∧ c2.cache.length = c.cache.length + 1 ∧ c2.maxSize = c.maxSize ∧
      c2.stats = c.stats ∧
      ∃ y, c2.lookup key = some y ∧ y.Key = key ∧ y.Value = value ∧
        y.Expiration = now + exp := by
  obtain ⟨c2', hadd', hinv2, hcache, hfr, _, hmax, hst⟩ :=
    addNewEntry_spec hinv habs hroom value exp now
  rw [hadd] at hadd'; cases hadd'
  have hnewx : (c.objs ++ [(⟨key, value, now + exp, 0⟩ : Entry)])[c.objs.length]?
      = some (⟨key, value, now + exp, 0⟩ : Entry) := by
    rw [List.getElem?_append]; simp
  obtain ⟨z, hz, hzk, hzv, hze⟩ := hfr.get hnewx
  have hget : Store.get c2.cache key = some c.objs.length := by
    apply Store.get_of_mem hinv2.keys
    rw [hcache]; simp
  refine ⟨hinv2, by rw [hcache]; simp, hmax, hst, z, ?_, hzk, hzv, hze⟩
  rw [lookup_eq hget]; exact hz

/-- A `Set` that returns no error leaves the key mapped to the given value with the
expiration `now + exp`; the number of keys grows by at most one. -/
theorem Set_ok {c c' : Cache} (hinv : Inv c) {key value : String} {exp now : Int}
    (h : c.Set key value exp now = some (c', none)) :
    Inv c' ∧ c'.maxSize = c.maxSize ∧ c'.cache.length ≤ c.cache.length + 1 ∧
      ∃ y, c'.lookup key = some y ∧ y.Key = key ∧ y.Value = value ∧
        y.Expiration = now + exp := by
  obtain ⟨c1, h1, hinv1, hmax1, _, _, _, hcase⟩ := ensureCapacity_spec hinv now
  have hlen1 : c1.cache.length ≤ c.cache.length := by
    rcases hcase with ⟨h, _⟩ | ⟨p0, _, _, _, _, hl, _⟩
    · rw [h]
    · omega
  rcases Set_cases h1 hinv1 key value exp with ⟨p, c2, hget, hupd, hset⟩ | ⟨_, _, hset⟩ |
    ⟨hget, hroom, c2, hadd, hset⟩
  · rw [h] at hset; cases hset
    obtain ⟨c2', x, hupd', hinv2, _, hcache, hmax2, _, _, _, y, hy⟩ :=
      updateEntry_spec hinv1 hget value exp now
    rw [hupd] at hupd'; cases hupd'
    exact ⟨hinv2, by rw [hmax2, hmax1], by rw [hcache]; omega, y, hy⟩
  · rw [h] at hset; cases hset
  · rw [h] at hset; cases hset
    obtain ⟨hinv2, hl2, hmax2, _, y, hy⟩ := addNewEntry_lookup hinv1 hget hroom hadd
    exact ⟨hinv2, by rw [hmax2, hmax1], by omega, y, hy⟩

/-- `Set` on a mapped key returns no error and does not add a key. -/
theorem Set_present {c : Cache} (hinv : Inv c) {key : String} {p : Nat}
    (hget : Store.get c.cache key = some p) (value : String) (exp now : Int) :
    ∃ c', c.Set key value exp now = some (c', none) ∧ c'.cache.length ≤ c.cache.length := by
  obtain ⟨c1, h1, hinv1, hmax1, _, _, _, hcase⟩ := ensureCapacity_spec hinv now
  rcases Set_cases h1 hinv1 key value exp with ⟨p', c2, hget', hupd, hset⟩ |
    ⟨hget', hfull, hset⟩ | ⟨hget', hroom, c2, hadd, hset⟩
  · obtain ⟨c2', x, hupd', _, _, hcache, _⟩ := updateEntry_spec hinv1 hget' value exp now
    rw [hupd] at hupd'; cases hupd'
    refine ⟨c2, hset, ?_⟩
    rw [hcache]
    rcases hcase with ⟨h, _⟩ | ⟨p0, _, _, _, _, hl, _⟩
    · rw [h]
    · omega
  · exfalso
    rcases hcase with ⟨h, _⟩ | ⟨p0, _, _, hfull0, _, hl, _⟩
    · rw [h] at hget'; rw [hget] at hget'; cases hget'
    · have : (c1.cache.length : Int) + 1 = c.cache.length := by exact_mod_cast hl
      omega
  · obtain ⟨_, hl2, _⟩ := addNewEntry_lookup hinv1 hget' hroom hadd
    refine ⟨c2, hset, ?_⟩
    rcases hcase with ⟨h, _⟩ | ⟨p0, _, _, _, _, hl, _⟩
    · rw [h] at hget'; rw [hget] at hget'; cases hget'
    · omega

/-! ## The contract -/

/-- C1 (as stated, refuted): on `New(-1)` the store holds 0 keys after a `Get`, which is
more than `maxSize = -1`. -/
theorem capacity_invariant_negative_maxSize :
    ∃ c, (New (-1)).run [Op.get "a" 0] = some c ∧ ¬ ((c.cache.length : Int) ≤ -1) :=
  ⟨(New (-1)).missed, by decide, by decide⟩

/-- C1 (amended): for every `maxSize` and every sequence of `Set`, `Get`, `Delete` and
`Prune` calls at any clock readings, every call returns and the number of keys in the store
afterwards is at most `max maxSize 0` (at most `maxSize` when `maxSize ≥ 0`, zero when
`maxSize` is negative).  Every prefix of a sequence is a sequence, so the bound holds after
every call. -/
theorem capacity_invariant (maxSize : Int) (ops : List Op) :
    ∃ c, (New maxSize).run ops = some c ∧ (c.cache.length : Int) ≤ max maxSize 0 := by
  obtain ⟨c, hrun, hinv, hmax⟩ := run_inv ops (New_inv maxSize)
  refine ⟨c, hrun, ?_⟩
  have hm : c.maxSize = maxSize := hmax
  rcases hinv.cap with h | h
  · rw [h]; simp
  · rw [hm] at h
    exact le_trans h (le_max_left _ _)

/-- C2: in a reachable state, `Set` of a key that is not in the store returns; it fails with
`ErrCapacity` exactly when the store holds at least `maxSize` entries and every stored entry
expires strictly after `now`; otherwise it returns no error and the key is then stored with
the given value and the expiration `now + exp`. -/
theorem set_absent_key (c : Cache) (hr : Reachable c) (key value : String) (exp now : Int)
    (habs : Store.get c.cache key = none) :
    ∃ c' r, c.Set key value exp now = some (c', r) ∧
      ((∃ err, r = some err ∧ err.wraps = Sentinel.ErrCapacity) ↔
        ((c.cache.length : Int) ≥ c.maxSize ∧
          ∀ k x, c.lookup k = some x → x.Expiration > now)) ∧
      ((∃ err, r = some err ∧ err.wraps = Sentinel.ErrCapacity) ∨
        (r = none ∧ ∃ y, c'.lookup key = some y ∧ y.Value = value ∧
          y.Expiration = now + exp)) := by
  have hinv := hr.inv
  obtain ⟨c1, h1, hinv1, hmax1, _, _, _, hcase⟩ := ensureCapacity_spec hinv now
  rcases hcase with ⟨hc, hlive⟩ | ⟨p0, h0, hexp0, hfull0, hcache1, hl1, _, _⟩
  · subst hc
    rcases Set_cases h1 hinv key value exp with ⟨p, c2, hget, _, _⟩ | ⟨_, hfull, hset⟩ |
      ⟨hget, hroom, c2, hadd, hset⟩
    · rw [habs] at hget; cases hget
    · refine ⟨c1, _, hset, ⟨fun _ => ⟨hfull, ?_⟩, fun _ => ⟨_, rfl, rfl⟩⟩,
        Or.inl ⟨_, rfl, rfl⟩⟩
      intro k x hk
      obtain ⟨p, hp, hx⟩ := lookup_some hk
      have := hlive hfull p (hinv.mem_heap (Store.get_mem hp))
      rw [expOf_eq hx] at this
      exact this
    · obtain ⟨_, _, _, _, y, hy, _, hyv, hye⟩ := addNewEntry_lookup hinv hget hroom hadd
      refine ⟨c2, none, hset, ⟨?_, ?_⟩, Or.inr ⟨rfl, y, hy, hyv, hye⟩⟩
      · rintro ⟨err, herr, _⟩; cases herr
      · rintro ⟨hfull, _⟩; omega
  · have habs1 : Store.get c1.cache key = none := by
      rw [hcache1]; exact Store.get_filter_none habs _
    have hroom1 : (c1.cache.length : Int) < c1.maxSize := by
      rw [hmax1]
      have : (c1.cache.length : Int) + 1 = c.cache.length := by exact_mod_cast hl1
      omega
    rcases Set_cases h1 hinv1 key value exp with ⟨p, c2, hget, _, _⟩ | ⟨_, hfull, hset⟩ |
      ⟨hget, hroom, c2, hadd, hset⟩
    · rw [habs1] at hget; cases hget
    · omega
    · obtain ⟨_, _, _, _, y, hy, _, hyv, hye⟩ := addNewEntry_lookup hinv1 hget hroom hadd
      refine ⟨c2, none, hset, ⟨?_, ?_⟩, Or.inr ⟨rfl, y, hy, hyv, hye⟩⟩
      · rintro ⟨err, herr, _⟩; cases herr
      · rintro ⟨_, hall⟩
        have hp0 : p0 ∈ c.expirations := List.mem_iff_getElem?.2 ⟨0, h0⟩
        obtain ⟨x, hx, hmem⟩ := hinv.mem_store hp0
        have hget0 := Store.get_of_mem hinv.keys hmem
        have := hall x.Key x (by rw [lookup_eq hget0]; exact hx)
        rw [expOf_eq hx] at hexp0
        omega

/-- C3: in a reachable state, when `Set` returns an error (it is `ErrCapacity`) the whole
state (object memory, store, heap slice, capacity and the three counters) is exactly what
it was before the call: nothing was evicted. -/
theorem set_failure_atomic (c : Cache) (hr : Reachable c) (key value : String)
    (exp now : Int) (c' : Cache) (err : Error)
    (h : c.Set key value exp now = some (c', some err)) :
    c' = c ∧ err.wraps = Sentinel.ErrCapacity := by
  have hinv := hr.inv
  obtain ⟨c1, h1, hinv1, hmax1, _, _, _, hcase⟩ := ensureCapacity_spec hinv now
  rcases Set_cases h1 hinv1 key value exp with ⟨p, c2, _, _, hset⟩ | ⟨_, hfull, hset⟩ |
    ⟨_, _, c2, _, hset⟩
  · rw [h] at hset; cases hset
  · rw [h] at hset; cases hset
    refine ⟨?_, rfl⟩
    rcases hcase with ⟨hc, _⟩ | ⟨p0, _, _, hfull0, _, hl1, _, _⟩
    · exact hc
    · have : (c'.cache.length : Int) + 1 = c.cache.length := by exact_mod_cast hl1
      omega
  · rw [h] at hset; cases hset

/-- C4: in a reachable state, `Set` of a key that is in the store (live, expired or
soft-deleted, cache full or not) returns no error and the key is then stored with the given
value and the expiration `now + exp`. -/
theorem set_present_key (c : Cache) (hr : Reachable c) (key value : String) (exp now : Int)
    (hpres : (Store.get c.cache key).isSome) :
    ∃ c', c.Set key value exp now = some (c', none) ∧
      ∃ y, c'.lookup key = some y ∧ y.Value = value ∧ y.Expiration = now + exp := by
  have hinv := hr.inv
  obtain ⟨p, hget⟩ := Option.isSome_iff_exists.1 hpres
  obtain ⟨c', hset, _⟩ := Set_present hinv hget value exp now
  obtain ⟨_, _, _, y, hy, _, hyv, hye⟩ := Set_ok hinv hset
  exact ⟨c', hset, y, hy, hyv, hye⟩

/-- C5: in a reachable state, after a `Set(k, v1, t1)` that succeeds, `Set(k, v2, t2)`
succeeds (for every `t2`, so for `t2 > 0`) and does not increase the number of keys, and a
`Get(k)` issued before the new expiration (the time of the second `Set` plus `t2`) returns
`v2` with no error. -/
theorem overwrite_round_trip (c : Cache) (hr : Reachable c) (k v1 v2 : String)
    (t1 t2 now1 now2 now3 : Int) (c1 : Cache)
    (h1 : c.Set k v1 t1 now1 = some (c1, none)) (hnow : now3 < now2 + t2) :
    ∃ c2 c3, c1.Set k v2 t2 now2 = some (c2, none) ∧
      c2.cache.length ≤ c1.cache.length ∧
      c2.Get k now3 = some (c3, v2, none) := by
  have hinv := hr.inv
  obtain ⟨hinv1, _, _, y1, hy1, _⟩ := Set_ok hinv h1
  obtain ⟨p1, hget1, _⟩ := lookup_some hy1
  obtain ⟨c2, hset2, hlen2⟩ := Set_present hinv1 hget1 v2 t2 now2
  obtain ⟨hinv2, _, _, y2, hy2, _, hyv, hye⟩ := Set_ok hinv1 hset2
  obtain ⟨p2, hget2, hx2⟩ := lookup_some hy2
  rcases Get_cases c2 k now3 (hinv2.noNil k) with ⟨hn, _⟩ | ⟨p, x, hp, hx, hexp, _⟩ |
    ⟨p, x, hp, hx, _, hg⟩
  · rw [hget2] at hn; cases hn
  · rw [hget2] at hp; cases hp
    rw [hx2] at hx; cases hx
    omega
  · rw [hget2] at hp; cases hp
    rw [hx2] at hx; cases hx
    exact ⟨c2, c2.hit, hset2, hlen2, by rw [hg, hyv]⟩

/-- C7: in every state whose map holds an allocated address for the key (or none), `Get`
returns and leaves the store, the heap, the object memory and the eviction counter
unchanged; it increments exactly one counter by one: the hit counter when it returns a value
(the value stored under the key), the miss counter when it returns `ErrNotFound`. -/
theorem get_frame (c : Cache) (key : String) (now : Int)
    (hnn : ∀ p, Store.get c.cache key = some p → ∃ x, c.objs[p]? = some x) :
    ∃ c' v r, c.Get key now = some (c', v, r) ∧
      c'.cache = c.cache ∧ c'.expirations = c.expirations ∧ c'.objs = c.objs ∧
      c'.maxSize = c.maxSize ∧ c'.stats.Evictions = c.stats.Evictions ∧
      ((r = none ∧ c'.stats.Hits = c.stats.Hits + 1 ∧ c'.stats.Misses = c.stats.Misses ∧
          ∃ x, c.lookup key = some x ∧ v = x.Value) ∨
       (∃ err, r = some err ∧ err.wraps = Sentinel.ErrNotFound ∧
          c'.stats.Misses = c.stats.Misses + 1 ∧ c'.stats.Hits = c.stats.Hits)) := by
  rcases Get_cases c key now hnn with ⟨_, h⟩ | ⟨_, _, _, _, _, h⟩ | ⟨p, x, hp, hx, _, h⟩
  · exact ⟨c.missed, _, _, h, rfl, rfl, rfl, rfl, rfl, Or.inr ⟨_, rfl, rfl, rfl, rfl⟩⟩
  · exact ⟨c.missed, _, _, h, rfl, rfl, rfl, rfl, rfl, Or.inr ⟨_, rfl, rfl, rfl, rfl⟩⟩
  · exact ⟨c.hit, _, _, h, rfl, rfl, rfl, rfl, rfl,
      Or.inl ⟨rfl, rfl, rfl, x, by rw [lookup_eq hp]; exact hx, rfl⟩⟩

/-- C8: in a reachable state, `Delete` of a key that is in the store returns no error and
leaves the store (its keys, hence its size) unchanged, and a `Get` of the key that follows
at a clock reading not earlier than that of the `Delete` returns `ErrNotFound`. -/
theorem soft_delete_immediacy (c : Cache) (hr : Reachable c) (k : String) (now now' : Int)
    (hpres : (Store.get c.cache k).isSome) (hnow : now ≤ now') :
    ∃ c' c'' err, c.Delete k now = some (c', none) ∧ c'.cache = c.cache ∧
      c'.Get k now' = some (c'', "", some err) ∧ err.wraps = Sentinel.ErrNotFound := by
  have hinv := hr.inv
  obtain ⟨p, hget⟩ := Option.isSome_iff_exists.1 hpres
  rcases Delete_spec hinv k now with ⟨hn, _⟩ |
    ⟨p', x, c2, _, _, hdel, hinv2, hcache, _, _, _, _, y, hy, _, _, hye⟩
  · rw [hget] at hn; cases hn
  · obtain ⟨q, hq, hyq⟩ := lookup_some hy
    rcases Get_cases c2 k now' (hinv2.noNil k) with ⟨hn, _⟩ | ⟨_, _, _, _, _, hg⟩ |
      ⟨q', x', hq', hx', hexp, _⟩
    · rw [hq] at hn; cases hn
    · exact ⟨c2, c2.missed, _, hdel, hcache, hg, rfl⟩
    · rw [hq] at hq'; cases hq'
      rw [hyq] at hx'; cases hx'
      exfalso; apply hexp
      rw [hye]
      simp only [second]
      omega

/-- C9: in a reachable state, `Delete` returns; it returns `ErrNotFound` exactly when the
key is absent from the store, and then the whole state is unchanged; on a key that is in
the store (expired and soft-deleted ones included) it returns no error; it never changes a
counter. -/
theorem delete_contract (c : Cache) (hr : Reachable c) (key : String) (now : Int) :
    ∃ c' r, c.Delete key now = some (c', r) ∧
      ((∃ err, r = some err ∧ err.wraps = Sentinel.ErrNotFound) ↔
        Store.get c.cache key = none) ∧
      (Store.get c.cache key = none → c' = c) ∧
      ((Store.get c.cache key).isSome → r = none) ∧
      c'.stats = c.stats := by
  have hinv := hr.inv
  rcases Delete_spec hinv key now with ⟨hn, hdel⟩ |
    ⟨p, x, c2, hget, _, hdel, _, _, _, hst, _⟩
  · refine ⟨c, _, hdel, ⟨fun _ => hn, fun _ => ⟨_, rfl, rfl⟩⟩, fun _ => rfl, ?_, rfl⟩
    intro h; rw [hn] at h; cases h
  · refine ⟨c2, none, hdel, ⟨?_, ?_⟩, ?_, fun _ => rfl, hst⟩
    · rintro ⟨err, herr, _⟩; cases herr
    · intro h; rw [hget] at h; cases h
    · intro h; rw [hget] at h; cases h

/-- C10: in a reachable state, `Prune` at `now` returns; the store keeps exactly the keys
whose entry expires after `now` (with the same addresses), the heap holds exactly the
addresses of those entries, no entry changes key, value or expiration, the eviction counter
grows by the number of keys removed, and hits and misses are unchanged.  In terms of
lookups: a key whose entry expires after `now` keeps its value and expiration, a key whose
entry does not expire after `now` is absent afterwards, and no key is added. -/
theorem prune_postcondition (c : Cache) (hr : Reachable c) (now : Int) :
    ∃ c', c.Prune now = some c' ∧
      c'.cache = c.cache.filter (fun kv => liveAt c.objs now kv.2) ∧
      c'.expirations.Perm (c.expirations.filter (liveAt c.objs now)) ∧
      Frame c.objs c'.objs ∧
      c'.stats.Evictions = c.stats.Evictions + ((c.cache.length : Int) - c'.cache.length) ∧
      c'.stats.Hits = c.stats.Hits ∧ c'.stats.Misses = c.stats.Misses ∧
      (∀ k x, c.lookup k = some x → x.Expiration > now →
        ∃ y, c'.lookup k = some y ∧ y.Value = x.Value ∧ y.Expiration = x.Expiration) ∧
      (∀ k x, c.lookup k = some x → ¬ x.Expiration > now → c'.lookup k = none) ∧
      (∀ k, c.lookup k = none → c'.lookup k = none) := by
  have hinv := hr.inv
  obtain ⟨c', h, hinv', hc, hp, hfr, _, hh, hm, he⟩ := Prune_spec hinv now
  refine ⟨c', h, hc, hp, hfr, he, hh, hm, ?_, ?_, ?_⟩
  · intro k x hk hlive
    obtain ⟨p, hget, hx⟩ := lookup_some hk
    have hmem : (k, p) ∈ c'.cache := by
      rw [hc, List.mem_filter]
      refine ⟨Store.get_mem hget, ?_⟩
      simp only [liveAt, expOf_eq hx, decide_eq_true_eq]
      exact hlive
    obtain ⟨y, hy, _, hyv, hye⟩ := hfr.get hx
    exact ⟨y, by rw [lookup_eq (Store.get_of_mem hinv'.keys hmem)]; exact hy, hyv, hye⟩
  · intro k x hk hdead
    obtain ⟨p, hget, hx⟩ := lookup_some hk
    have hnone : Store.get c'.cache k = none := by
      apply Store.get_eq_none_of
      intro q hq
      rw [hc, List.mem_filter] at hq
      have hq' := Store.get_of_mem hinv.keys hq.1
      rw [hget] at hq'; cases hq'
      have := hq.2
      simp only [liveAt, expOf_eq hx, decide_eq_true_eq] at this
      exact hdead this
    simp only [Cache.lookup, hnone]
  · intro k hk
    have hnone : Store.get c.cache k = none := by
      rcases Store.get_isSome_or (s := c.cache) k with hget | ⟨p, hget⟩
      · exact hget
      · obtain ⟨x, hx⟩ := hinv.noNil k p hget
        rw [lookup_eq hget, hx] at hk; cases hk
    have : Store.get c'.cache k = none := by
      rw [hc]; exact Store.get_filter_none hnone _
    simp only [Cache.lookup, this]

theorem demoFull_reachable : Reachable demoFull :=
  ⟨1, [Op.set "a" "x" 5 0], by decide⟩

/-- C2, at a concrete input: `Set` of the absent key "b" on the full cache `demoFull`. -/
theorem set_absent_key_witness :
    Reachable demoFull ∧ Store.get demoFull.cache "b" = none ∧
    ∃ c' r, demoFull.Set "b" "y" 5 1 = some (c', r) ∧
      ((∃ err, r = some err ∧ err.wraps = Sentinel.ErrCapacity) ↔
        ((demoFull.cache.length : Int) ≥ demoFull.maxSize ∧
          ∀ k x, demoFull.lookup k = some x → x.Expiration > 1)) ∧
      ((∃ err, r = some err ∧ err.wraps = Sentinel.ErrCapacity) ∨
        (r = none ∧ ∃ y, c'.lookup "b" = some y ∧ y.Value = "y" ∧
          y.Expiration = 1 + 5)) :=
  ⟨demoFull_reachable, by decide,
    set_absent_key demoFull demoFull_reachable "b" "y" 5 1 (by decide)⟩

/-- C3, at a concrete input: the failing `Set` of "b" on the full cache `demoFull`. -/
theorem set_failure_atomic_witness :
    Reachable demoFull ∧
    demoFull.Set "b" "y" 5 1 = some (demoFull, some (capacityError "b")) ∧
    (demoFull = demoFull ∧ (capacityError "b").wraps = Sentinel.ErrCapacity) :=
  ⟨demoFull_reachable, by decide,
    set_failure_atomic demoFull demoFull_reachable "b" "y" 5 1 demoFull (capacityError "b")
      (by decide)⟩

/-- C4, at a concrete input: `Set` of the stored key "a" on the full cache `demoFull`. -/
theorem set_present_key_witness :
    Reachable demoFull ∧ (Store.get demoFull.cache "a").isSome ∧
    ∃ c', demoFull.Set "a" "z" 7 1 = some (c', none) ∧
      ∃ y, c'.lookup "a" = some y ∧ y.Value = "z" ∧ y.Expiration = 1 + 7 :=
  ⟨demoFull_reachable, by decide,
    set_present_key demoFull demoFull_reachable "a" "z" 7 1 (by decide)⟩

/-- C5, at a concrete input: two `Set` calls of "a" on `New(1)` and a `Get` at time 3. -/
theorem overwrite_round_trip_witness :
    Reachable (New 1) ∧ (New 1).Set "a" "x" 5 0 = some (demoFull, none) ∧
    (3 : Int) < 2 + 7 ∧
    ∃ c2 c3, demoFull.Set "a" "z" 7 2 = some (c2, none) ∧
      c2.cache.length ≤ demoFull.cache.length ∧
      c2.Get "a" 3 = some (c3, "z", none) :=
  ⟨⟨1, [], rfl⟩, by decide, by decide,
    overwrite_round_trip (New 1) ⟨1, [], rfl⟩ "a" "x" "z" 5 7 0 2 3 demoFull (by decide)
      (by decide)⟩

/-- Method `Get` of a stored key whose entry expires strictly before `now`: `ErrNotFound`,
one more miss, and nothing else changes. -/
theorem get_strictly_expired (c : Cache) (key : String) (now : Int) (x : Entry)
    (hx : c.lookup key = some x) (hexp : x.Expiration < now) :
    c.Get key now = some (c.missed, "", some (expiredError key)) := by
  obtain ⟨p, hp, hxp⟩ := lookup_some hx
  simp only [Cache.Get, hp, hxp, hexp, if_true, Cache.missed, expiredError]

/-- Method `Get` of a stored key whose entry does not expire before `now` (at `now` or
later): the stored value, no error and one more hit. -/
theorem get_not_before (c : Cache) (key : String) (now : Int) (x : Entry)
    (hx : c.lookup key = some x) (hexp : now ≤ x.Expiration) :
    c.Get key now = some (c.hit, x.Value, none) := by
  obtain ⟨p, hp, hxp⟩ := lookup_some hx
  have : ¬ x.Expiration < now := by omega
  simp only [Cache.Get, hp, hxp, this, if_false, Cache.hit]

/-- C6 (code defect), evaluated: the entry of "a" in `demoFull` expires at 5.  At time 5
its expiration is not after the current time: `Prune` evicts it as expired, but `Get`
returns its value and counts a hit. -/
theorem get_at_expiration_instant :
    Reachable demoFull ∧
    demoFull.lookup "a" = some { Key := "a", Value := "x", Expiration := 5, Index := 0 } ∧
    demoFull.Get "a" 5 = some (demoFull.hit, "x", none) ∧
    demoFull.Prune 5 = some demoPruned :=
  ⟨demoFull_reachable, by decide, by decide, by decide⟩

/-- C7, at a concrete input: `Get` of "a" on `demoFull` at time 1. -/
theorem get_frame_witness :
    (∀ p, Store.get demoFull.cache "a" = some p → ∃ x, demoFull.objs[p]? = some x) ∧
    ∃ c' v r, demoFull.Get "a" 1 = some (c', v, r) ∧
      c'.cache = demoFull.cache ∧ c'.expirations = demoFull.expirations ∧
      c'.objs = demoFull.objs ∧ c'.maxSize = demoFull.maxSize ∧
      c'.stats.Evictions = demoFull.stats.Evictions ∧
      ((r = none ∧ c'.stats.Hits = demoFull.stats.Hits + 1 ∧
          c'.stats.Misses = demoFull.stats.Misses ∧
          ∃ x, demoFull.lookup "a" = some x ∧ v = x.Value) ∨
       (∃ err, r = some err ∧ err.wraps = Sentinel.ErrNotFound ∧
          c'.stats.Misses = demoFull.stats.Misses + 1 ∧
          c'.stats.Hits = demoFull.stats.Hits)) :=
  ⟨demoFull_reachable.inv.noNil "a",
    get_frame demoFull "a" 1 (demoFull_reachable.inv.noNil "a")⟩

/-- C8, at a concrete input: `Delete` of "a" on `demoFull` at time 1, then `Get` at 1. -/
theorem soft_delete_immediacy_witness :
    Reachable demoFull ∧ (Store.get demoFull.cache "a").isSome ∧ (1 : Int) ≤ 1 ∧
    ∃ c' c'' err, demoFull.Delete "a" 1 = some (c', none) ∧ c'.cache = demoFull.cache ∧
      c'.Get "a" 1 = some (c'', "", some err) ∧ err.wraps = Sentinel.ErrNotFound :=
  ⟨demoFull_reachable, by decide, by decide,
    soft_delete_immediacy demoFull demoFull_reachable "a" 1 1 (by decide) (by decide)⟩

/-- C9, at a concrete input: `Delete` of the absent key "b" on `demoFull`. -/
theorem delete_contract_witness :
    Reachable demoFull ∧
    ∃ c' r, demoFull.Delete "b" 1 = some (c', r) ∧
      ((∃ err, r = some err ∧ err.wraps = Sentinel.ErrNotFound) ↔
        Store.get demoFull.cache "b" = none) ∧
      (Store.get demoFull.cache "b" = none → c' = demoFull) ∧
      ((Store.get demoFull.cache "b").isSome → r = none) ∧
      c'.stats = demoFull.stats :=
  ⟨demoFull_reachable, delete_contract demoFull demoFull_reachable "b" 1⟩

/-- C10, at a concrete input: `Prune` of `demoFull` at time 9. -/
theorem prune_postcondition_witness :
    Reachable demoFull ∧
    ∃ c', demoFull.Prune 9 = some c' ∧
      c'.cache = demoFull.cache.filter (fun kv => liveAt demoFull.objs 9 kv.2) ∧
      c'.expirations.Perm (demoFull.expirations.filter (liveAt demoFull.objs 9)) ∧
      Frame demoFull.objs c'.objs ∧
      c'.stats.Evictions
        = demoFull.stats.Evictions + ((demoFull.cache.length : Int) - c'.cache.length) ∧
      c'.stats.Hits = demoFull.stats.Hits ∧ c'.stats.Misses = demoFull.stats.Misses ∧
      (∀ k x, demoFull.lookup k = some x → x.Expiration > 9 →
        ∃ y, c'.lookup k = some y ∧ y.Value = x.Value ∧ y.Expiration = x.Expiration) ∧
      (∀ k x, demoFull.lookup k = some x → ¬ x.Expiration > 9 → c'.lookup k = none) ∧
      (∀ k, demoFull.lookup k = none → c'.lookup k = none) :=
  ⟨demoFull_reachable, prune_postcondition demoFull demoFull_reachable 9⟩

/-- On a state whose heap entries are all live at `now`, `Prune` at `now` changes nothing. -/
theorem Prune_fixed {c : Cache} (hinv : Inv c) (now : Int)
    (hlive : ∀ q, q ∈ c.expirations → expOf c.objs q > now) : c.Prune now = some c := by
  by_cases hemp : c.cache.length = 0
  · simp only [Cache.Prune, Cache.pruneLoop, hemp, if_true]
  · have hlen := hinv.length_eq
    have h0 : c.expirations[0]? = some c.expirations[0] :=
      List.getElem?_eq_getElem (by omega)
    have hmem0 : c.expirations[0] ∈ c.expirations := List.mem_iff_getElem?.2 ⟨0, h0⟩
    have hslot : c.expirations.slot 0 = some c.expirations[0] := by
      have := slot_natCast c.expirations 0
      simpa using this.trans h0
    obtain ⟨x, hx, _⟩ := hinv.idx 0 _ h0
    have hexp : x.Expiration > now := by
      have := hlive _ hmem0
      rw [expOf_eq hx] at this
      exact this
    simp only [Cache.Prune, Cache.pruneLoop, hemp, if_false, hslot, hx, hexp, if_true]

/-- C11: in a reachable state, `Prune` at `now` returns, and a second `Prune` at the same
clock reading, with no call in between, returns the state of the first unchanged: it evicts
nothing, so store, heap and eviction counter are those after the first call. -/
theorem prune_idempotent (c : Cache) (hr : Reachable c) (now : Int) :
    ∃ c1, c.Prune now = some c1 ∧ c1.Prune now = some c1 := by
  obtain ⟨c1, h1, hinv1, _, hperm, hfr, _⟩ := Prune_spec hr.inv now
  refine ⟨c1, h1, Prune_fixed hinv1 now ?_⟩
  intro q hq
  have hq' := (List.mem_filter.1 (hperm.subset hq)).2
  simp only [liveAt, decide_eq_true_eq] at hq'
  rw [hfr.exp_eq]
  exact hq'

/-- C11, at a concrete input: `Prune` of `demoFull` at time 9, twice. -/
theorem prune_idempotent_witness :
    Reachable demoFull ∧ ∃ c1, demoFull.Prune 9 = some c1 ∧ c1.Prune 9 = some c1 :=
  ⟨demoFull_reachable, prune_idempotent demoFull demoFull_reachable 9⟩

theorem Frame.objs_length {m m' : Objs} (h : Frame m m') : m'.length = m.length := by
  have key : ∀ {a b : Objs}, Frame a b → b.length ≤ a.length := by
    intro a b hab
    have h1 := hab a.length
    rw [List.getElem?_eq_none (le_refl _)] at h1
    cases h2 : b[a.length]? with
    | none => exact List.getElem?_eq_none_iff.1 h2
    | some y => rw [h2] at h1; simp at h1
  exact le_antisymm (key h) (key h.symm)

/-- The ways a `Set` goes after `ensureCapacity` returned `c1`, with the store, the counters
and the size of the object memory of the result: update in place, failure, or new entry. -/
theorem Set_effect {c c1 : Cache} {now : Int} (h1 : c.ensureCapacity now = some c1)
    (hinv1 : Inv c1) (key value : String) (exp : Int) :
    ∃ c' r, c.Set key value exp now = some (c', r) ∧
      ((∃ p, Store.get c1.cache key = some p ∧ r = none ∧ c'.cache = c1.cache ∧
          c'.stats = c1.stats ∧ c'.objs.length = c1.objs.length) ∨
       (Store.get c1.cache key = none ∧ c' = c1 ∧ r = some (capacityError key)) ∨
       (Store.get c1.cache key = none ∧ r = none ∧
          c'.cache = c1.cache ++ [(key, c1.objs.length)] ∧ c'.stats = c1.stats ∧
          c'.objs.length = c1.objs.length + 1)) := by
  rcases Set_cases h1 hinv1 key value exp with ⟨p, c2, hget, hupd, hset⟩ | ⟨hget, _, hset⟩ |
    ⟨hget, hroom, c2, hadd, hset⟩
  · obtain ⟨c2', x, hupd', _, _, hcache, _, hst, _, hfr, _⟩ :=
      updateEntry_spec hinv1 hget value exp now
    rw [hupd] at hupd'; cases hupd'
    refine ⟨c2, none, hset, Or.inl ⟨p, hget, rfl, hcache, hst, ?_⟩⟩
    rw [hfr.objs_length, List.length_set]
  · exact ⟨c1, _, hset, Or.inr (Or.inl ⟨hget, rfl, rfl⟩)⟩
  · obtain ⟨c2', hadd', _, hcache, hfr, _, _, hst⟩ :=
      addNewEntry_spec hinv1 hget hroom value exp now
    rw [hadd] at hadd'; cases hadd'
    refine ⟨c2, none, hset, Or.inr (Or.inr ⟨hget, rfl, hcache, hst, ?_⟩)⟩
    rw [hfr.objs_length]; simp

/-- C12: in a reachable state a `Set` at `now` returns and either removes no entry from the
store, or removes exactly one: then the store was at capacity before the call, the removed
entry has an expiration not after `now` and no stored entry expires earlier, every other
entry stays and one eviction is counted.  An entry whose expiration is after `now` is never
removed. -/
theorem set_evicts_at_most_one (c : Cache) (hr : Reachable c) (key value : String)
    (exp now : Int) :
    ∃ c' r, c.Set key value exp now = some (c', r) ∧
      (((∀ kp, kp ∈ c.cache → kp ∈ c'.cache) ∧ c'.stats.Evictions = c.stats.Evictions) ∨
       (∃ k0 p0 x0, (k0, p0) ∈ c.cache ∧ c.objs[p0]? = some x0 ∧
          (c.cache.length : Int) ≥ c.maxSize ∧ x0.Expiration ≤ now ∧
          (∀ k x, c.lookup k = some x → x0.Expiration ≤ x.Expiration) ∧
          (∀ kp, kp ∈ c.cache → kp ≠ (k0, p0) → kp ∈ c'.cache) ∧
          (k0, p0) ∉ c'.cache ∧
          c'.stats.Evictions = c.stats.Evictions + 1)) ∧
      (∀ k p x, (k, p) ∈ c.cache → c.objs[p]? = some x → x.Expiration > now →
        (k, p) ∈ c'.cache) := by
  have hinv := hr.inv
  obtain ⟨c1, h1, hinv1, _, hfr1, _, _, hcase⟩ := ensureCapacity_spec hinv now
  obtain ⟨c', r, hset, heff⟩ := Set_effect h1 hinv1 key value exp
  have hsub : ∀ kp, kp ∈ c1.cache → kp ∈ c'.cache := by
    intro kp hkp
    rcases heff with ⟨_, _, _, hc, _⟩ | ⟨_, hc, _⟩ | ⟨_, _, hc, _⟩
    · rw [hc]; exact hkp
    · rw [hc]; exact hkp
    · rw [hc]; exact List.mem_append_left _ hkp
  have hst : c'.stats.Evictions = c1.stats.Evictions := by
    rcases heff with ⟨_, _, _, _, hs, _⟩ | ⟨_, hc, _⟩ | ⟨_, _, _, hs, _⟩
    · rw [hs]
    · rw [hc]
    · rw [hs]
  rcases hcase with ⟨hc, _⟩ | ⟨p0, h0, hexp0, hfull0, hcache1, _, _, hev1⟩
  · subst hc
    exact ⟨c', r, hset, Or.inl ⟨hsub, hst⟩, fun k p _ hkp _ _ => hsub _ hkp⟩
  · have hp0 : p0 ∈ c.expirations := List.mem_iff_getElem?.2 ⟨0, h0⟩
    obtain ⟨x0, hx0, hmem0⟩ := hinv.mem_store hp0
    rw [expOf_eq hx0] at hexp0
    have hkeep : ∀ kp, kp ∈ c.cache → kp.2 ≠ p0 → kp ∈ c'.cache := by
      intro kp hkp hne
      apply hsub
      rw [hcache1, List.mem_filter]
      exact ⟨hkp, by simpa using hne⟩
    refine ⟨c', r, hset, Or.inr ⟨x0.Key, p0, x0, hmem0, hx0, by omega, hexp0, ?_, ?_, ?_,
      by rw [hst, hev1]⟩, ?_⟩
    · intro k x hk
      obtain ⟨p, hp, hx⟩ := lookup_some hk
      have := hinv.root_min h0 (hinv.mem_heap (Store.get_mem hp))
      rw [expOf_eq hx0, expOf_eq hx] at this
      exact this
    · intro kp hkp hne
      apply hkeep kp hkp
      intro h2
      apply hne
      obtain ⟨k, p⟩ := kp
      simp only at h2
      subst h2
      have := List.inj_on_of_nodup_map hinv.ptrs hkp hmem0 rfl
      exact this
    · intro hin
      have hnot1 : (x0.Key, p0) ∉ c1.cache := by
        rw [hcache1, List.mem_filter]
        rintro ⟨_, h2⟩
        simp at h2
      rcases heff with ⟨_, _, _, hc, _⟩ | ⟨_, hc, _⟩ | ⟨_, _, hc, _⟩
      · rw [hc] at hin; exact hnot1 hin
      · rw [hc] at hin; exact hnot1 hin
      · rw [hc] at hin
        rcases List.mem_append.1 hin with h2 | h2
        · exact hnot1 h2
        · simp only [List.mem_singleton, Prod.mk.injEq] at h2
          have := getElem?_lt hx0
          have := hfr1.objs_length
          omega
    · intro k p x hkp hx hlive
      apply hkeep (k, p) hkp
      intro h2
      simp only at h2
      subst h2
      rw [hx0] at hx; cases hx
      omega

/-- C12, at a concrete input: `Set` of "b" on the full cache `demoFull` at time 9, which
evicts the expired entry of "a". -/
theorem set_evicts_at_most_one_witness :
    Reachable demoFull ∧
    ∃ c' r, demoFull.Set "b" "y" 5 9 = some (c', r) ∧
      (((∀ kp, kp ∈ demoFull.cache → kp ∈ c'.cache) ∧
          c'.stats.Evictions = demoFull.stats.Evictions) ∨
       (∃ k0 p0 x0, (k0, p0) ∈ demoFull.cache ∧ demoFull.objs[p0]? = some x0 ∧
          (demoFull.cache.length : Int) ≥ demoFull.maxSize ∧ x0.Expiration ≤ 9 ∧
          (∀ k x, demoFull.lookup k = some x → x0.Expiration ≤ x.Expiration) ∧
          (∀ kp, kp ∈ demoFull.cache → kp ≠ (k0, p0) → kp ∈ c'.cache) ∧
          (k0, p0) ∉ c'.cache ∧
          c'.stats.Evictions = demoFull.stats.Evictions + 1)) ∧
      (∀ k p x, (k, p) ∈ demoFull.cache → demoFull.objs[p]? = some x → x.Expiration > 9 →
        (k, p) ∈ c'.cache) :=
  ⟨demoFull_reachable, set_evicts_at_most_one demoFull demoFull_reachable "b" "y" 5 9⟩

theorem Store.get_append_new {s : Store} {k : String} (h : Store.get s k = none) (p : Nat) :
    Store.get (s ++ [(k, p)]) k = some p := by
  induction s with
  | nil => simp [Store.get]
  | cons hd tl ih =>
    obtain ⟨k', q⟩ := hd
    simp only [Store.get] at h
    by_cases hk : k' = k
    · simp [hk] at h
    · simp only [hk, if_false] at h
      simp only [List.cons_append, Store.get, hk, if_false]
      exact ih h

/-- C13 (as stated, refuted): in the reachable state `demoFull` the key "a" is stored at
address 0 with expiration 5.  `Set("a", "z", 7)` at time 9 evicts that entry (one eviction is
counted) and allocates a new entry for "a" at address 1. -/
theorem set_replaces_expired_entry :
    Reachable demoFull ∧ Store.get demoFull.cache "a" = some 0 ∧
    demoFull.Set "a" "z" 7 9 = some (demoReplaced, none) ∧
    Store.get demoReplaced.cache "a" = some 1 ∧
    demoReplaced.objs.length = demoFull.objs.length + 1 ∧
    demoReplaced.stats.Evictions = demoFull.stats.Evictions + 1 :=
  ⟨demoFull_reachable, by decide, by decide, by decide, by decide, by decide⟩

/-- Writing at the later reading `nowB` is writing at `nowA` with the delay added to the
duration. -/
theorem updateEntry_shift (c : Cache) (p : Nat) (value : String) (exp nowA nowB : Int) :
    c.updateEntry p value (exp + (nowB - nowA)) nowA = c.updateEntry p value exp nowB := by
  have h : nowA + (exp + (nowB - nowA)) = nowB + exp := by ring
  simp only [Cache.updateEntry, h]

/-- Adding at the later reading `nowB` is adding at `nowA` with the delay added to the
duration. -/
theorem addNewEntry_shift (c : Cache) (key value : String) (exp nowA nowB : Int) :
    c.addNewEntry key value (exp + (nowB - nowA)) nowA = c.addNewEntry key value exp nowB := by
  have h : nowA + (exp + (nowB - nowA)) = nowB + exp := by ring
  simp only [Cache.addNewEntry, h]

/-- A `Set` that reads the clock at `nowA` in the capacity step and at `nowB` when it writes
the entry is the one-reading `Set` at `nowA` with the delay `nowB - nowA` added to the
duration. -/
theorem SetAt_eq_Set (c : Cache) (key value : String) (exp nowA nowB : Int) :
    c.SetAt key value exp nowA nowB = c.Set key value (exp + (nowB - nowA)) nowA := by
  simp only [Cache.SetAt, Cache.Set, updateEntry_shift, addNewEntry_shift]

/-- `Set` of a key stored at address `p`: when the store is at capacity and the key's own
entry is in heap slot 0 with an expiration not after `now`, that entry is evicted and a new
one allocated; in every other case the entry is updated in place. -/
theorem Set_present_split {c : Cache} (hinv : Inv c) (key value : String)
    (exp now : Int) {p : Nat} {x : Entry}
    (hget : Store.get c.cache key = some p) (hx : c.objs[p]? = some x) :
    ∃ c', c.Set key value exp now = some (c', none) ∧
      (∃ y, c'.lookup key = some y ∧ y.Value = value ∧ y.Expiration = now + exp) ∧
      (((c.cache.length : Int) ≥ c.maxSize ∧ c.expirations[0]? = some p ∧
          x.Expiration ≤ now) →
        Store.get c'.cache key = some c.objs.length ∧
        c'.objs.length = c.objs.length + 1 ∧
        c'.stats.Evictions = c.stats.Evictions + 1) ∧
      (¬ ((c.cache.length : Int) ≥ c.maxSize ∧ c.expirations[0]? = some p ∧
          x.Expiration ≤ now) →
        Store.get c'.cache key = some p ∧ c'.objs.length = c.objs.length ∧
        (c'.stats.Evictions = c.stats.Evictions ∨
          ∃ p0, p0 ≠ p ∧ c.expirations[0]? = some p0 ∧
            c'.stats.Evictions = c.stats.Evictions + 1)) := by
  obtain ⟨c', hset, _⟩ := Set_present hinv hget value exp now
  obtain ⟨_, _, _, y, hy, _, hyv, hye⟩ := Set_ok hinv hset
  obtain ⟨c1, h1, hinv1, _, hfr1, _, _, hcase⟩ := ensureCapacity_spec hinv now
  obtain ⟨c'', r, hset', heff⟩ := Set_effect h1 hinv1 key value exp
  rw [hset] at hset'; cases hset'
  have hmem : (key, p) ∈ c.cache := Store.get_mem hget
  have hpe : p ∈ c.expirations := hinv.mem_heap hmem
  have hst : c'.stats.Evictions = c1.stats.Evictions := by
    rcases heff with ⟨_, _, _, _, hs, _⟩ | ⟨_, hc, _⟩ | ⟨_, _, _, hs, _⟩
    · rw [hs]
    · rw [hc]
    · rw [hs]
  have hplace : Store.get c1.cache key = some p →
      Store.get c'.cache key = some p ∧ c'.objs.length = c.objs.length := by
    intro hg
    rcases heff with ⟨p', hg', _, hc, _, hl⟩ | ⟨hg', _, _⟩ | ⟨hg', _⟩
    · exact ⟨by rw [hc]; exact hg, by rw [hl, hfr1.objs_length]⟩
    · rw [hg] at hg'; cases hg'
    · rw [hg] at hg'; cases hg'
  refine ⟨c', hset, ⟨y, hy, hyv, hye⟩, ?_, ?_⟩
  · rintro ⟨hfull, hroot, hexp⟩
    rcases hcase with ⟨_, hlive⟩ | ⟨p0, h0, hexp0, hfull0, hcache1, _, _, hev1⟩
    · have := hlive hfull p hpe
      rw [expOf_eq hx] at this
      omega
    · rw [hroot] at h0; cases h0
      have hg1 : Store.get c1.cache key = none := by
        apply Store.get_eq_none_of
        intro q hq
        rw [hcache1, List.mem_filter] at hq
        have := Store.get_of_mem hinv.keys hq.1
        rw [hget] at this; cases this
        simp at hq
      rcases heff with ⟨p', hg', _⟩ | ⟨_, _, hr'⟩ | ⟨_, _, hc, hs, hl⟩
      · rw [hg1] at hg'; cases hg'
      · cases hr'
      · refine ⟨?_, by rw [hl, hfr1.objs_length], by rw [hs, hev1]⟩
        rw [hc, ← hfr1.objs_length]; exact Store.get_append_new hg1 _
  · intro hncond
    rcases hcase with ⟨hc, _⟩ | ⟨p0, h0, hexp0, hfull0, hcache1, _, _, hev1⟩
    · subst hc
      obtain ⟨ha, hb⟩ := hplace hget
      exact ⟨ha, hb, Or.inl hst⟩
    · have hp : p ≠ p0 := by
        intro hp; subst hp
        rw [expOf_eq hx] at hexp0
        exact hncond ⟨by omega, h0, hexp0⟩
      have hg1 : Store.get c1.cache key = some p := by
        apply Store.get_of_mem hinv1.keys
        rw [hcache1, List.mem_filter]
        exact ⟨hmem, by simpa using hp⟩
      obtain ⟨ha, hb⟩ := hplace hg1
      exact ⟨ha, hb, Or.inr ⟨p0, Ne.symm hp, h0, by rw [hst, hev1]⟩⟩

/-- C13 (amended): in a reachable state in which the key is stored at address `p`, `Set`
(reading the clock at `nowA` in the capacity step and at `nowB` when it writes the entry)
returns no error and the key is then stored with the given value and the expiration
`nowB + exp`.  When, at the reading `nowA`, the store is at capacity and the key's own
entry is in heap slot 0 with an expiration not after `nowA`, the capacity step evicts that
entry, counting one eviction, and a new entry is allocated for the key.  In every other case
the entry is mutated in place: the key keeps its address, no entry is allocated, and an
eviction is counted only when the capacity step evicted the entry of another key, found in
heap slot 0. -/
theorem set_in_place_unless_evicted (c : Cache) (hr : Reachable c) (key value : String)
    (exp nowA nowB : Int) (p : Nat) (x : Entry)
    (hget : Store.get c.cache key = some p) (hx : c.objs[p]? = some x) :
    ∃ c', c.SetAt key value exp nowA nowB = some (c', none) ∧
      (∃ y, c'.lookup key = some y ∧ y.Value = value ∧ y.Expiration = nowB + exp) ∧
      (((c.cache.length : Int) ≥ c.maxSize ∧ c.expirations[0]? = some p ∧
          x.Expiration ≤ nowA) →
        Store.get c'.cache key = some c.objs.length ∧
        c'.objs.length = c.objs.length + 1 ∧
        c'.stats.Evictions = c.stats.Evictions + 1) ∧
      (¬ ((c.cache.length : Int) ≥ c.maxSize ∧ c.expirations[0]? = some p ∧
          x.Expiration ≤ nowA) →
        Store.get c'.cache key = some p ∧ c'.objs.length = c.objs.length ∧
        (c'.stats.Evictions = c.stats.Evictions ∨
          ∃ p0, p0 ≠ p ∧ c.expirations[0]? = some p0 ∧
            c'.stats.Evictions = c.stats.Evictions + 1)) := by
  obtain ⟨c', hset, ⟨y, hy, hyv, hye⟩, hev, hpl⟩ :=
    Set_present_split hr.inv key value (exp + (nowB - nowA)) nowA hget hx
  refine ⟨c', by rw [SetAt_eq_Set]; exact hset, ⟨y, hy, hyv, ?_⟩, hev, hpl⟩
  rw [hye]; ring

/-- C13 (amended), at a concrete input: `Set` of the stored key "a" on the full cache
`demoFull`, whose entry expires at 5, with the readings 3 (capacity step) and 6 (write):
the entry is live at 3 and is updated in place, to the state `demoUpdated`. -/
theorem set_in_place_unless_evicted_witness :
    (Reachable demoFull ∧ Store.get demoFull.cache "a" = some 0 ∧
      demoFull.objs[0]? = some { Key := "a", Value := "x", Expiration := 5, Index := 0 }) ∧
    demoFull.SetAt "a" "z" 7 3 6 = some (demoUpdated, none) ∧
    ∃ c', demoFull.SetAt "a" "z" 7 3 6 = some (c', none) ∧
      (∃ y, c'.lookup "a" = some y ∧ y.Value = "z" ∧ y.Expiration = 6 + 7) ∧
      (((demoFull.cache.length : Int) ≥ demoFull.maxSize ∧
          demoFull.expirations[0]? = some 0 ∧ (5 : Int) ≤ 3) →
        Store.get c'.cache "a" = some demoFull.objs.length ∧
        c'.objs.length = demoFull.objs.length + 1 ∧
        c'.stats.Evictions = demoFull.stats.Evictions + 1) ∧
      (¬ ((demoFull.cache.length : Int) ≥ demoFull.maxSize ∧
          demoFull.expirations[0]? = some 0 ∧ (5 : Int) ≤ 3) →
        Store.get c'.cache "a" = some 0 ∧ c'.objs.length = demoFull.objs.length ∧
        (c'.stats.Evictions = demoFull.stats.Evictions ∨
          ∃ p0, p0 ≠ 0 ∧ demoFull.expirations[0]? = some p0 ∧
            c'.stats.Evictions = demoFull.stats.Evictions + 1)) :=
  ⟨⟨demoFull_reachable, by decide, by decide⟩, by decide,
    set_in_place_unless_evicted demoFull demoFull_reachable "a" "z" 7 3 6 0
      { Key := "a", Value := "x", Expiration := 5, Index := 0 } (by decide) (by decide)⟩

theorem Set_zero_capacity {c : Cache} (hc : c.cache = []) (hm : c.maxSize = 0)
    (key value : String) (exp now : Int) :
    c.Set key value exp now = some (c, some (capacityError key)) := by
  simp [Cache.Set, Cache.ensureCapacity, hc, hm, Store.get, capacityError]

theorem Get_empty {c : Cache} (hc : c.cache = []) (key : String) (now : Int) :
    c.Get key now = some (c.missed, "", some (getError key)) := by
  simp [Cache.Get, hc, Store.get, Cache.missed, getError]

theorem Delete_empty {c : Cache} (hc : c.cache = []) (key : String) (now : Int) :
    ∃ err, c.Delete key now = some (c, some err) := by
  simp [Cache.Delete, hc, Store.get]

theorem Prune_empty {c : Cache} (hc : c.cache = []) (now : Int) : c.Prune now = some c := by
  simp [Cache.Prune, Cache.pruneLoop, hc]

theorem run_zero_capacity (ops : List Op) : ∀ (c : Cache), c.cache = [] →
    c.expirations = [] → c.maxSize = 0 → c.stats.Evictions = 0 →
    ∃ c', c.run ops = some c' ∧ c'.cache = [] ∧ c'.expirations = [] ∧ c'.maxSize = 0 ∧
      c'.stats.Evictions = 0 := by
  induction ops with
  | nil => intro c hc he hm hv; exact ⟨c, rfl, hc, he, hm, hv⟩
  | cons op ops ih =>
    intro c hc he hm hv
    cases op with
    | set key value exp now =>
      obtain ⟨c', h, r⟩ := ih c hc he hm hv
      refine ⟨c', ?_, r⟩
      simp only [Cache.run, Cache.step, Set_zero_capacity hc hm, Option.map_some', h]
    | get key now =>
      obtain ⟨c', h, r⟩ := ih c.missed hc he hm hv
      refine ⟨c', ?_, r⟩
      simp only [Cache.run, Cache.step, Get_empty hc, Option.map_some', h]
    | delete key now =>
      obtain ⟨err, hd⟩ := Delete_empty hc key now
      obtain ⟨c', h, r⟩ := ih c hc he hm hv
      refine ⟨c', ?_, r⟩
      simp only [Cache.run, Cache.step, hd, Option.map_some', h]
    | prune now =>
      obtain ⟨c', h, r⟩ := ih c hc he hm hv
      refine ⟨c', ?_, r⟩
      simp only [Cache.run, Cache.step, Prune_empty hc, h]

/-- C14: on a cache created with `New(0)`, after every sequence of calls the store and the
heap are empty and the eviction counter is 0; in that state every `Set` fails with
`ErrCapacity` and leaves the state unchanged, and every `Get` returns `ErrNotFound`. -/
theorem new_zero_never_holds_data (ops : List Op) :
    ∃ c, (New 0).run ops = some c ∧ c.cache = [] ∧ c.expirations = [] ∧
      c.stats.Evictions = 0 ∧
      (∀ key value exp now, ∃ err, c.Set key value exp now = some (c, some err) ∧
        err.wraps = Sentinel.ErrCapacity) ∧
      (∀ key now, ∃ c' err, c.Get key now = some (c', "", some err) ∧
        err.wraps = Sentinel.ErrNotFound) := by
  obtain ⟨c, hrun, hc, he, hm, hv⟩ := run_zero_capacity ops (New 0) rfl rfl rfl rfl
  refine ⟨c, hrun, hc, he, hv, ?_, ?_⟩
  · intro key value exp now
    exact ⟨capacityError key, Set_zero_capacity hc hm key value exp now, rfl⟩
  · intro key now
    exact ⟨c.missed, getError key, Get_empty hc key now, rfl⟩

/-- Whatever the state, an error returned by `Set` is the capacity error of the key, and the
outcome does not depend on the value. -/
theorem Set_error_inv {c c' : Cache} {key value : String} {exp now : Int} {err : Error}
    (h : c.Set key value exp now = some (c', some err)) :
    err = capacityError key ∧
      ∀ value' : String, c.Set key value' exp now = some (c', some err) := by
  unfold Cache.Set at h
  cases h1 : c.ensureCapacity now with
  | none => rw [h1] at h; simp at h
  | some c1 =>
    rw [h1] at h
    simp only at h
    cases hg : Store.get c1.cache key with
    | some p =>
      rw [hg] at h
      simp only at h
      cases hu : c1.updateEntry p value exp now with
      | none => rw [hu] at h; simp at h
      | some c2 => rw [hu] at h; simp at h
    | none =>
      rw [hg] at h
      simp only at h
      by_cases hfull : (c1.cache.length : Int) ≥ c1.maxSize
      · simp only [hfull, if_true, Option.some.injEq, Prod.mk.injEq] at h
        obtain ⟨hc, he⟩ := h
        subst hc
        refine ⟨he.symm, ?_⟩
        intro value'
        simp only [Cache.Set, h1, hg, hfull, if_true, he]
      · simp only [hfull, if_false] at h
        cases ha : c1.addNewEntry key value exp now with
        | none => rw [ha] at h; simp at h
        | some c2 => rw [ha] at h; simp at h

/-- C16 (as stated, refuted): `Set("key3", "val3", ..)` on `New(0)` fails for lack of
capacity and the value "val3" does not occur in the text of the returned error
("cannot add key key3: capacity"). -/
theorem set_error_omits_value :
    (New 0).Set "key3" "val3" 1 0 = some (New 0, some (capacityError "key3")) ∧
    ¬ List.IsInfix "val3".data (capacityError "key3").text.data :=
  ⟨by decide, by decide⟩

/-- C16 (amended): whenever `Set` returns an error, the error is of kind `ErrCapacity` and
carries the offending key: its text is "cannot add key <key>: capacity".  The value is not
part of the error: the same error (and state) is returned whatever the value. -/
theorem set_error_carries_key (c c' : Cache) (key value : String) (exp now : Int)
    (err : Error) (h : c.Set key value exp now = some (c', some err)) :
    err.wraps = Sentinel.ErrCapacity ∧
      err.text = "cannot add key " ++ key ++ ": capacity" ∧
      List.IsInfix key.data err.text.data ∧
      ∀ value' : String, c.Set key value' exp now = some (c', some err) := by
  obtain ⟨he, hind⟩ := Set_error_inv h
  subst he
  refine ⟨rfl, ?_, ?_, hind⟩
  · have : (": " ++ Sentinel.ErrCapacity.text : String) = ": capacity" := by decide
    simp only [capacityError, String.append_assoc, this]
  refine ⟨"cannot add key ".data, (": " ++ Sentinel.ErrCapacity.text).data, ?_⟩
  simp [capacityError, String.data_append]

/-- C16 (amended), at a concrete input: the failing `Set` of "key3" on `New(0)`. -/
theorem set_error_carries_key_witness :
    (New 0).Set "key3" "val3" 1 0 = some (New 0, some (capacityError "key3")) ∧
    ((capacityError "key3").wraps = Sentinel.ErrCapacity ∧
      (capacityError "key3").text = "cannot add key " ++ "key3" ++ ": capacity" ∧
      List.IsInfix "key3".data (capacityError "key3").text.data ∧
      ∀ value' : String,
        (New 0).Set "key3" value' 1 0 = some (New 0, some (capacityError "key3"))) :=
  ⟨by decide,
    set_error_carries_key (New 0) (New 0) "key3" "val3" 1 0 (capacityError "key3")
      (by decide)⟩

/-- C19: in every reachable state the heap slice is a min-heap on expiration: the entry of
a slot does not expire earlier than the entry of its parent slot `(k - 1) / 2`; hence the
entry of slot 0 expires no later than any stored entry.  Reachable states include those
after a `Set` that re-times an entry, after a `Delete` and after evictions. -/
theorem heap_order_invariant (c : Cache) (hr : Reachable c) :
    (∀ (k pk pp : Nat) (xk xp : Entry), 0 < k → c.expirations[k]? = some pk →
      c.expirations[(k - 1) / 2]? = some pp → c.objs[pk]? = some xk →
      c.objs[pp]? = some xp → xp.Expiration ≤ xk.Expiration) ∧
    (∀ (p0 : Nat) (x0 : Entry), c.expirations[0]? = some p0 → c.objs[p0]? = some x0 →
      ∀ k x, c.lookup k = some x → x0.Expiration ≤ x.Expiration) := by
  have hinv := hr.inv
  constructor
  · intro k pk pp xk xp hk hpk hpp hxk hxp
    have := hinv.ord k hk (getElem?_lt hpk)
    rw [keyAt_eq hpp, keyAt_eq hpk, expOf_eq hxp, expOf_eq hxk] at this
    exact this
  · intro p0 x0 h0 hx0 k x hk
    obtain ⟨p, hp, hx⟩ := lookup_some hk
    have := hinv.root_min h0 (hinv.mem_heap (Store.get_mem hp))
    rw [expOf_eq hx0, expOf_eq hx] at this
    exact this

theorem demoHeap_reachable : Reachable demoHeap :=
  ⟨3, [Op.set "a" "x" 50 0, Op.set "b" "y" 30 1, Op.set "c" "z" 40 2,
    Op.set "b" "w" 100 3, Op.delete "a" 4, Op.set "d" "v" 60 5], by decide⟩

/-- C19, at a concrete input: the three-entry heap `demoHeap`, reached through a re-timing
`Set`, a `Delete` and an eviction.  Its slots 1 and 2 (entries of "b" and "d", expirations
103 and 65) have the parent slot 0 (entry of "c", expiration 42). -/
theorem heap_order_invariant_witness :
    (Reachable demoHeap ∧ demoHeap.expirations = [2, 1, 3] ∧
      demoHeap.lookup "c" = some { Key := "c", Value := "z", Expiration := 42, Index := 0 } ∧
      demoHeap.lookup "b" = some { Key := "b", Value := "w", Expiration := 103, Index := 1 } ∧
      demoHeap.lookup "d" = some { Key := "d", Value := "v", Expiration := 65, Index := 2 }) ∧
    ((∀ (k pk pp : Nat) (xk xp : Entry), 0 < k → demoHeap.expirations[k]? = some pk →
      demoHeap.expirations[(k - 1) / 2]? = some pp → demoHeap.objs[pk]? = some xk →
      demoHeap.objs[pp]? = some xp → xp.Expiration ≤ xk.Expiration) ∧
    (∀ (p0 : Nat) (x0 : Entry), demoHeap.expirations[0]? = some p0 →
      demoHeap.objs[p0]? = some x0 →
      ∀ k x, demoHeap.lookup k = some x → x0.Expiration ≤ x.Expiration)) :=
  ⟨⟨demoHeap_reachable, by decide, by decide, by decide, by decide⟩,
    heap_order_invariant demoHeap demoHeap_reachable⟩

/-- More fuel does not change the result of the `Prune` loop. -/
theorem pruneLoop_fuel (now : Int) : ∀ (f : Nat) (c c' : Cache),
    Cache.pruneLoop f c now = some c' → ∀ g, f ≤ g → Cache.pruneLoop g c now = some c' := by
  intro f
  induction f with
  | zero => intro c c' h; simp [Cache.pruneLoop] at h
  | succ f ih =>
    intro c c' h g hg
    obtain ⟨g', rfl⟩ : ∃ g', g = g' + 1 := ⟨g - 1, by omega⟩
    simp only [Cache.pruneLoop] at h ⊢
    split at h
    · rename_i hemp; simp only [hemp, if_true]; exact h
    · rename_i hemp
      simp only [hemp, if_false]
      cases hs : c.expirations.slot 0 with
      | none => rw [hs] at h; simp at h
      | some p =>
        rw [hs] at h
        simp only at h ⊢
        cases hx : c.objs[p]? with
        | none => rw [hx] at h; simp at h
        | some x =>
          rw [hx] at h
          simp only at h ⊢
          split at h
          · rename_i hexp; simp only [hexp, if_true]; exact h
          · rename_i hexp
            simp only [hexp, if_false]
            cases he : c.evict p with
            | none => rw [he] at h; simp at h
            | some c1 =>
              rw [he] at h
              simp only at h ⊢
              exact ih c1 c' h g' (by omega)

/-- More fuel does not change the result of the `ensureCapacity` loop. -/
theorem ensureCapacityLoop_fuel (now : Int) : ∀ (f : Nat) (c c' : Cache),
    Cache.ensureCapacityLoop f c now = some c' →
    ∀ g, f ≤ g → Cache.ensureCapacityLoop g c now = some c' := by
  intro f
  induction f with
  | zero => intro c c' h; simp [Cache.ensureCapacityLoop] at h
  | succ f ih =>
    intro c c' h g hg
    obtain ⟨g', rfl⟩ : ∃ g', g = g' + 1 := ⟨g - 1, by omega⟩
    simp only [Cache.ensureCapacityLoop] at h ⊢
    split at h
    · rename_i hfull
      simp only [hfull, if_true]
      cases hs : c.expirations.slot 0 with
      | none => rw [hs] at h; simp at h
      | some p =>
        rw [hs] at h
        simp only at h ⊢
        cases hx : c.objs[p]? with
        | none => rw [hx] at h; simp at h
        | some x =>
          rw [hx] at h
          simp only at h ⊢
          split at h
          · rename_i hexp; simp only [hexp, if_true]; exact h
          · rename_i hexp
            simp only [hexp, if_false]
            cases he : c.evict p with
            | none => rw [he] at h; simp at h
            | some c1 =>
              rw [he] at h
              simp only at h ⊢
              exact ih c1 c' h g' (by omega)
    · rename_i hfull; simp only [hfull, if_false]; exact h

theorem Inv.slot_index {c : Cache} (h : Inv c) {p : Nat} (hp : p ∈ c.expirations) :
    ∃ x, c.objs[p]? = some x ∧ c.expirations.slot x.Index = some p := by
  obtain ⟨k, hk⟩ := List.mem_iff_getElem?.1 hp
  obtain ⟨x, hx, hxi⟩ := h.idx k p hk
  exact ⟨x, hx, by rw [hxi, slot_natCast]; exact hk⟩

/-- C20: for every `maxSize` (zero and negative values included) and every sequence of
calls, no call panics: the sequence returns a state `c`, and in `c`
* every further call returns;
* when the store is not empty the heap is not empty, so that heap position 0 can be read
  (`Prune` and `ensureCapacity` read it only when the store is not empty);
* the `Index` of every entry of the heap, hence of every stored key, is a position inside
  the heap that holds that entry (the index passed to `heap.Fix` and `heap.Remove`);
* the loops of `Prune` and `ensureCapacity` return, with the same result for any larger
  iteration bound, and `Prune` counts one eviction per key removed. -/
theorem no_out_of_range (maxSize : Int) (ops : List Op) :
    ∃ c, (New maxSize).run ops = some c ∧
      (∀ op, ∃ c', c.step op = some c') ∧
      (c.cache ≠ [] → ∃ p, c.expirations.slot 0 = some p) ∧
      (∀ p, p ∈ c.expirations →
        ∃ x, c.objs[p]? = some x ∧ c.expirations.slot x.Index = some p) ∧
      (∀ key p, Store.get c.cache key = some p →
        ∃ x, c.objs[p]? = some x ∧ c.expirations.slot x.Index = some p) ∧
      (∀ now g, c.expirations.length + 1 ≤ g →
        ∃ c', c.Prune now = some c' ∧ Cache.pruneLoop g c now = some c' ∧
          c'.stats.Evictions
            = c.stats.Evictions + ((c.cache.length : Int) - c'.cache.length)) ∧
      (∀ now, ∃ c', c.ensureCapacity now = some c' ∧
        (c.cache ≠ [] → ∀ g, c.expirations.length + 1 ≤ g →
          Cache.ensureCapacityLoop g c now = some c')) := by
  obtain ⟨c, hrun, hinv, _⟩ := run_inv ops (New_inv maxSize)
  refine ⟨c, hrun, ?_, ?_, ?_, ?_, ?_, ?_⟩
  · intro op
    obtain ⟨c', h, _⟩ := step_inv hinv op
    exact ⟨c', h⟩
  · intro hne
    have hlen := hinv.length_eq
    have : c.cache.length ≠ 0 := fun h => hne (List.length_eq_zero.1 h)
    have h0 : c.expirations[0]? = some c.expirations[0] :=
      List.getElem?_eq_getElem (by omega)
    refine ⟨c.expirations[0], ?_⟩
    have := slot_natCast c.expirations 0
    simpa using this.trans h0
  · intro p hp
    exact hinv.slot_index hp
  · intro key p hget
    exact hinv.slot_index (hinv.mem_heap (Store.get_mem hget))
  · intro now g hg
    obtain ⟨c', h, _, _, _, _, _, _, _, hev⟩ := Prune_spec hinv now
    exact ⟨c', h, pruneLoop_fuel now _ c c' h g hg, hev⟩
  · intro now
    obtain ⟨c', h, _⟩ := ensureCapacity_spec hinv now
    refine ⟨c', h, ?_⟩
    intro hne g hg
    have : c.cache.length ≠ 0 := fun h => hne (List.length_eq_zero.1 h)
    simp only [Cache.ensureCapacity, this, if_false] at h
    exact ensureCapacityLoop_fuel now _ c c' h g hg

theorem slot_mem {e : Expirations} {i : Int} {p : Nat} (h : e.slot i = some p) : p ∈ e := by
  unfold Expirations.slot at h
  split at h
  · exact List.mem_iff_getElem?.2 ⟨_, h⟩
  · cases h

/-- Method `Swap` keeps the addresses within those of the heap and does not touch an entry
that is outside the heap. -/
theorem Swap_untouched {m m' : Objs} {e e' : Expirations} {i j : Int}
    (h : Expirations.Swap m e i j = some (m', e')) :
    (∀ q, q ∈ e' → q ∈ e) ∧ (∀ q, q ∉ e → m'[q]? = m[q]?) := by
  simp only [Expirations.Swap, Option.bind_eq_bind, Option.bind_eq_some, Option.some.injEq,
    Prod.mk.injEq] at h
  obtain ⟨a, ha, b, hb, pi, hpi, x, hx, pj, hpj, y, hy, hm, he⟩ := h
  have hsub : ∀ q, q ∈ e' → q ∈ e := by
    intro q hq
    rw [← he] at hq
    rcases List.mem_or_eq_of_mem_set hq with h1 | h1
    · rcases List.mem_or_eq_of_mem_set h1 with h2 | h2
      · exact h2
      · rw [h2]; exact slot_mem hb
    · rw [h1]; exact slot_mem ha
  refine ⟨hsub, ?_⟩
  intro q hq
  have hpi' : pi ∈ e := hsub pi (by rw [← he]; exact slot_mem hpi)
  have hpj' : pj ∈ e := hsub pj (by rw [← he]; exact slot_mem hpj)
  have h1 : pi ≠ q := by intro h; subst h; exact hq hpi'
  have h2 : pj ≠ q := by intro h; subst h; exact hq hpj'
  rw [← hm, getElem?_set_other h2, getElem?_set_other h1]

theorem upLoop_untouched : ∀ (fuel : Nat) (m : Objs) (e : Expirations) (j : Int)
    (m' : Objs) (e' : Expirations), heap.upLoop fuel m e j = some (m', e') →
    (∀ q, q ∈ e' → q ∈ e) ∧ (∀ q, q ∉ e → m'[q]? = m[q]?) := by
  intro fuel
  induction fuel with
  | zero => intro m e j m' e' h; simp [heap.upLoop] at h
  | succ fuel ih =>
    intro m e j m' e' h
    simp only [heap.upLoop] at h
    split at h
    · cases h; exact ⟨fun _ hq => hq, fun _ _ => rfl⟩
    · split at h
      · cases h
      · cases h; exact ⟨fun _ hq => hq, fun _ _ => rfl⟩
      · split at h
        · cases h
        · rename_i m1 e1 hsw
          obtain ⟨hs1, hu1⟩ := Swap_untouched hsw
          obtain ⟨hs2, hu2⟩ := ih m1 e1 _ m' e' h
          exact ⟨fun q hq => hs1 q (hs2 q hq),
            fun q hq => by rw [hu2 q (fun h' => hq (hs1 q h')), hu1 q hq]⟩

theorem downLoop_untouched : ∀ (fuel : Nat) (m : Objs) (e : Expirations) (i n : Int)
    (m' : Objs) (e' : Expirations) (i' : Int),
    heap.downLoop fuel m e i n = some (m', e', i') →
    (∀ q, q ∈ e' → q ∈ e) ∧ (∀ q, q ∉ e → m'[q]? = m[q]?) := by
  intro fuel
  induction fuel with
  | zero => intro m e i n m' e' i' h; simp [heap.downLoop] at h
  | succ fuel ih =>
    intro m e i n m' e' i' h
    simp only [heap.downLoop] at h
    split at h
    · cases h; exact ⟨fun _ hq => hq, fun _ _ => rfl⟩
    · split at h
      · cases h
      · split at h
        · cases h
        · cases h; exact ⟨fun _ hq => hq, fun _ _ => rfl⟩
        · split at h
          · cases h
          · rename_i m1 e1 hsw
            obtain ⟨hs1, hu1⟩ := Swap_untouched hsw
            obtain ⟨hs2, hu2⟩ := ih m1 e1 _ n m' e' i' h
            exact ⟨fun q hq => hs1 q (hs2 q hq),
              fun q hq => by rw [hu2 q (fun h' => hq (hs1 q h')), hu1 q hq]⟩

theorem down_untouched {m m' : Objs} {e e' : Expirations} {i n : Int} {b : Bool}
    (h : heap.down m e i n = some (m', e', b)) :
    (∀ q, q ∈ e' → q ∈ e) ∧ (∀ q, q ∉ e → m'[q]? = m[q]?) := by
  simp only [heap.down] at h
  split at h
  · cases h
  · rename_i m1 e1 i1 hd
    cases h
    exact downLoop_untouched _ m e i n _ _ i1 hd

theorem up_untouched {m m' : Objs} {e e' : Expirations} {j : Int}
    (h : heap.up m e j = some (m', e')) :
    (∀ q, q ∈ e' → q ∈ e) ∧ (∀ q, q ∉ e → m'[q]? = m[q]?) :=
  upLoop_untouched _ m e j m' e' h

/-- Function `heap.Fix` does not touch an entry that is outside the heap. -/
theorem Fix_untouched {m m' : Objs} {e e' : Expirations} {i : Int}
    (h : heap.Fix m e i = some (m', e')) :
    (∀ q, q ∈ e' → q ∈ e) ∧ (∀ q, q ∉ e → m'[q]? = m[q]?) := by
  simp only [heap.Fix] at h
  split at h
  · cases h
  · rename_i m1 e1 hd
    cases h
    exact down_untouched hd
  · rename_i m1 e1 hd
    obtain ⟨hs1, hu1⟩ := down_untouched hd
    obtain ⟨hs2, hu2⟩ := up_untouched h
    exact ⟨fun q hq => hs1 q (hs2 q hq),
      fun q hq => by rw [hu2 q (fun h' => hq (hs1 q h')), hu1 q hq]⟩

/-- Method `Pop` marks the entry it removes with index -1 and touches no other entry. -/
theorem Pop_untouched {m m' : Objs} {e e' : Expirations} {p : Nat}
    (h : Expirations.Pop m e = some (m', e', p)) :
    (∀ q, q ∈ e' → q ∈ e) ∧ p ∈ e ∧ (∀ q, q ≠ p → m'[q]? = m[q]?) ∧
      ∃ y, m'[p]? = some y ∧ y.Index = -1 := by
  simp only [Expirations.Pop, Option.bind_eq_bind, Option.bind_eq_some, Option.some.injEq,
    Prod.mk.injEq] at h
  obtain ⟨p', hp', x, hx, hm, he, hp⟩ := h
  subst hp
  refine ⟨?_, slot_mem hp', ?_, ?_⟩
  · intro q hq
    rw [← he] at hq
    exact List.mem_of_mem_take hq
  · intro q hq
    rw [← hm, getElem?_set_other (Ne.symm hq)]
  · exact ⟨_, by rw [← hm]; exact getElem?_set_self_of hx _, rfl⟩

/-- Function `heap.Remove` marks the entry it removes with index -1 and does not touch an
entry that is outside the heap. -/
theorem Remove_untouched {m m' : Objs} {e e' : Expirations} {i : Int} {p : Nat}
    (h : heap.Remove m e i = some (m', e', p)) :
    p ∈ e ∧ (∀ q, q ∉ e → m'[q]? = m[q]?) ∧ ∃ y, m'[p]? = some y ∧ y.Index = -1 := by
  simp only [heap.Remove] at h
  split at h
  · split at h
    · cases h
    · rename_i m1 e1 hsw
      obtain ⟨hs1, hu1⟩ := Swap_untouched hsw
      split at h
      · cases h
      · rename_i m2 e2 hd
        obtain ⟨hs2, hu2⟩ := down_untouched hd
        obtain ⟨_, hp, hu3, hy⟩ := Pop_untouched h
        have hpe : p ∈ e := hs1 p (hs2 p hp)
        refine ⟨hpe, ?_, hy⟩
        intro q hq
        have hq1 : q ∉ e1 := fun h' => hq (hs1 q h')
        rw [hu3 q (fun h' => hq (h' ▸ hpe)), hu2 q hq1, hu1 q hq]
      · rename_i m2 e2 hd
        obtain ⟨hs2, hu2⟩ := down_untouched hd
        split at h
        · cases h
        · rename_i m3 e3 hup
          obtain ⟨hs3, hu3⟩ := up_untouched hup
          obtain ⟨_, hp, hu4, hy⟩ := Pop_untouched h
          have hpe : p ∈ e := hs1 p (hs2 p (hs3 p hp))
          refine ⟨hpe, ?_, hy⟩
          intro q hq
          have hq1 : q ∉ e1 := fun h' => hq (hs1 q h')
          have hq2 : q ∉ e2 := fun h' => hq1 (hs2 q h')
          rw [hu4 q (fun h' => hq (h' ▸ hpe)), hu3 q hq2, hu2 q hq1, hu1 q hq]
  · obtain ⟨_, hp, hu, hy⟩ := Pop_untouched h
    refine ⟨hp, ?_, hy⟩
    intro q hq
    exact hu q (fun h' => hq (h' ▸ hp))

/-- Function `heap.Push` touches no entry outside the heap apart from the pushed one. -/
theorem Push_untouched {m m' : Objs} {e e' : Expirations} {p : Nat}
    (h : heap.Push m e p = some (m', e')) :
    ∀ q, q ∉ e → q ≠ p → m'[q]? = m[q]? := by
  simp only [heap.Push] at h
  split at h
  · cases h
  · rename_i m1 e1 hp
    simp only [Expirations.Push, Option.bind_eq_bind, Option.bind_eq_some, Option.some.injEq,
      Prod.mk.injEq] at hp
    obtain ⟨x, hx, hm, he⟩ := hp
    obtain ⟨_, hu⟩ := up_untouched h
    intro q hq hqp
    have : q ∉ e1 := by
      rw [← he]
      simp only [List.mem_append, List.mem_singleton, not_or]
      exact ⟨hq, hqp⟩
    rw [hu q this, ← hm, getElem?_set_other (Ne.symm hqp)]

/-- Method `evict` keeps the entries outside the heap marked with index -1: the evicted
entry is marked by `Pop`, the others are not touched. -/
theorem evict_garbage {c c' : Cache} (hinv : Inv c)
    (hg : GarbageMarked c.objs c.expirations) {p : Nat} (hp : p ∈ c.expirations)
    (h : c.evict p = some c') : GarbageMarked c'.objs c'.expirations := by
  obtain ⟨i, hi⟩ := List.mem_iff_getElem?.1 hp
  obtain ⟨x, hx, hxi⟩ := hinv.idx i p hi
  obtain ⟨m', e', p', hrm, hp', _, _, hperm, _⟩ :=
    Remove_spec (getElem?_lt hi) hinv.idx hinv.ord
  rw [hi] at hp'; cases hp'
  obtain ⟨_, hu, y, hy, hyi⟩ := Remove_untouched hrm
  simp only [Cache.evict, hx, hxi, hrm, Option.some.injEq] at h
  subst h
  intro q z hz hq
  simp only at hz hq
  by_cases hqp : q = p
  · subst hqp
    rw [hy] at hz; cases hz
    exact hyi
  · have hqe : q ∉ c.expirations := by
      intro hin
      rcases List.mem_cons.1 (hperm.subset hin) with h1 | h1
      · exact hqp h1
      · exact hq h1
    rw [hu q hqe] at hz
    exact hg q z hz hqe

theorem pruneLoop_garbage (now : Int) : ∀ (fuel : Nat) (c c' : Cache), Inv c →
    GarbageMarked c.objs c.expirations → Cache.pruneLoop fuel c now = some c' →
    GarbageMarked c'.objs c'.expirations := by
  intro fuel
  induction fuel with
  | zero => intro c c' _ _ h; simp [Cache.pruneLoop] at h
  | succ fuel ih =>
    intro c c' hinv hg h
    simp only [Cache.pruneLoop] at h
    split at h
    · cases h; exact hg
    · cases hs : c.expirations.slot 0 with
      | none => rw [hs] at h; simp at h
      | some p =>
        rw [hs] at h
        simp only at h
        cases hx : c.objs[p]? with
        | none => rw [hx] at h; simp at h
        | some x =>
          rw [hx] at h
          simp only at h
          split at h
          · cases h; exact hg
          · obtain ⟨c1, hev, hinv1, _⟩ := evict_spec hinv (slot_mem hs)
            rw [hev] at h
            simp only at h
            exact ih c1 c' hinv1 (evict_garbage hinv hg (slot_mem hs) hev) h

theorem ensureCapacityLoop_garbage (now : Int) : ∀ (fuel : Nat) (c c' : Cache), Inv c →
    GarbageMarked c.objs c.expirations → Cache.ensureCapacityLoop fuel c now = some c' →
    GarbageMarked c'.objs c'.expirations := by
  intro fuel
  induction fuel with
  | zero => intro c c' _ _ h; simp [Cache.ensureCapacityLoop] at h
  | succ fuel ih =>
    intro c c' hinv hg h
    simp only [Cache.ensureCapacityLoop] at h
    split at h
    · cases hs : c.expirations.slot 0 with
      | none => rw [hs] at h; simp at h
      | some p =>
        rw [hs] at h
        simp only at h
        cases hx : c.objs[p]? with
        | none => rw [hx] at h; simp at h
        | some x =>
          rw [hx] at h
          simp only at h
          split at h
          · cases h; exact hg
          · obtain ⟨c1, hev, hinv1, _⟩ := evict_spec hinv (slot_mem hs)
            rw [hev] at h
            simp only at h
            exact ih c1 c' hinv1 (evict_garbage hinv hg (slot_mem hs) hev) h
    · cases h; exact hg

theorem ensureCapacity_garbage {c c' : Cache} {now : Int} (hinv : Inv c)
    (hg : GarbageMarked c.objs c.expirations) (h : c.ensureCapacity now = some c') :
    GarbageMarked c'.objs c'.expirations := by
  simp only [Cache.ensureCapacity] at h
  split at h
  · cases h; exact hg
  · exact ensureCapacityLoop_garbage now _ c c' hinv hg h

/-- Overwriting the entry of a heap member and calling `heap.Fix` keeps the entries outside
the heap marked. -/
theorem Fix_garbage {m m' : Objs} {e e' : Expirations} {p : Nat} {x' : Entry} {i : Int}
    (hg : GarbageMarked m e) (hp : p ∈ e) (hperm : e'.Perm e)
    (h : heap.Fix (m.set p x') e i = some (m', e')) : GarbageMarked m' e' := by
  obtain ⟨_, hu⟩ := Fix_untouched h
  intro q z hz hq
  have hqe : q ∉ e := fun hin => hq (hperm.symm.subset hin)
  have hqp : p ≠ q := by intro h'; subst h'; exact hqe hp
  rw [hu q hqe, getElem?_set_other hqp] at hz
  exact hg q z hz hqe

theorem updateEntry_garbage {c c2 : Cache} (hinv : Inv c)
    (hg : GarbageMarked c.objs c.expirations) {key : String} {p : Nat}
    (hget : Store.get c.cache key = some p) {value : String} {exp now : Int}
    (h : c.updateEntry p value exp now = some c2) :
    GarbageMarked c2.objs c2.expirations := by
  obtain ⟨c2', x, h', _, hx, _, _, _, hperm, _⟩ := updateEntry_spec hinv hget value exp now
  rw [h] at h'; cases h'
  have hp : p ∈ c.expirations := hinv.mem_heap (Store.get_mem hget)
  simp only [Cache.updateEntry, hx] at h
  split at h
  · cases h
  · rename_i m1 e1 hfix
    cases h
    exact Fix_garbage hg hp hperm hfix

theorem Delete_garbage {c c2 : Cache} (hinv : Inv c)
    (hg : GarbageMarked c.objs c.expirations) {key : String} {now : Int} {r : Option Error}
    (h : c.Delete key now = some (c2, r)) : GarbageMarked c2.objs c2.expirations := by
  rcases Delete_spec hinv key now with ⟨_, hdel⟩ |
    ⟨p, x, c2', hget, hx, hdel, _, _, _, _, hperm, _⟩
  · rw [h] at hdel; cases hdel; exact hg
  · rw [h] at hdel; cases hdel
    have hp : p ∈ c.expirations := hinv.mem_heap (Store.get_mem hget)
    simp only [Cache.Delete, hget, hx] at h
    split at h
    · cases h
    · rename_i m1 e1 hfix
      cases h
      exact Fix_garbage hg hp hperm hfix

theorem addNewEntry_garbage {c c2 : Cache} (hinv : Inv c)
    (hg : GarbageMarked c.objs c.expirations) {key : String}
    (habs : Store.get c.cache key = none) (hroom : (c.cache.length : Int) < c.maxSize)
    {value : String} {exp now : Int} (h : c.addNewEntry key value exp now = some c2) :
    GarbageMarked c2.objs c2.expirations := by
  obtain ⟨c2', h', _, _, _, hperm, _⟩ := addNewEntry_spec hinv habs hroom value exp now
  rw [h] at h'; cases h'
  simp only [Cache.addNewEntry] at h
  split at h
  · cases h
  · rename_i m1 e1 hpush
    cases h
    have hu := Push_untouched hpush
    intro q z hz hq
    simp only at hz hq
    have hq' : q ≠ c.objs.length ∧ q ∉ c.expirations := by
      constructor
      · intro h1; exact hq (hperm.symm.subset (by rw [h1]; exact List.mem_cons_self _ _))
      · intro h1; exact hq (hperm.symm.subset (List.mem_cons_of_mem _ h1))
    rw [hu q hq'.2 hq'.1, List.getElem?_append] at hz
    by_cases hlt : q < c.objs.length
    · simp only [hlt, if_true] at hz
      exact hg q z hz hq'.2
    · simp only [hlt, if_false] at hz
      have : ([(⟨key, value, now + exp, 0⟩ : Entry)]).length ≤ q - c.objs.length := by
        simp only [List.length_singleton]; omega
      rw [List.getElem?_eq_none this] at hz
      cases hz

theorem Set_garbage {c c' : Cache} (hinv : Inv c) (hg : GarbageMarked c.objs c.expirations)
    {key value : String} {exp now : Int} {r : Option Error}
    (h : c.Set key value exp now = some (c', r)) : GarbageMarked c'.objs c'.expirations := by
  obtain ⟨c1, h1, hinv1, _⟩ := ensureCapacity_spec hinv now
  have hg1 := ensureCapacity_garbage hinv hg h1
  rcases Set_cases h1 hinv1 key value exp with ⟨p, c2, hget, hupd, hset⟩ | ⟨_, _, hset⟩ |
    ⟨hget, hroom, c2, hadd, hset⟩
  · rw [h] at hset; cases hset
    exact updateEntry_garbage hinv1 hg1 hget hupd
  · rw [h] at hset; cases hset
    exact hg1
  · rw [h] at hset; cases hset
    exact addNewEntry_garbage hinv1 hg1 hget hroom hadd

theorem step_garbage {c c' : Cache} (hinv : Inv c) (hg : GarbageMarked c.objs c.expirations)
    {op : Op} (h : c.step op = some c') : GarbageMarked c'.objs c'.expirations := by
  cases op with
  | set key value exp now =>
    simp only [Cache.step, Option.map_eq_some'] at h
    obtain ⟨⟨c2, r⟩, hs, rfl⟩ := h
    exact Set_garbage hinv hg hs
  | get key now =>
    simp only [Cache.step, Option.map_eq_some'] at h
    obtain ⟨⟨c2, v, r⟩, hs, rfl⟩ := h
    rcases Get_cases c key now (hinv.noNil key) with ⟨_, h'⟩ | ⟨_, _, _, _, _, h'⟩ |
      ⟨_, _, _, _, _, h'⟩ <;> (rw [hs] at h'; cases h'; exact hg)
  | delete key now =>
    simp only [Cache.step, Option.map_eq_some'] at h
    obtain ⟨⟨c2, r⟩, hs, rfl⟩ := h
    exact Delete_garbage hinv hg hs
  | prune now =>
    simp only [Cache.step] at h
    exact pruneLoop_garbage now _ c c' hinv hg h

theorem run_garbage (ops : List Op) : ∀ {c c' : Cache}, Inv c →
    GarbageMarked c.objs c.expirations → c.run ops = some c' →
    GarbageMarked c'.objs c'.expirations := by
  induction ops with
  | nil => intro c c' _ hg h; cases h; exact hg
  | cons op ops ih =>
    intro c c' hinv hg h
    obtain ⟨c1, h1, hinv1, _⟩ := step_inv hinv op
    simp only [Cache.run, h1] at h
    exact ih hinv1 (step_garbage hinv hg h1) h

/-- C18: in every reachable state the heap holds the address of each stored key exactly
once and nothing else (the addresses of the map are a permutation of the heap slice, which
has no duplicate, so heap length and store size agree, and the map has one address per key);
the entry of every heap slot carries that slot's position in its `Index` field; and every
allocated entry that is not in the heap (an entry that was removed from it) has `Index`
-1. -/
theorem store_heap_pairing (c : Cache) (hr : Reachable c) :
    (c.cache.map Prod.snd).Perm c.expirations ∧ c.expirations.Nodup ∧
    (c.cache.map Prod.fst).Nodup ∧ c.expirations.length = c.cache.length ∧
    (∀ key p, Store.get c.cache key = some p → p ∈ c.expirations) ∧
    (∀ p, p ∈ c.expirations →
      ∃ x, c.objs[p]? = some x ∧ Store.get c.cache x.Key = some p) ∧
    (∀ (k p : Nat), c.expirations[k]? = some p →
      ∃ x, c.objs[p]? = some x ∧ x.Index = (k : Int)) ∧
    (∀ (p : Nat) (x : Entry), c.objs[p]? = some x → p ∉ c.expirations → x.Index = -1) := by
  have hinv := hr.inv
  obtain ⟨maxSize, ops, hrun⟩ := hr
  have hg : GarbageMarked c.objs c.expirations := by
    refine run_garbage ops (New_inv maxSize) ?_ hrun
    intro p x hx; simp [New] at hx
  refine ⟨hinv.pair, hinv.idx.nodup, hinv.keys, hinv.length_eq.symm, ?_, ?_, hinv.idx, hg⟩
  · intro key p hget
    exact hinv.mem_heap (Store.get_mem hget)
  · intro p hp
    obtain ⟨x, hx, hmem⟩ := hinv.mem_store hp
    exact ⟨x, hx, Store.get_of_mem hinv.keys hmem⟩

/-- C18, at a concrete input: the state `demoReplaced`, in which the entry at address 0 was
evicted. -/
theorem store_heap_pairing_witness :
    Reachable demoReplaced ∧
    ((demoReplaced.cache.map Prod.snd).Perm demoReplaced.expirations ∧
    demoReplaced.expirations.Nodup ∧
    (demoReplaced.cache.map Prod.fst).Nodup ∧
    demoReplaced.expirations.length = demoReplaced.cache.length ∧
    (∀ key p, Store.get demoReplaced.cache key = some p → p ∈ demoReplaced.expirations) ∧
    (∀ p, p ∈ demoReplaced.expirations →
      ∃ x, demoReplaced.objs[p]? = some x ∧ Store.get demoReplaced.cache x.Key = some p) ∧
    (∀ (k p : Nat), demoReplaced.expirations[k]? = some p →
      ∃ x, demoReplaced.objs[p]? = some x ∧ x.Index = (k : Int)) ∧
    (∀ (p : Nat) (x : Entry), demoReplaced.objs[p]? = some x →
      p ∉ demoReplaced.expirations → x.Index = -1)) :=
  ⟨⟨1, [Op.set "a" "x" 5 0, Op.set "a" "z" 7 9], by decide⟩,
    store_heap_pairing demoReplaced ⟨1, [Op.set "a" "x" 5 0, Op.set "a" "z" 7 9], by decide⟩⟩

theorem tdiv_one_two : Int.tdiv 1 2 = 0 := by decide

theorem scen_set1 (d t : Int) : (New 2).Set "key1" "val1" d t = some (scenOne (t + d), none) := by
  simp [tdiv_one_two, Cache.Set, Cache.ensureCapacity, New, Store.get, Cache.addNewEntry,
    heap.Push, Expirations.Push, Expirations.Len, heap.up, heap.upLoop, Store.put, scenOne]

theorem scen_set2 (x1 d t : Int) (h : ¬ (t + d < x1)) :
    (scenOne x1).Set "key2" "val2" d t = some (scenTwo "val1" x1 (t + d) 0, none) := by
  simp [h, tdiv_one_two, Cache.Set, Cache.ensureCapacity, Cache.ensureCapacityLoop, scenOne,
    scenTwo, Store.get, Cache.addNewEntry, heap.Push, Expirations.Push, Expirations.Len,
    heap.up, heap.upLoop, Store.put, Expirations.Less, Expirations.slot, Expirations.Swap]

theorem scen_set3 (v1 : String) (x1 x2 hits d t : Int) (h : x1 > t) :
    (scenTwo v1 x1 x2 hits).Set "key3" "val3" d t
      = some (scenTwo v1 x1 x2 hits, some (capacityError "key3")) := by
  simp [h, Cache.Set, Cache.ensureCapacity, Cache.ensureCapacityLoop, scenTwo, Store.get,
    Expirations.slot, capacityError]

theorem scen_get1 (v1 : String) (x1 x2 hits hits' t : Int) (hh : hits' = hits + 1)
    (h : ¬ (x1 < t)) :
    (scenTwo v1 x1 x2 hits).Get "key1" t = some (scenTwo v1 x1 x2 hits', v1, none) := by
  subst hh
  simp [h, Cache.Get, scenTwo, Store.get]

theorem scen_set5 (v1 : String) (x1 x2 hits d t : Int) (h : x1 > t) (h2 : ¬ (x2 < t + d)) :
    (scenTwo v1 x1 x2 hits).Set "key1" "newVal1" d t
      = some (scenTwo "newVal1" (t + d) x2 hits, none) := by
  simp [h, h2, tdiv_one_two, Cache.Set, Cache.ensureCapacity, Cache.ensureCapacityLoop,
    scenTwo, Store.get, Expirations.slot, Cache.updateEntry, heap.Fix, heap.down,
    heap.downLoop, heap.smallerChild, heap.up, heap.upLoop, Expirations.Less,
    Expirations.Len, Expirations.Swap]

theorem scen_delete2 (x1 x2 t : Int) (h : t < x1 + second) :
    (scenTwo "newVal1" x1 x2 2).Delete "key2" t
      = some (scenDeleted x1 (t + (-1) * second) 0, none) := by
  simp [h, tdiv_one_two, Cache.Delete, scenTwo, scenDeleted, Store.get, heap.Fix, heap.down,
    heap.downLoop, heap.smallerChild, heap.up, heap.upLoop, Expirations.Less,
    Expirations.Len, Expirations.Swap, Expirations.slot]

theorem scen_get_deleted (x1 x2 misses misses' t : Int) (hm : misses' = misses + 1)
    (h : x2 < t) :
    (scenDeleted x1 x2 misses).Get "key2" t
      = some (scenDeleted x1 x2 misses', "", some (expiredError "key2")) := by
  subst hm
  simp [h, Cache.Get, scenDeleted, Store.get, expiredError]

theorem scen_get_unknown (x1 x2 misses misses' t : Int) (hm : misses' = misses + 1) :
    (scenDeleted x1 x2 misses).Get "unknownKey" t
      = some (scenDeleted x1 x2 misses', "", some (getError "unknownKey")) := by
  subst hm
  simp [Cache.Get, scenDeleted, Store.get, getError]

theorem scen_delete_unknown (x1 x2 misses t : Int) :
    ∃ err, (scenDeleted x1 x2 misses).Delete "unknownKey" t
      = some (scenDeleted x1 x2 misses, some err) ∧ err.wraps = Sentinel.ErrNotFound := by
  simp [Cache.Delete, scenDeleted, Store.get]

theorem scen_set4 (x1 x2 d t : Int) (h : ¬ (x2 > t)) (h2 : ¬ (t + d < x1)) :
    (scenDeleted x1 x2 2).Set "key4" "val4" d t = some (scenFour x1 x2 (t + d), none) := by
  simp [h, h2, tdiv_one_two, Cache.Set, Cache.ensureCapacity, Cache.ensureCapacityLoop,
    scenDeleted, scenFour, Store.get, Store.put, Store.del, Expirations.slot, Cache.evict,
    heap.Remove, Expirations.Pop,
    Cache.addNewEntry, heap.Push, Expirations.Push, heap.Fix, heap.down,
    heap.downLoop, heap.smallerChild, heap.up, heap.upLoop, Expirations.Less,
    Expirations.Len, Expirations.Swap]

theorem scen_delete1 (x1 x2 x4 t : Int) (h : ¬ (x4 + second < t)) :
    (scenFour x1 x2 x4).Delete "key1" t
      = some (scenFour (t + (-1) * second) x2 x4, none) := by
  simp [h, tdiv_one_two, Cache.Delete, scenFour, Store.get, heap.Fix, heap.down,
    heap.downLoop, heap.smallerChild, heap.up, heap.upLoop, Expirations.Less,
    Expirations.Len, Expirations.Swap, Expirations.slot]

theorem scen_delete4 (x1 x2 x4 t : Int) (h : ¬ (t < x1 + second)) :
    (scenFour x1 x2 x4).Delete "key4" t
      = some (scenFour x1 x2 (t + (-1) * second), none) := by
  simp [h, tdiv_one_two, Cache.Delete, scenFour, Store.get, heap.Fix, heap.down,
    heap.downLoop, heap.smallerChild, heap.up, heap.upLoop, Expirations.Less,
    Expirations.Len, Expirations.Swap, Expirations.slot]

theorem scen_prune (x1 x2 x4 t : Int) (h1 : ¬ (x1 > t)) (h4 : ¬ (x4 > t)) :
    (scenFour x1 x2 x4).Prune t = some (scenEnd x1 x2 x4) := by
  simp [h1, h4, tdiv_one_two, Cache.Prune, Cache.pruneLoop, scenFour, scenEnd, Store.del,
    Expirations.slot, Cache.evict, heap.Remove, Expirations.Pop, heap.down,
    heap.downLoop, heap.smallerChild, heap.up, heap.upLoop, Expirations.Less,
    Expirations.Len, Expirations.Swap]

/-- C15: the scenario of `TestCache` on `New(2)`, for every non-decreasing sequence of clock
readings `t1 ≤ ... ≤ t14` (one per call) that spans less than one minute: the two first
`Set` calls succeed, `Set("key3")` fails with `ErrCapacity`, `Get("key1")` returns "val1",
the overwrite succeeds and `Get("key1")` returns "newVal1", `Delete("key2")` succeeds,
`Get("key2")`, `Get("unknownKey")` and `Delete("unknownKey")` return `ErrNotFound`,
`Set("key4")` succeeds, `Stats` is then 2 hits, 2 misses, 1 eviction, and after
`Delete("key1")`, `Delete("key4")` and `Prune` it is 2 hits, 2 misses, 3 evictions. -/
theorem end_to_end_scenario (t1 t2 t3 t4 t5 t6 t7 t8 t9 t10 t11 t12 t13 t14 : Int)
    (h1 : t1 ≤ t2) (h2 : t2 ≤ t3) (h3 : t3 ≤ t4) (h4 : t4 ≤ t5) (h5 : t5 ≤ t6)
    (h6 : t6 ≤ t7) (h7 : t7 ≤ t8) (h8 : t8 ≤ t9) (h9 : t9 ≤ t10) (h10 : t10 ≤ t11)
    (h11 : t11 ≤ t12) (h12 : t12 ≤ t13) (h13 : t13 ≤ t14)
    (hspan : t14 - t1 < minute) :
    ∃ c1 c2 c4 c5 c6 c7 c8 c9 c11 c12 c13 c14 e3 e8 e9 e10,
      (New 2).Set "key1" "val1" minute t1 = some (c1, none) ∧
      c1.Set "key2" "val2" (2 * minute) t2 = some (c2, none) ∧
      c2.Set "key3" "val3" (3 * minute) t3 = some (c2, some e3) ∧
      e3.wraps = Sentinel.ErrCapacity ∧
      c2.Get "key1" t4 = some (c4, "val1", none) ∧
      c4.Set "key1" "newVal1" minute t5 = some (c5, none) ∧
      c5.Get "key1" t6 = some (c6, "newVal1", none) ∧
      c6.Delete "key2" t7 = some (c7, none) ∧
      c7.Get "key2" t8 = some (c8, "", some e8) ∧ e8.wraps = Sentinel.ErrNotFound ∧
      c8.Get "unknownKey" t9 = some (c9, "", some e9) ∧
      e9.wraps = Sentinel.ErrNotFound ∧
      c9.Delete "unknownKey" t10 = some (c9, some e10) ∧
      e10.wraps = Sentinel.ErrNotFound ∧
      c9.Set "key4" "val4" (4 * minute) t11 = some (c11, none) ∧
      c11.Stats = { Hits := 2, Misses := 2, Evictions := 1 } ∧
      c11.Delete "key1" t12 = some (c12, none) ∧
      c12.Delete "key4" t13 = some (c13, none) ∧
      c13.Prune t14 = some c14 ∧
      c14.Stats = { Hits := 2, Misses := 2, Evictions := 3 } := by
  have hmin : minute = 60000000000 := by decide
  have hsec : second = 1000000000 := by decide
  refine ⟨scenOne (t1 + minute),
    scenTwo "val1" (t1 + minute) (t2 + 2 * minute) 0,
    scenTwo "val1" (t1 + minute) (t2 + 2 * minute) 1,
    scenTwo "newVal1" (t5 + minute) (t2 + 2 * minute) 1,
    scenTwo "newVal1" (t5 + minute) (t2 + 2 * minute) 2,
    scenDeleted (t5 + minute) (t7 + (-1) * second) 0,
    scenDeleted (t5 + minute) (t7 + (-1) * second) 1,
    scenDeleted (t5 + minute) (t7 + (-1) * second) 2,
    scenFour (t5 + minute) (t7 + (-1) * second) (t11 + 4 * minute),
    scenFour (t12 + (-1) * second) (t7 + (-1) * second) (t11 + 4 * minute),
    scenFour (t12 + (-1) * second) (t7 + (-1) * second) (t13 + (-1) * second),
    scenEnd (t12 + (-1) * second) (t7 + (-1) * second) (t13 + (-1) * second),
    capacityError "key3", expiredError "key2", getError "unknownKey", ?_⟩
  obtain ⟨e10, hd10, he10⟩ :=
    scen_delete_unknown (t5 + minute) (t7 + (-1) * second) 2 t10
  refine ⟨e10, scen_set1 _ _, scen_set2 _ _ _ (by omega), scen_set3 _ _ _ _ _ _ (by omega),
    rfl, scen_get1 _ _ _ _ _ _ (by norm_num) (by omega),
    scen_set5 _ _ _ _ _ _ (by omega) (by omega),
    scen_get1 _ _ _ _ _ _ (by norm_num) (by omega),
    scen_delete2 _ _ _ (by omega),
    scen_get_deleted _ _ _ _ _ (by norm_num) (by omega), rfl,
    scen_get_unknown _ _ _ _ _ (by norm_num), rfl, hd10, he10,
    scen_set4 _ _ _ _ (by omega) (by omega), rfl,
    scen_delete1 _ _ _ _ (by omega), scen_delete4 _ _ _ _ (by omega),
    scen_prune _ _ _ _ (by omega) (by omega), rfl⟩

/-- C15, at a concrete input: the clock readings 1, 2, ..., 14 (nanoseconds). -/
theorem end_to_end_scenario_witness :
    ((1 : Int) ≤ 2 ∧ (2 : Int) ≤ 3 ∧ (3 : Int) ≤ 4 ∧ (4 : Int) ≤ 5 ∧ (5 : Int) ≤ 6 ∧
      (6 : Int) ≤ 7 ∧ (7 : Int) ≤ 8 ∧ (8 : Int) ≤ 9 ∧ (9 : Int) ≤ 10 ∧ (10 : Int) ≤ 11 ∧
      (11 : Int) ≤ 12 ∧ (12 : Int) ≤ 13 ∧ (13 : Int) ≤ 14 ∧ (14 : Int) - 1 < minute) ∧
    ∃ c1 c2 c4 c5 c6 c7 c8 c9 c11 c12 c13 c14 e3 e8 e9 e10,
      (New 2).Set "key1" "val1" minute 1 = some (c1, none) ∧
      c1.Set "key2" "val2" (2 * minute) 2 = some (c2, none) ∧
      c2.Set "key3" "val3" (3 * minute) 3 = some (c2, some e3) ∧
      e3.wraps = Sentinel.ErrCapacity ∧
      c2.Get "key1" 4 = some (c4, "val1", none) ∧
      c4.Set "key1" "newVal1" minute 5 = some (c5, none) ∧
      c5.Get "key1" 6 = some (c6, "newVal1", none) ∧
      c6.Delete "key2" 7 = some (c7, none) ∧
      c7.Get "key2" 8 = some (c8, "", some e8) ∧ e8.wraps = Sentinel.ErrNotFound ∧
      c8.Get "unknownKey" 9 = some (c9, "", some e9) ∧
      e9.wraps = Sentinel.ErrNotFound ∧
      c9.Delete "unknownKey" 10 = some (c9, some e10) ∧
      e10.wraps = Sentinel.ErrNotFound ∧
      c9.Set "key4" "val4" (4 * minute) 11 = some (c11, none) ∧
      c11.Stats = { Hits := 2, Misses := 2, Evictions := 1 } ∧
      c11.Delete "key1" 12 = some (c12, none) ∧
      c12.Delete "key4" 13 = some (c13, none) ∧
      c13.Prune 14 = some c14 ∧
      c14.Stats = { Hits := 2, Misses := 2, Evictions := 3 } :=
  ⟨by decide,
    end_to_end_scenario 1 2 3 4 5 6 7 8 9 10 11 12 13 14 (by decide) (by decide) (by decide)
      (by decide) (by decide) (by decide) (by decide) (by decide) (by decide) (by decide)
      (by decide) (by decide) (by decide) (by decide)⟩

end Img
